import Mathlib

/-!
Shallow embedding of `lib/uint64set/uint64set.go` (VictoriaMetrics' uint64 set).

The Go data structure is a three-level trie:
* `Set` — top level, array of `bucket32` keyed by the upper 32 bits, plus a
  maintained cardinality counter `itemsCount`;
* `bucket32` — mid level, parallel arrays `b16his` (16-bit keys, bits 16..31)
  and `buckets` (leaf buckets), linear-scanned while `len(buckets) ≤ 32` and
  kept sorted with binary search above that, plus a `hint` index cache;
* `bucket16` — leaf, either a 56-slot small pool of 16-bit values or a
  bitmap of 1024 64-bit words.

Machine integers are modelled as `Nat` with the Go casts written as explicit
`% 2^16` / `% 2^32` truncations at exactly the places the source casts
(`uint16(x)`, `uint32(x >> 32)`, ...).  Go slices and fixed arrays are
modelled as `List`s; in-place mutation becomes returning the updated value.
`nil` pointer receivers are modelled with `Option`, and a `nil` dereference
(a Go runtime panic) with `GoResult.panics`.

Go's `sort.Sort`/`sort.Slice` (an unstable comparison sort) is modelled by
`List.insertionSort`: both produce a sorted permutation, and on the
duplicate-free key sequences maintained by this data structure the sorted
permutation is unique, so the model is exact.
-/

namespace U64Set

/-- `bitsPerBucket` constant from the source: `1 << 16`. -/
def bitsPerBucket : Nat := 1 <<< 16

/-- `wordsPerBucket` constant from the source: `bitsPerBucket / 64`. -/
def wordsPerBucket : Nat := bitsPerBucket / 64

/-- `maxUnsortedBuckets` constant from the source. -/
def maxUnsortedBuckets : Nat := 32

/-- Fuel-based counter of trailing zero bits; `ctzAux 64 w` models
`math/bits.TrailingZeros64 w` for `w < 2^64` (and returns 64 on input 0). -/
def ctzAux : Nat → Nat → Nat
  | 0, _ => 0
  | fuel + 1, w => if w % 2 = 1 then 0 else ctzAux fuel (w / 2) + 1

/-- Models `math/bits.TrailingZeros64`. -/
def trailingZeros64 (w : Nat) : Nat := ctzAux 64 w

/-- Models `math/bits.OnesCount64` for `w < 2^64`: the number of set bits. -/
def onesCount64 (w : Nat) : Nat := ((List.range 64).filter (fun i => w.testBit i)).length

/-- Models Go's 64-bit AND-NOT `w &^ m` (for `m` with bits only below 64):
AND with the complement of `m` inside a 64-bit word. -/
def landNot64 (w m : Nat) : Nat := w &&& (m ^^^ (2 ^ 64 - 1))

/-- `getWordNumBitMask` from the source: `(x / 64, 1 << (x & 63))`. -/
def getWordNumBitMask (x : Nat) : Nat × Nat := (x / 64, 1 <<< (x % 64))

/-- Leaf bucket: values sharing the upper 48 bits, storing the low 16 bits.
`bits = some ws` is bitmap mode (1024 words); `bits = none` is small-pool
mode.  `smallPool` models the fixed `[56]uint16` array (length 56 always,
slots at index `≥ smallPoolLen` are garbage, zero in the Go zero value). -/
structure bucket16 where
  bits : Option (List Nat)
  smallPoolLen : Nat
  smallPool : List Nat
deriving DecidableEq, Repr

/-- The Go zero value `bucket16{}`. -/
def emptyB16 : bucket16 := ⟨none, 0, List.replicate 56 0⟩

instance : Inhabited bucket16 := ⟨emptyB16⟩

/-- Setting one bit in the bitmap: the body of `bucket16.add` in bitmap mode.
Returns `(previously unset?, updated words)`. -/
def bucket16.addBits (ws : List Nat) (x : Nat) : Bool × List Nat :=
  let wn := (getWordNumBitMask x).1
  let mask := (getWordNumBitMask x).2
  let word := ws.getD wn 0
  ((word &&& mask) == 0, ws.set wn (word ||| mask))

/-- `bucket16.hasInSmallPool`: linear scan of `smallPool[:smallPoolLen]`. -/
def bucket16.hasInSmallPool (b : bucket16) (x : Nat) : Bool :=
  (b.smallPool.take b.smallPoolLen).contains x

/-- `bucket16.addToSmallPool`: append to the pool, or promote to bitmap mode
when the pool is full (re-adding all 56 pool entries, then `x`). -/
def bucket16.addToSmallPool (b : bucket16) (x : Nat) : Bool × bucket16 :=
  if b.hasInSmallPool x then (false, b)
  else if b.smallPoolLen < b.smallPool.length then
    (true, { b with smallPool := b.smallPool.set b.smallPoolLen x,
                    smallPoolLen := b.smallPoolLen + 1 })
  else
    let ws0 : List Nat := List.replicate wordsPerBucket 0
    let ws1 := b.smallPool.foldl (fun ws v => (bucket16.addBits ws v).2) ws0
    let ws2 := (bucket16.addBits ws1 x).2
    (true, { bits := some ws2, smallPoolLen := 0, smallPool := b.smallPool })

/-- `bucket16.add`. -/
def bucket16.add (b : bucket16) (x : Nat) : Bool × bucket16 :=
  match b.bits with
  | none => b.addToSmallPool x
  | some ws =>
    let r := bucket16.addBits ws x
    (r.1, { b with bits := some r.2 })

/-- `bucket16.has`. -/
def bucket16.has (b : bucket16) (x : Nat) : Bool :=
  match b.bits with
  | none => b.hasInSmallPool x
  | some ws =>
    let wn := (getWordNumBitMask x).1
    let mask := (getWordNumBitMask x).2
    (ws.getD wn 0 &&& mask) != 0

/-- `bucket16.delFromSmallPool`: find `x`, shift the tail left by one
(`copy(pool[i:], pool[i+1:])` leaves the last slot unchanged), decrement. -/
def bucket16.delFromSmallPool (b : bucket16) (x : Nat) : Bool × bucket16 :=
  match (b.smallPool.take b.smallPoolLen).findIdx? (fun v => v == x) with
  | none => (false, b)
  | some i =>
    (true, { b with
        smallPool := b.smallPool.take i ++ b.smallPool.drop (i + 1) ++
          b.smallPool.drop (b.smallPool.length - 1),
        smallPoolLen := b.smallPoolLen - 1 })

/-- `bucket16.del`. -/
def bucket16.del (b : bucket16) (x : Nat) : Bool × bucket16 :=
  match b.bits with
  | none => b.delFromSmallPool x
  | some ws =>
    let wn := (getWordNumBitMask x).1
    let mask := (getWordNumBitMask x).2
    let word := ws.getD wn 0
    ((word &&& mask) != 0, { b with bits := some (ws.set wn (landNot64 word mask)) })

/-- The inner trailing-zeros extraction loop of `bucket16.appendTo` on one
bitmap word: repeatedly take the lowest set bit and clear it.  At most 64
iterations happen for a 64-bit word, so fuel 64 is exact. -/
def wordToBitsAux : Nat → Nat → List Nat
  | 0, _ => []
  | fuel + 1, word =>
    let tzn := trailingZeros64 word
    if 64 ≤ tzn then []
    else tzn :: wordToBitsAux fuel (landNot64 word (1 <<< tzn))

/-- The bitmap-mode emission loop of `bucket16.appendTo`: walk the words with
their index `wordNum`, emitting `hi64 | wordNum*64 | tzn` for each set bit. -/
def bitsAppendAux (hi64 : Nat) : List Nat → Nat → List Nat
  | [], _ => []
  | word :: rest, wordNum =>
    (if word == 0 then []
     else (wordToBitsAux 64 word).map (fun tzn => hi64 ||| wordNum * 64 ||| tzn))
      ++ bitsAppendAux hi64 rest (wordNum + 1)

/-- `bucket16.appendTo`: reconstruct full values under the 48-bit `hi64`
base.  In pool mode the pool slice is sorted in place first
(`sort.Slice`, modelled by `insertionSort`), which is why the updated bucket
is returned alongside the output. -/
def bucket16.appendTo (b : bucket16) (dst : List Nat) (hi : Nat) (hi16 : Nat) :
    List Nat × bucket16 :=
  let hi64 := hi <<< 32 ||| hi16 <<< 16
  match b.bits with
  | none =>
    let a := b.smallPool.take b.smallPoolLen
    let a2 := if 1 < a.length then List.insertionSort (· ≤ ·) a else a
    (dst ++ a2.map (fun v => hi64 ||| v),
     { b with smallPool := a2 ++ b.smallPool.drop b.smallPoolLen })
  | some ws => (dst ++ bitsAppendAux hi64 ws 0, b)

/-- The loop of `binarySearch16` (adapted in the source from `sort.Search`):
invariant-free lower-bound search on `[i, j)`. -/
def bsLoop (u16 : List Nat) (x : Nat) (i j : Nat) : Nat :=
  if _h : i < j then
    let m := (i + j) / 2
    if decide (m < u16.length) && decide (u16.getD m 0 < x) then
      bsLoop u16 x (m + 1) j
    else
      bsLoop u16 x i m
  else i
termination_by j - i
decreasing_by
  · omega
  · omega

/-- `binarySearch16`: least index whose key is `≥ x` (length if none). -/
def binarySearch16 (u16 : List Nat) (x : Nat) : Nat := bsLoop u16 x 0 u16.length

/-- Mid bucket: all leaves sharing the upper 32 bits `hi`, with parallel
arrays `b16his`/`buckets` and the last-access `hint` cache (a Go `int` that
is always assigned non-negative values, hence a `Nat`). -/
structure bucket32 where
  hi : Nat
  b16his : List Nat
  buckets : List bucket16
  hint : Nat
deriving DecidableEq, Repr

/-- The Go zero value `bucket32{}`. -/
def emptyB32 : bucket32 := ⟨0, [], [], 0⟩

instance : Inhabited bucket32 := ⟨emptyB32⟩

/-- Go's `sort.IsSorted` check: keys pairwise non-decreasing. -/
def isNonDecr : List Nat → Bool
  | a :: b :: t => decide (a ≤ b) && isNonDecr (b :: t)
  | _ => true

/-- Unconditional `sort.Sort(b)` on the parallel arrays (`Swap` exchanges a
key and its leaf together, so sort the zipped pairs by key). -/
def bucket32.doSort (b : bucket32) : bucket32 :=
  let ps := (b.b16his.zip b.buckets).insertionSort (fun p q => p.1 ≤ q.1)
  { b with b16his := ps.map Prod.fst, buckets := ps.map Prod.snd }

/-- `bucket32.sort`: sort only if not already sorted. -/
def bucket32.sort (b : bucket32) : bucket32 :=
  if isNonDecr b.b16his then b else b.doSort

/-- `bucket32.cloneShallow` (duplicates the outer arrays only; in this value
model list contents are copied as values, so it is the identity copy). -/
def bucket32.cloneShallow (b : bucket32) : bucket32 :=
  ⟨b.hi, b.b16his, b.buckets, b.hint⟩

/-- `bucket32.addAllocSmall`: append the new key and a fresh leaf holding
`lo`; one-time sort when the count crosses `maxUnsortedBuckets`. -/
def bucket32.addAllocSmall (b : bucket32) (hi lo : Nat) : bucket32 :=
  let b1 := { b with b16his := b.b16his ++ [hi],
                     buckets := b.buckets ++ [(emptyB16.add lo).2] }
  if maxUnsortedBuckets < b1.buckets.length then b1.doSort else b1

/-- `bucket32.addAllocBig`: shift-insert the new key and a fresh leaf at the
binary-search position `n` (append when `n` is past the end).  The source's
`n < 0` branch is a Go bounds-check hint and cannot fire for `Nat`. -/
def bucket32.addAllocBig (b : bucket32) (hi lo : Nat) (n : Nat) : bucket32 :=
  if b.b16his.length ≤ n then
    { b with b16his := b.b16his ++ [hi],
             buckets := b.buckets ++ [(emptyB16.add lo).2] }
  else
    { b with b16his := b.b16his.take n ++ [hi] ++ b.b16his.drop n,
             buckets := b.buckets.take n ++ [(emptyB16.add lo).2] ++ b.buckets.drop n }

/-- `bucket32.addSlow`: binary search above the unsorted threshold, linear
scan at or below it; allocates the leaf on a miss. -/
def bucket32.addSlow (b : bucket32) (hi lo : Nat) : Bool × bucket32 :=
  if maxUnsortedBuckets < b.buckets.length then
    let n := binarySearch16 b.b16his hi
    let b1 := { b with hint := n }
    if b1.b16his.length ≤ n || b1.b16his.getD n 0 != hi then
      (true, b1.addAllocBig hi lo n)
    else if n < b1.buckets.length then
      let r := (b1.buckets.getD n emptyB16).add lo
      (r.1, { b1 with buckets := b1.buckets.set n r.2 })
    else (false, b1)
  else
    match b.b16his.findIdx? (fun h => h == hi) with
    | some i =>
      let b1 := { b with hint := i }
      if i < b1.buckets.length then
        let r := (b1.buckets.getD i emptyB16).add lo
        (r.1, { b1 with buckets := b1.buckets.set i r.2 })
      else (false, b1)
    | none => (true, b.addAllocSmall hi lo)

/-- `bucket32.add`: hint fast path, else `addSlow`. -/
def bucket32.add (b : bucket32) (x : Nat) : Bool × bucket32 :=
  let hi := (x >>> 16) % 65536
  let lo := x % 65536
  if decide (b.hint < b.b16his.length) && (b.b16his.getD b.hint 0 == hi) then
    if b.hint < b.buckets.length then
      let r := (b.buckets.getD b.hint emptyB16).add lo
      (r.1, { b with buckets := b.buckets.set b.hint r.2 })
    else (false, b)
  else b.addSlow hi lo

/-- `bucket32.hasSlow`: binary-search lookup. -/
def bucket32.hasSlow (b : bucket32) (hi lo : Nat) : Bool :=
  let n := binarySearch16 b.b16his hi
  if b.b16his.length ≤ n || b.b16his.getD n 0 != hi then false
  else decide (n < b.buckets.length) && (b.buckets.getD n emptyB16).has lo

/-- `bucket32.has` (does not consult the hint). -/
def bucket32.has (b : bucket32) (x : Nat) : Bool :=
  let hi := (x >>> 16) % 65536
  let lo := x % 65536
  if maxUnsortedBuckets < b.buckets.length then b.hasSlow hi lo
  else
    match b.b16his.findIdx? (fun h => h == hi) with
    | some i => decide (i < b.buckets.length) && (b.buckets.getD i emptyB16).has lo
    | none => false

/-- `bucket32.delSlow`. -/
def bucket32.delSlow (b : bucket32) (hi lo : Nat) : Bool × bucket32 :=
  if maxUnsortedBuckets < b.buckets.length then
    let n := binarySearch16 b.b16his hi
    let b1 := { b with hint := n }
    if b1.b16his.length ≤ n || b1.b16his.getD n 0 != hi then (false, b1)
    else if n < b1.buckets.length then
      let r := (b1.buckets.getD n emptyB16).del lo
      (r.1, { b1 with buckets := b1.buckets.set n r.2 })
    else (false, b1)
  else
    match b.b16his.findIdx? (fun h => h == hi) with
    | some i =>
      let b1 := { b with hint := i }
      if i < b1.buckets.length then
        let r := (b1.buckets.getD i emptyB16).del lo
        (r.1, { b1 with buckets := b1.buckets.set i r.2 })
      else (false, b1)
    | none => (false, b)

/-- `bucket32.del`: hint fast path, else `delSlow`. -/
def bucket32.del (b : bucket32) (x : Nat) : Bool × bucket32 :=
  let hi := (x >>> 16) % 65536
  let lo := x % 65536
  if decide (b.hint < b.b16his.length) && (b.b16his.getD b.hint 0 == hi) then
    if b.hint < b.buckets.length then
      let r := (b.buckets.getD b.hint emptyB16).del lo
      (r.1, { b with buckets := b.buckets.set b.hint r.2 })
    else (false, b)
  else b.delSlow hi lo

/-- The emission loop of `bucket32.appendTo`: each leaf in index order,
threading the leaf mutations (pool sorts) done by `bucket16.appendTo`. -/
def b16listAppend (hi : Nat) : List (Nat × bucket16) → List Nat → List Nat × List bucket16
  | [], dst => (dst, [])
  | (h, leaf) :: rest, dst =>
    let r := leaf.appendTo dst hi h
    let r2 := b16listAppend hi rest r.1
    (r2.1, r.2 :: r2.2)

/-- `bucket32.appendTo`: sort first while in the unsorted regime, then emit
every leaf (the sorted regime maintains key order as an invariant). -/
def bucket32.appendTo (b : bucket32) (dst : List Nat) : List Nat × bucket32 :=
  let b1 := if b.buckets.length ≤ maxUnsortedBuckets then b.sort else b
  let r := b16listAppend b1.hi (b1.b16his.zip b1.buckets) dst
  (r.1, { b1 with buckets := r.2 })

/-- The per-leaf parts passed to `f` by `bucket32.forEach`: each part is one
leaf's reconstructed values, built in a scratch buffer (`buf[:0]`, so each
part starts empty; the buffer pooling is allocation reuse only). -/
def bucket32.forEachParts (b : bucket32) : List (List Nat) :=
  (b.b16his.zip b.buckets).map (fun p => (p.2.appendTo [] b.hi p.1).1)

/-- The word-wise AND loop of `bucket16.intersect` (both sides bitmap):
returns the accumulated popcount and the updated receiver words. -/
def interBitsAux : List Nat → List Nat → Nat × List Nat
  | aw :: arest, bw :: brest =>
    let bx := bw &&& aw
    let r := interBitsAux arest brest
    (r.1 + (if 0 < bx then onesCount64 bx else 0), bx :: r.2)
  | _, _ => (0, [])

/-- `bucket16.intersect`: word-wise AND fast path when both sides are in
bitmap mode; otherwise enumerate the receiver (via `appendTo` with a zero
base, which may sort the pool) and delete members absent from `a`. -/
def bucket16.intersect (b a : bucket16) : Nat × bucket16 :=
  match a.bits, b.bits with
  | some wa, some wb =>
    let r := interBitsAux wa wb
    (r.1, { b with bits := some r.2 })
  | _, _ =>
    let p := b.appendTo [] 0 0
    p.1.foldl
      (fun (acc : Nat × bucket16) (x : Nat) =>
        let x16 := x % 65536
        if a.has x16 then acc else (acc.1 - 1, (acc.2.del x16).2))
      (p.1.length, p.2)

/-- Tail-zeroing loop shared by the merge-joins: `buckets[k] = zero` for
`k ∈ [i, n)`. -/
def zeroLoop16 (bb : List bucket16) (i n : Nat) : List bucket16 :=
  if i < n then zeroLoop16 (bb.set i emptyB16) (i + 1) n else bb
termination_by n - i

/-- The merge-join loop of `bucket32.intersect` over the two (sorted) key
arrays: zero receiver leaves with unmatched keys, intersect matched ones. -/
def interLoop32 (bh ah : List Nat) (bb ab : List bucket16) (i j cnt : Nat) :
    Nat × List bucket16 :=
  if decide (i < bh.length) && decide (j < ah.length) && decide (bh.getD i 0 < ah.getD j 0) then
    interLoop32 bh ah (bb.set i emptyB16) ab (i + 1) j cnt
  else if bh.length ≤ i then (cnt, bb)
  else if decide (j < ah.length) && decide (ah.getD j 0 < bh.getD i 0) then
    interLoop32 bh ah bb ab i (j + 1) cnt
  else if ah.length ≤ j then (cnt, zeroLoop16 bb i bh.length)
  else if bh.getD i 0 == ah.getD j 0 then
    let r := (bb.getD i emptyB16).intersect (ab.getD j emptyB16)
    interLoop32 bh ah (bb.set i r.2) ab (i + 1) (j + 1) (cnt + r.1)
  else (cnt, bb)
termination_by (bh.length - i) + (ah.length - j)
decreasing_by
  all_goals simp_all only [Bool.and_eq_true, decide_eq_true_eq, List.length_set]
  all_goals omega

/-- `bucket32.intersect`: shallow-copy and sort the operand, sort the
receiver, then merge-join.  Only the receiver's leaf array is written. -/
def bucket32.intersect (b a : bucket32) : Nat × bucket32 :=
  let a1 := a.cloneShallow.sort
  let b1 := b.sort
  let r := interLoop32 b1.b16his a1.b16his b1.buckets a1.buckets 0 0 0
  (r.1, { b1 with buckets := r.2 })

/-- Top-level set: maintained cardinality plus the mid-bucket array. -/
structure Set where
  itemsCount : Nat
  buckets : List bucket32
deriving DecidableEq, Repr

/-- The Go zero value `Set{}`. -/
def emptySet : Set := ⟨0, []⟩

instance : Inhabited Set := ⟨emptySet⟩

/-- `Set.Len` on a non-nil receiver (`nilLen` handles the nil check). -/
def Set.Len (s : Set) : Nat := s.itemsCount

/-- `Set.Add`: locate the mid bucket of `uint32(x >> 32)` by linear first
match, or allocate one at the end; increment `itemsCount` when the inner add
reports a new element. -/
def Set.Add (s : Set) (x : Nat) : Set :=
  let hi := (x >>> 32) % 4294967296
  let lo := x % 4294967296
  match s.buckets.findIdx? (fun b => b.hi == hi) with
  | some i =>
    let r := (s.buckets.getD i emptyB32).add lo
    { itemsCount := s.itemsCount + (if r.1 then 1 else 0),
      buckets := s.buckets.set i r.2 }
  | none =>
    { itemsCount := s.itemsCount + 1,
      buckets := s.buckets ++ [({ emptyB32 with hi := hi }.add lo).2] }

/-- `Set.Has` on a non-nil receiver. -/
def Set.Has (s : Set) (x : Nat) : Bool :=
  let hi := (x >>> 32) % 4294967296
  let lo := x % 4294967296
  match s.buckets.findIdx? (fun b => b.hi == hi) with
  | some i => (s.buckets.getD i emptyB32).has lo
  | none => false

/-- `Set.Del`.  The Go method returns nothing; the `Bool` component here is
the inner `b32.del(lo)` result that the source computes and uses to guard
the `itemsCount--` decrement (i.e. whether a removal actually occurred). -/
def Set.Del (s : Set) (x : Nat) : Bool × Set :=
  let hi := (x >>> 32) % 4294967296
  let lo := x % 4294967296
  match s.buckets.findIdx? (fun b => b.hi == hi) with
  | some i =>
    let r := (s.buckets.getD i emptyB32).del lo
    (r.1, { itemsCount := s.itemsCount - (if r.1 then 1 else 0),
            buckets := s.buckets.set i r.2 })
  | none => (false, s)

/-- `Set.sort`: sort the mid buckets by `hi` if not already sorted. -/
def Set.sort (s : Set) : Set :=
  if isNonDecr (s.buckets.map bucket32.hi) then s
  else { s with buckets := s.buckets.insertionSort (fun p q => p.hi ≤ q.hi) }

/-- The emission loop of `Set.AppendTo` over the mid buckets. -/
def b32listAppend : List bucket32 → List Nat → List Nat × List bucket32
  | [], dst => (dst, [])
  | b :: rest, dst =>
    let r := b.appendTo dst
    let r2 := b32listAppend rest r.1
    (r2.1, r.2 :: r2.2)

/-- `Set.AppendTo` on a non-nil receiver: lazily sort, then emit every mid
bucket.  (The source's capacity pre-allocation block changes only slice
capacity, never the value of `dst`, so it has no counterpart here.) -/
def Set.AppendTo (s : Set) (dst : List Nat) : List Nat × Set :=
  let s1 := s.sort
  let r := b32listAppend s1.buckets dst
  (r.1, { s1 with buckets := r.2 })

/-- `Set.Clone` on a non-nil receiver: an empty source yields a fresh empty
set; otherwise a deep copy, which for immutable values is the value itself
(`copyTo` copies every field including `hint`). -/
def Set.Clone (s : Set) : Set :=
  if s.itemsCount == 0 then emptySet else s

/-- The parts passed to `f` by `Set.ForEach` on a non-nil receiver. -/
def Set.forEachParts (s : Set) : List (List Nat) :=
  (s.buckets.map bucket32.forEachParts).flatten

/-- All elements enumerated by `Set.ForEach`, in part order. -/
def Set.elems (s : Set) : List Nat := s.forEachParts.flatten

/-- `Set.union`: optional consuming swap, empty fast paths, else add every
element of `a` via the `ForEach` enumeration. -/
def Set.union (s a : Set) (mayOwn : Bool) : Set :=
  let p := if mayOwn && decide (s.Len < a.Len) then (a, s) else (s, a)
  let s1 := p.1
  let a1 := p.2
  if a1.Len == 0 then s1
  else if s1.Len == 0 then a1.Clone
  else a1.elems.foldl Set.Add s1

/-- `Set.Union`. -/
def Set.Union (s a : Set) : Set := s.union a false

/-- `Set.UnionMayOwn`. -/
def Set.UnionMayOwn (s a : Set) : Set := s.union a true

/-- `Set.cloneShallow` (value model of the outer-array copy). -/
def Set.cloneShallow (s : Set) : Set := ⟨s.itemsCount, s.buckets⟩

/-- Tail-zeroing loop of the top-level merge-join. -/
def zeroLoop32 (bb : List bucket32) (i n : Nat) : List bucket32 :=
  if i < n then zeroLoop32 (bb.set i emptyB32) (i + 1) n else bb
termination_by n - i

/-- The top-level merge-join loop of `Set.Intersect` over the two (sorted)
mid-bucket arrays, zeroing unmatched receiver buckets in place. -/
def interLoopTop (sb ab : List bucket32) (i j cnt : Nat) : Nat × List bucket32 :=
  if decide (i < sb.length) && decide (j < ab.length) &&
      decide ((sb.getD i emptyB32).hi < (ab.getD j emptyB32).hi) then
    interLoopTop (sb.set i emptyB32) ab (i + 1) j cnt
  else if sb.length ≤ i then (cnt, sb)
  else if decide (j < ab.length) &&
      decide ((ab.getD j emptyB32).hi < (sb.getD i emptyB32).hi) then
    interLoopTop sb ab i (j + 1) cnt
  else if ab.length ≤ j then (cnt, zeroLoop32 sb i sb.length)
  else if (sb.getD i emptyB32).hi == (ab.getD j emptyB32).hi then
    let r := (sb.getD i emptyB32).intersect (ab.getD j emptyB32)
    interLoopTop (sb.set i r.2) ab (i + 1) (j + 1) (cnt + r.1)
  else (cnt, sb)
termination_by (sb.length - i) + (ab.length - j)
decreasing_by
  all_goals simp_all only [Bool.and_eq_true, decide_eq_true_eq, List.length_set]
  all_goals omega

/-- `Set.Intersect`: empty fast path, else shallow-copy and sort the
operand, sort the receiver, merge-join, and store the recomputed count. -/
def Set.Intersect (s a : Set) : Set :=
  if s.Len == 0 || a.Len == 0 then emptySet
  else
    let a1 := a.cloneShallow.sort
    let s1 := s.sort
    let r := interLoopTop s1.buckets a1.buckets 0 0 0
    { itemsCount := r.1, buckets := r.2 }

/-- Result of calling a method on a possibly-nil pointer receiver:
`panics` models a Go nil-dereference runtime panic. -/
inductive GoResult (α : Type) where
  | panics : GoResult α
  | ok : α → GoResult α
deriving DecidableEq, Repr

/-- `Set.Len` with its nil-receiver check. -/
def nilLen (s : Option Set) : Nat :=
  match s with
  | none => 0
  | some t => t.Len

/-- `Set.Has` with its nil-receiver check. -/
def nilHas (s : Option Set) (x : Nat) : Bool :=
  match s with
  | none => false
  | some t => t.Has x

/-- `Set.Add` on a possibly-nil receiver.  `Set.Add` has no nil check: it
ranges over `s.buckets`, dereferencing the receiver, so a nil receiver
panics. -/
def nilAdd (s : Option Set) (x : Nat) : GoResult Set :=
  match s with
  | none => GoResult.panics
  | some t => GoResult.ok (t.Add x)

/-- `Set.AppendTo` with its nil-receiver check (returns `dst` unchanged). -/
def nilAppendTo (s : Option Set) (dst : List Nat) : List Nat :=
  match s with
  | none => dst
  | some t => (t.AppendTo dst).1

/-- `Set.ForEach` parts with the nil-receiver check (no parts on nil). -/
def nilForEachParts (s : Option Set) : List (List Nat) :=
  match s with
  | none => []
  | some t => t.forEachParts

/-! ## Semantic layer: membership lists and well-formedness invariants -/

/-- The set-bit positions of one 64-bit word, ascending. -/
def wordBitsS (w : Nat) : List Nat := (List.range 64).filter (fun i => w.testBit i)

/-- All values stored in a bitmap word list starting at word index `k`. -/
def bitsElemsFrom : List Nat → Nat → List Nat
  | [], _ => []
  | w :: ws, k => (wordBitsS w).map (fun t => 64 * k + t) ++ bitsElemsFrom ws (k + 1)

/-- All values stored in a bitmap, ascending. -/
def bitsElems (ws : List Nat) : List Nat := bitsElemsFrom ws 0

/-- The members of a leaf bucket (low-16 values). -/
def bucket16.elems (b : bucket16) : List Nat :=
  match b.bits with
  | none => b.smallPool.take b.smallPoolLen
  | some ws => bitsElems ws

/-- Leaf invariant: the pool is a 56-slot array, the used prefix holds
distinct 16-bit values, and bitmap mode has 1024 words of 64 bits. -/
def bucket16.wf (b : bucket16) : Bool :=
  (b.smallPool.length == 56) &&
  decide (b.smallPoolLen ≤ 56) &&
  decide ((b.smallPool.take b.smallPoolLen).Nodup) &&
  decide (∀ v ∈ b.smallPool.take b.smallPoolLen, v < 65536) &&
  (match b.bits with
   | none => true
   | some ws => (ws.length == 1024) && decide (∀ w ∈ ws, w < 2 ^ 64))

/-- The members of a keyed leaf array (low-32 values: `key16 * 2^16 + low16`). -/
def pairElems (hs : List Nat) (bs : List bucket16) : List Nat :=
  ((hs.zip bs).map (fun p => p.2.elems.map (fun v => p.1 * 65536 + v))).flatten

/-- The members of a mid bucket (low-32 values). -/
def bucket32.elems (b : bucket32) : List Nat :=
  pairElems b.b16his b.buckets

/-- Mid-bucket invariant: parallel arrays of equal length, distinct 16-bit
keys, sorted keys in the binary-search regime, well-formed leaves. -/
def bucket32.wf (b : bucket32) : Bool :=
  decide (b.hi < 4294967296) &&
  (b.b16his.length == b.buckets.length) &&
  decide b.b16his.Nodup &&
  decide (∀ h ∈ b.b16his, h < 65536) &&
  (decide (b.buckets.length ≤ maxUnsortedBuckets) ||
     decide (List.Pairwise (· < ·) b.b16his)) &&
  b.buckets.all bucket16.wf

/-- The members of a mid-bucket array (full 64-bit values). -/
def topElems (bs : List bucket32) : List Nat :=
  (bs.map (fun b => b.elems.map (fun v => b.hi * 4294967296 + v))).flatten

/-- The members of a set (full 64-bit values). -/
def Set.memberList (s : Set) : List Nat :=
  topElems s.buckets

/-- Top-level invariant: distinct mid-bucket keys, well-formed mid buckets,
and `itemsCount` equal to the true cardinality. -/
def Set.wf (s : Set) : Bool :=
  decide ((s.buckets.map bucket32.hi).Nodup) &&
  s.buckets.all bucket32.wf &&
  (s.itemsCount == s.memberList.length)

/-! ## Generic list and bit-manipulation lemmas -/

theorem getD_set_self {α : Type _} (l : List α) (i : Nat) (v d : α) (h : i < l.length) :
    (l.set i v).getD i d = v := by
  simp [List.getD_eq_getElem?_getD, List.getElem?_set, h]

theorem getD_set_ne {α : Type _} (l : List α) (i j : Nat) (v d : α) (h : i ≠ j) :
    (l.set i v).getD j d = l.getD j d := by
  simp [List.getD_eq_getElem?_getD, List.getElem?_set, h]

theorem getD_eq_getElem {α : Type _} (l : List α) (i : Nat) (d : α) (h : i < l.length) :
    l.getD i d = l[i] := by
  simp [List.getD_eq_getElem?_getD, List.getElem?_eq_getElem h]

theorem findIdx?_some_spec {α : Type _} {p : α → Bool} :
    ∀ {l : List α} {i : Nat}, l.findIdx? p = some i →
      ∃ h : i < l.length, p l[i] = true ∧ ∀ k, (hk : k < l.length) → k < i → p l[k] = false := by
  intro l
  induction l with
  | nil => intro i h; simp [List.findIdx?_nil] at h
  | cons a t ih =>
    intro i h
    rw [List.findIdx?_cons] at h
    by_cases hp : p a = true
    · simp [hp] at h
      subst h
      exact ⟨by simp, by simpa using hp, fun k hk hk0 => absurd hk0 (Nat.not_lt_zero k)⟩
    · rw [if_neg hp] at h
      rw [List.findIdx?_succ] at h
      rcases ho : List.findIdx? p t with _ | j
      · rw [ho] at h; simp at h
      · rw [ho] at h
        simp at h
        obtain ⟨hlen, hpj, hlt⟩ := ih ho
        subst h
        refine ⟨by simpa using hlen, by simpa using hpj, ?_⟩
        intro k hk hki
        cases k with
        | zero => simpa using hp
        | succ m =>
          have hm : m < t.length := by simpa using hk
          simpa using hlt m hm (by omega)

theorem shiftLeft_one (i : Nat) : 1 <<< i = 2 ^ i := Nat.one_shiftLeft i

theorem land_mask_eq_testBit (w i : Nat) : ((w &&& (1 <<< i)) != 0) = w.testBit i := by
  rw [shiftLeft_one]
  rcases h : w.testBit i with _ | _
  · have : w &&& 2 ^ i = 0 := by
      apply Nat.eq_of_testBit_eq
      intro j
      rw [Nat.testBit_and, Nat.testBit_two_pow, Nat.zero_testBit]
      rcases eq_or_ne i j with rfl | hne
      · simp [h]
      · simp [hne]
    simp [this]
  · have : w &&& 2 ^ i ≠ 0 := by
      intro hc
      have := congrArg (Nat.testBit · i) hc
      simp [Nat.testBit_and, h] at this
    simp [this]

theorem land_mask_eq_zero (w i : Nat) : ((w &&& (1 <<< i)) == 0) = !w.testBit i := by
  have := land_mask_eq_testBit w i
  rcases h : w.testBit i with _ | _ <;> rw [h] at this <;> simp_all

theorem testBit_lor_mask (w i j : Nat) :
    (w ||| (1 <<< i)).testBit j = (w.testBit j || decide (i = j)) := by
  rw [shiftLeft_one, Nat.testBit_lor, Nat.testBit_two_pow]

theorem landNot64_testBit (w m i : Nat) (hi : i < 64) :
    (landNot64 w m).testBit i = (w.testBit i && !m.testBit i) := by
  rw [landNot64, Nat.testBit_and, Nat.testBit_xor, Nat.testBit_two_pow_sub_one]
  simp [hi]

theorem landNot64_le (w m : Nat) : landNot64 w m ≤ w := Nat.and_le_left

theorem landNot64_testBit_ge (w m i : Nat) (hw : w < 2 ^ 64) (hi : 64 ≤ i) :
    (landNot64 w m).testBit i = false := by
  apply Nat.testBit_eq_false_of_lt
  calc landNot64 w m ≤ w := landNot64_le w m
    _ < 2 ^ 64 := hw
    _ ≤ 2 ^ i := Nat.pow_le_pow_right (by norm_num) hi

theorem testBit_false_of_lt_two_pow {w i k : Nat} (hw : w < 2 ^ k) (hi : k ≤ i) :
    w.testBit i = false :=
  Nat.testBit_eq_false_of_lt (lt_of_lt_of_le hw (Nat.pow_le_pow_right (by norm_num) hi))

/-- OR of a shifted value with a small value is addition (disjoint bits). -/
theorem lor_mul_pow_add (k a b : Nat) (hb : b < 2 ^ k) :
    (2 ^ k * a) ||| b = 2 ^ k * a + b := by
  apply Nat.eq_of_testBit_eq
  intro j
  rw [Nat.testBit_lor, Nat.testBit_mul_pow_two_add a hb j, Nat.testBit_mul_pow_two]
  rcases Nat.lt_or_ge j k with hj | hj
  · simp [hj, Nat.not_le.mpr hj]
  · simp [hj, Nat.not_lt.mpr hj, testBit_false_of_lt_two_pow hb hj]

theorem lor_base_add {base v k : Nat} (hbase : base % 2 ^ k = 0) (hv : v < 2 ^ k) :
    base ||| v = base + v := by
  have : base = 2 ^ k * (base / 2 ^ k) := by
    conv_lhs => rw [← Nat.div_add_mod base (2 ^ k)]
    omega
  rw [this, lor_mul_pow_add _ _ _ hv]

theorem hi64_eq_add (hi hi16 : Nat) (h16 : hi16 < 65536) :
    hi <<< 32 ||| hi16 <<< 16 = hi * 4294967296 + hi16 * 65536 := by
  rw [Nat.shiftLeft_eq, Nat.shiftLeft_eq]
  have h1 : hi16 * 2 ^ 16 < 2 ^ 32 := by
    have : hi16 * 2 ^ 16 < 2 ^ 16 * 2 ^ 16 := by
      apply Nat.mul_lt_mul_of_lt_of_le h16 (le_refl _)
      norm_num
    simpa [← pow_add] using this
  have := lor_mul_pow_add 32 hi (hi16 * 2 ^ 16) h1
  rw [Nat.mul_comm (2 ^ 32) hi] at this
  rw [this]
  norm_num

theorem hi64_mod (hi hi16 : Nat) :
    (hi * 4294967296 + hi16 * 65536) % 65536 = 0 := by
  omega

/-! ## Trailing zero count -/

theorem ctzAux_zero (fuel : Nat) : ctzAux fuel 0 = fuel := by
  induction fuel with
  | zero => rfl
  | succ n ih => simp [ctzAux, ih]

theorem ctzAux_spec :
    ∀ (fuel w : Nat), w ≠ 0 → w < 2 ^ fuel →
      ctzAux fuel w < fuel ∧ w.testBit (ctzAux fuel w) = true ∧
        ∀ k, k < ctzAux fuel w → w.testBit k = false := by
  intro fuel
  induction fuel with
  | zero => intro w hw hlt; omega
  | succ n ih =>
    intro w hw hlt
    by_cases hodd : w % 2 = 1
    · refine ⟨by simp [ctzAux, hodd], ?_, ?_⟩
      · simp [ctzAux, hodd, Nat.testBit_zero, hodd]
      · intro k hk
        simp [ctzAux, hodd] at hk
    · have hw2 : w / 2 ≠ 0 := by omega
      have hlt2 : w / 2 < 2 ^ n := by
        have : 2 * (w / 2) ≤ w := by omega
        have hpow : 2 ^ (n + 1) = 2 * 2 ^ n := by ring
        omega
      obtain ⟨h1, h2, h3⟩ := ih (w / 2) hw2 hlt2
      have hc : ctzAux (n + 1) w = ctzAux n (w / 2) + 1 := by simp [ctzAux, hodd]
      refine ⟨by omega, ?_, ?_⟩
      · rw [hc, Nat.testBit_succ]
        exact h2
      · intro k hk
        rw [hc] at hk
        cases k with
        | zero => simp [Nat.testBit_zero]; omega
        | succ m =>
          rw [Nat.testBit_succ]
          exact h3 m (by omega)

/-! ## Set-bit lists of one word -/

theorem mem_wordBitsS {w t : Nat} : t ∈ wordBitsS w ↔ t < 64 ∧ w.testBit t = true := by
  simp [wordBitsS, List.mem_filter, List.mem_range]

theorem wordBitsS_pairwise (w : Nat) : (wordBitsS w).Pairwise (· < ·) :=
  (List.pairwise_lt_range 64).filter _

theorem wordBitsS_zero : wordBitsS 0 = [] := by
  simp [wordBitsS]

theorem wordBitsS_length_le (w : Nat) : (wordBitsS w).length ≤ 64 := by
  calc (wordBitsS w).length ≤ (List.range 64).length := List.length_filter_le _ _
    _ = 64 := List.length_range 64

/-- A sorted duplicate-free list with minimum `t` is `t` consed on the rest. -/
theorem pairwise_min_cons (l : List Nat) (t : Nat) (hs : l.Pairwise (· < ·))
    (ht : t ∈ l) (hmin : ∀ i ∈ l, t ≤ i) : l = t :: l.filter (fun i => i != t) := by
  cases l with
  | nil => cases ht
  | cons a l' =>
    have hat : a = t := by
      rcases List.mem_cons.mp ht with rfl | hmem
      · rfl
      · have h1 := hmin a (List.mem_cons_self a l')
        have h2 := (List.pairwise_cons.mp hs).1 t hmem
        omega
    subst hat
    have hgt : ∀ i ∈ l', a < i := (List.pairwise_cons.mp hs).1
    have : List.filter (fun i => i != a) (a :: l') = l' := by
      rw [List.filter_cons]
      simp only [bne_self_eq_false, Bool.false_eq_true, if_false]
      apply List.filter_eq_self.mpr
      intro b hb
      have := hgt b hb
      simp; omega
    rw [this]

theorem wordToBitsAux_eq :
    ∀ (fuel w : Nat), w < 2 ^ 64 → (wordBitsS w).length ≤ fuel →
      wordToBitsAux fuel w = wordBitsS w := by
  intro fuel
  induction fuel with
  | zero =>
    intro w _ hlen
    have : wordBitsS w = [] := List.length_eq_zero.mp (Nat.le_zero.mp hlen)
    simp [wordToBitsAux, this]
  | succ n ih =>
    intro w hlt hlen
    by_cases hw : w = 0
    · subst hw
      simp [wordToBitsAux, trailingZeros64, ctzAux_zero, wordBitsS_zero]
    · obtain ⟨ht64, htb, hmin⟩ := ctzAux_spec 64 w hw hlt
      set t := ctzAux 64 w with hts
      have hnotle : ¬ (64 ≤ trailingZeros64 w) := by
        rw [trailingZeros64, ← hts]; omega
      have hstep : wordToBitsAux (n + 1) w =
          t :: wordToBitsAux n (landNot64 w (1 <<< trailingZeros64 w)) := by
        rw [wordToBitsAux]
        simp only [hnotle, if_false]
        rw [trailingZeros64, ← hts]
      set w2 := landNot64 w (1 <<< t) with hw2s
      have hw2lt : w2 < 2 ^ 64 := lt_of_le_of_lt (landNot64_le _ _) hlt
      have hfilter : wordBitsS w2 = (wordBitsS w).filter (fun i => i != t) := by
        rw [wordBitsS, wordBitsS, List.filter_filter]
        apply List.filter_congr
        intro i hi
        have hi64 : i < 64 := List.mem_range.mp hi
        rw [hw2s, shiftLeft_one, landNot64_testBit w _ i hi64, Nat.testBit_two_pow]
        rcases eq_or_ne i t with rfl | hne
        · simp
        · simp [hne, Ne.symm hne]
      have hhead : wordBitsS w = t :: (wordBitsS w).filter (fun i => i != t) := by
        apply pairwise_min_cons _ _ (wordBitsS_pairwise w)
        · exact mem_wordBitsS.mpr ⟨ht64, htb⟩
        · intro i hi
          by_contra hc
          have := hmin i (by omega)
          have := (mem_wordBitsS.mp hi).2
          simp_all
      have hlen2 : (wordBitsS w2).length ≤ n := by
        have : (wordBitsS w).length = ((wordBitsS w).filter (fun i => i != t)).length + 1 := by
          conv_lhs => rw [hhead]
          simp
      
        rw [hfilter]
        omega
      rw [hstep, trailingZeros64, ← hts, ← hw2s, ih w2 hw2lt hlen2, hfilter, ← hhead]

theorem wordToBits64 (w : Nat) (h : w < 2 ^ 64) : wordToBitsAux 64 w = wordBitsS w :=
  wordToBitsAux_eq 64 w h (wordBitsS_length_le w)

/-! ## Bitmap element lists -/

theorem mem_bitsElemsFrom :
    ∀ (ws : List Nat) (k y : Nat),
      y ∈ bitsElemsFrom ws k ↔
        k ≤ y / 64 ∧ y / 64 < k + ws.length ∧
          ((ws.getD (y / 64 - k) 0).testBit (y % 64) = true) := by
  intro ws
  induction ws with
  | nil =>
    intro k y
    simp [bitsElemsFrom]
  | cons w t ih =>
    intro k y
    rw [bitsElemsFrom, List.mem_append, List.mem_map, ih (k + 1) y]
    constructor
    · rintro (⟨b, hb, rfl⟩ | ⟨h1, h2, h3⟩)
      · obtain ⟨hb64, hbtb⟩ := mem_wordBitsS.mp hb
        have hdiv : (64 * k + b) / 64 = k := by omega
        have hmod : (64 * k + b) % 64 = b := by omega
        refine ⟨by omega, by simp; omega, ?_⟩
        rw [hdiv, hmod]
        simpa using hbtb
      · have hge : 1 ≤ y / 64 - k := by omega
        refine ⟨by omega, by simp; omega, ?_⟩
        have : y / 64 - k = (y / 64 - (k + 1)) + 1 := by omega
        rw [this]
        simpa using h3
    · rintro ⟨h1, h2, h3⟩
      rcases eq_or_lt_of_le h1 with heq | hlt
      · left
        refine ⟨y % 64, mem_wordBitsS.mpr ⟨by omega, ?_⟩, by omega⟩
        have : y / 64 - k = 0 := by omega
        rw [this] at h3
        simpa using h3
      · right
        refine ⟨by omega, by simp at h2 ⊢; omega, ?_⟩
        have : y / 64 - k = (y / 64 - (k + 1)) + 1 := by omega
        rw [this] at h3
        simpa using h3

theorem bitsElemsFrom_lb {ws : List Nat} {k y : Nat} (h : y ∈ bitsElemsFrom ws k) :
    64 * k ≤ y := by
  have := (mem_bitsElemsFrom ws k y).mp h
  omega

theorem bitsElemsFrom_ub {ws : List Nat} {k y : Nat} (h : y ∈ bitsElemsFrom ws k) :
    y < 64 * (k + ws.length) := by
  have := (mem_bitsElemsFrom ws k y).mp h
  omega

theorem bitsElemsFrom_pairwise : ∀ (ws : List Nat) (k : Nat),
    (bitsElemsFrom ws k).Pairwise (· < ·) := by
  intro ws
  induction ws with
  | nil => intro k; simp [bitsElemsFrom]
  | cons w t ih =>
    intro k
    rw [bitsElemsFrom, List.pairwise_append]
    refine ⟨(wordBitsS_pairwise w).map _ (fun a b hab => by omega), ih (k + 1), ?_⟩
    intro a ha y hy
    obtain ⟨b, hb, rfl⟩ := List.mem_map.mp ha
    have hb64 := (mem_wordBitsS.mp hb).1
    have := bitsElemsFrom_lb hy
    omega

theorem bitsElemsFrom_nodup (ws : List Nat) (k : Nat) : (bitsElemsFrom ws k).Nodup :=
  (bitsElemsFrom_pairwise ws k).imp (fun h => Nat.ne_of_lt h)

theorem length_bitsElemsFrom : ∀ (ws : List Nat) (k : Nat),
    (bitsElemsFrom ws k).length = (ws.map (fun w => (wordBitsS w).length)).sum := by
  intro ws
  induction ws with
  | nil => intro k; simp [bitsElemsFrom]
  | cons w t ih => intro k; simp [bitsElemsFrom, ih (k + 1)]

theorem bitsAppendAux_eq :
    ∀ (ws : List Nat) (k hi64 : Nat), hi64 % 65536 = 0 → (∀ w ∈ ws, w < 2 ^ 64) →
      k + ws.length ≤ 1024 →
      bitsAppendAux hi64 ws k = (bitsElemsFrom ws k).map (fun v => hi64 + v) := by
  intro ws
  induction ws with
  | nil => intro k hi64 _ _ _; simp [bitsAppendAux, bitsElemsFrom]
  | cons w t ih =>
    intro k hi64 hbase hws hk
    have hwlt : w < 2 ^ 64 := hws w (List.mem_cons_self w t)
    have hk1024 : k < 1024 := by simp at hk; omega
    have hrest := ih (k + 1) hi64 hbase (fun x hx => hws x (List.mem_cons_of_mem w hx))
      (by simp at hk ⊢; omega)
    have hmap : (wordToBitsAux 64 w).map (fun tzn => hi64 ||| k * 64 ||| tzn) =
        ((wordBitsS w).map (fun b => 64 * k + b)).map (fun v => hi64 + v) := by
      rw [wordToBits64 w hwlt, List.map_map]
      apply List.map_congr_left
      intro b hb
      have hb64 := (mem_wordBitsS.mp hb).1
      have h1 : k * 64 ||| b = 64 * k + b := by
        rw [Nat.mul_comm k 64]
        have h := lor_mul_pow_add 6 k b (by omega)
        norm_num at h
        exact h
      have h2 : hi64 ||| k * 64 = hi64 + k * 64 := by
        have h := @lor_base_add hi64 (k * 64) 16 (by omega) (by omega)
        exact h
      have h3 : (hi64 + k * 64) ||| b = hi64 + k * 64 + b := by
        have h := @lor_base_add (hi64 + k * 64) b 6 (by omega) (by omega)
        exact h
      simp only [Function.comp]
      rw [h2, h3]
      omega
    rcases eq_or_ne w 0 with rfl | hw0
    · rw [bitsAppendAux, bitsElemsFrom]
      simp only [beq_self_eq_true, if_true, wordBitsS_zero]
      simpa using hrest
    · rw [bitsAppendAux, bitsElemsFrom]
      have hne : (w == 0) = false := by simpa using hw0
      rw [hne]
      simp only [Bool.false_eq_true, if_false, List.map_append]
      rw [hmap, hrest]

/-! ## Counting helpers -/

theorem length_eq_of_same_mem {L1 L2 : List Nat} (h1 : L1.Nodup) (h2 : L2.Nodup)
    (h : ∀ y, y ∈ L1 ↔ y ∈ L2) : L1.length = L2.length := by
  rw [← List.toFinset_card_of_nodup h1, ← List.toFinset_card_of_nodup h2]
  congr 1
  apply Finset.ext_iff.mpr
  intro a
  rw [List.mem_toFinset, List.mem_toFinset]
  exact h a

theorem length_insert_of_mem_iff {L1 L2 : List Nat} {x : Nat} (h1 : L1.Nodup)
    (h2 : L2.Nodup) (hx : x ∉ L1) (h : ∀ y, y ∈ L2 ↔ y = x ∨ y ∈ L1) :
    L2.length = L1.length + 1 := by
  rw [← List.toFinset_card_of_nodup h1, ← List.toFinset_card_of_nodup h2]
  have : L2.toFinset = insert x L1.toFinset := by
    apply Finset.ext_iff.mpr
    intro a
    rw [List.mem_toFinset, Finset.mem_insert, List.mem_toFinset]
    exact h a
  rw [this, Finset.card_insert_of_not_mem (by rwa [List.mem_toFinset])]

theorem length_remove_of_mem_iff {L1 L2 : List Nat} {x : Nat} (h1 : L1.Nodup)
    (h2 : L2.Nodup) (h : ∀ y, y ∈ L2 ↔ y ≠ x ∧ y ∈ L1) :
    L2.length = L1.length - (if x ∈ L1 then 1 else 0) := by
  rw [← List.toFinset_card_of_nodup h1, ← List.toFinset_card_of_nodup h2]
  have he : L2.toFinset = L1.toFinset.erase x := by
    apply Finset.ext_iff.mpr
    intro a
    rw [List.mem_toFinset, Finset.mem_erase, List.mem_toFinset]
    exact h a
  rw [he]
  by_cases hm : x ∈ L1
  · rw [Finset.card_erase_of_mem (List.mem_toFinset.mpr hm), if_pos hm]
  · rw [Finset.erase_eq_self.mpr (fun hc => hm (List.mem_toFinset.mp hc))]
    simp [hm]

/-! ## bucket16 lemmas -/

theorem bucket16.wf16_iff (b : bucket16) :
    b.wf = true ↔
      b.smallPool.length = 56 ∧ b.smallPoolLen ≤ 56 ∧
        (b.smallPool.take b.smallPoolLen).Nodup ∧
        (∀ v ∈ b.smallPool.take b.smallPoolLen, v < 65536) ∧
        (∀ ws, b.bits = some ws → ws.length = 1024 ∧ ∀ w ∈ ws, w < 2 ^ 64) := by
  obtain ⟨bits, len, pool⟩ := b
  cases bits <;> simp [bucket16.wf] <;> tauto

theorem emptyB16_wf : emptyB16.wf = true := by decide

theorem emptyB16_elems : emptyB16.elems = [] := by decide

theorem bucket16.has16_eq_mem (b : bucket16) (hwf : b.wf = true) (y : Nat) :
    b.has y = decide (y ∈ b.elems) := by
  obtain ⟨hpool, hlen, hnd, hbnd, hbits⟩ := (bucket16.wf16_iff b).mp hwf
  rcases hb : b.bits with _ | ws
  · simp only [bucket16.has, bucket16.elems, hb]
    simp [bucket16.hasInSmallPool, List.contains]
  · obtain ⟨hws, hwbnd⟩ := hbits ws hb
    simp only [bucket16.has, bucket16.elems, hb, getWordNumBitMask]
    rw [land_mask_eq_testBit, bitsElems]
    rcases Nat.lt_or_ge (y / 64) 1024 with hy | hy
    · have hiff : y ∈ bitsElemsFrom ws 0 ↔ (ws.getD (y / 64) 0).testBit (y % 64) = true := by
        rw [mem_bitsElemsFrom]
        exact ⟨fun h => h.2.2, fun h3 => ⟨Nat.zero_le _, by omega, h3⟩⟩
      simp only [hiff]
      simp
    · have hiff : y ∈ bitsElemsFrom ws 0 ↔ False := by
        rw [mem_bitsElemsFrom]
        exact ⟨fun h => by omega, False.elim⟩
      simp only [hiff]
      rw [List.getD_eq_default _ _ (by omega)]
      simp

theorem bucket16.elems16_nodup (b : bucket16) (hwf : b.wf = true) : b.elems.Nodup := by
  obtain ⟨hpool, hlen, hnd, hbnd, hbits⟩ := (bucket16.wf16_iff b).mp hwf
  rcases hb : b.bits with _ | ws
  · simp only [bucket16.elems, hb]; exact hnd
  · simp only [bucket16.elems, hb]; exact bitsElemsFrom_nodup ws 0

theorem bucket16.elems16_lt (b : bucket16) (hwf : b.wf = true) :
    ∀ y ∈ b.elems, y < 65536 := by
  obtain ⟨hpool, hlen, hnd, hbnd, hbits⟩ := (bucket16.wf16_iff b).mp hwf
  intro y hy
  rcases hb : b.bits with _ | ws
  · simp only [bucket16.elems, hb] at hy; exact hbnd y hy
  · simp only [bucket16.elems, hb] at hy
    obtain ⟨hws, _⟩ := hbits ws hb
    have := bitsElemsFrom_ub hy
    omega

/-- Word-array facts for `addBits`. -/
theorem addBits_spec (ws : List Nat) (x : Nat) (hx : x < 65536)
    (hws : ws.length = 1024) (hbnd : ∀ w ∈ ws, w < 2 ^ 64) :
    (bucket16.addBits ws x).1 = !((ws.getD (x / 64) 0).testBit (x % 64)) ∧
    (bucket16.addBits ws x).2.length = 1024 ∧
    (∀ w ∈ (bucket16.addBits ws x).2, w < 2 ^ 64) ∧
    (∀ y, y < 65536 →
      (((bucket16.addBits ws x).2.getD (y / 64) 0).testBit (y % 64)) =
        ((y == x) || (ws.getD (y / 64) 0).testBit (y % 64))) := by
  have hx64 : x / 64 < 1024 := by omega
  refine ⟨?_, ?_, ?_, ?_⟩
  · rw [bucket16.addBits]
    simp only [getWordNumBitMask]
    rw [land_mask_eq_zero]
  · simp [bucket16.addBits]
    omega
  · intro w hw
    rw [bucket16.addBits] at hw
    simp only [getWordNumBitMask] at hw
    rcases List.mem_or_eq_of_mem_set hw with hmem | rfl
    · exact hbnd w hmem
    · apply Nat.or_lt_two_pow
      · rw [getD_eq_getElem _ _ _ (by omega)]
        exact hbnd _ (List.getElem_mem _)
      · rw [shiftLeft_one]
        exact Nat.pow_lt_pow_right (by norm_num) (by omega)
  · intro y hy
    rw [bucket16.addBits]
    simp only [getWordNumBitMask]
    rcases eq_or_ne (x / 64) (y / 64) with heq | hne
    · rw [← heq, getD_set_self _ _ _ _ (by omega), testBit_lor_mask]
      have : (y == x) = decide (x % 64 = y % 64) := by
        rcases eq_or_ne y x with rfl | hne2
        · simp
        · have : ¬ (x % 64 = y % 64) := by omega
          simp [hne2, this]
      rw [this, Bool.or_comm]
    · rw [getD_set_ne _ _ _ _ _ hne]
      have : (y == x) = false := by
        have : y ≠ x := by omega
        simpa using this
      simp [this]

theorem take_succ_set {α : Type _} :
    ∀ (l : List α) (n : Nat) (a : α), n < l.length →
      (l.set n a).take (n + 1) = l.take n ++ [a] := by
  intro l
  induction l with
  | nil => intro n a h; simp at h
  | cons x t ih =>
    intro n a h
    cases n with
    | zero => simp
    | succ m =>
      simp only [List.set_cons_succ, List.take_succ_cons]
      rw [ih m a (by simpa using h)]
      simp

theorem getD_replicate_zero (n k : Nat) : (List.replicate n (0 : Nat)).getD k 0 = 0 := by
  rcases Nat.lt_or_ge k n with h | h
  · rw [getD_eq_getElem _ _ _ (by simpa using h)]
    simp
  · rw [List.getD_eq_default _ _ (by simpa using h)]

theorem mem_bitsElems0 {ws : List Nat} (hws : ws.length = 1024) (y : Nat) :
    y ∈ bitsElemsFrom ws 0 ↔ y < 65536 ∧ (ws.getD (y / 64) 0).testBit (y % 64) = true := by
  rw [mem_bitsElemsFrom]
  constructor
  · rintro ⟨_, h2, h3⟩
    exact ⟨by omega, by simpa using h3⟩
  · rintro ⟨h1, h2⟩
    exact ⟨Nat.zero_le _, by omega, by simpa using h2⟩

theorem foldAddBits_spec :
    ∀ (L ws : List Nat), ws.length = 1024 → (∀ w ∈ ws, w < 2 ^ 64) →
      (∀ v ∈ L, v < 65536) →
      (L.foldl (fun ws v => (bucket16.addBits ws v).2) ws).length = 1024 ∧
      (∀ w ∈ L.foldl (fun ws v => (bucket16.addBits ws v).2) ws, w < 2 ^ 64) ∧
      (∀ y, y < 65536 →
        ((L.foldl (fun ws v => (bucket16.addBits ws v).2) ws).getD (y / 64) 0).testBit (y % 64) =
          (decide (y ∈ L) || (ws.getD (y / 64) 0).testBit (y % 64))) := by
  intro L
  induction L with
  | nil =>
    intro ws h1 h2 _
    refine ⟨h1, h2, ?_⟩
    intro y _
    simp
  | cons v t ih =>
    intro ws h1 h2 hL
    have hv : v < 65536 := hL v (List.mem_cons_self v t)
    obtain ⟨ha1, ha2, ha3, ha4⟩ := addBits_spec ws v hv h1 h2
    obtain ⟨ih1, ih2, ih3⟩ := ih (bucket16.addBits ws v).2 ha2 ha3
      (fun z hz => hL z (List.mem_cons_of_mem v hz))
    refine ⟨by simpa using ih1, by simpa using ih2, ?_⟩
    intro y hy
    rw [List.foldl_cons, ih3 y hy, ha4 y hy]
    by_cases hyv : y = v <;> by_cases hyt : y ∈ t <;> simp [hyv, hyt]

set_option maxRecDepth 4000 in
/-- Full behaviour of `bucket16.add` on a well-formed leaf: the returned
flag is "was absent", membership gains exactly `x`, well-formedness is
preserved, and the cardinality grows iff `x` was absent. -/
theorem bucket16.add16_spec (b : bucket16) (x : Nat) (hx : x < 65536) (hwf : b.wf = true) :
    (b.add x).1 = !b.has x ∧
    (b.add x).2.wf = true ∧
    (∀ y, y < 65536 → (b.add x).2.has y = ((y == x) || b.has y)) ∧
    (b.add x).2.elems.length = b.elems.length + (if b.has x then 0 else 1) := by
  obtain ⟨hpool, hlen, hnd, hbnd, hbits⟩ := (bucket16.wf16_iff b).mp hwf
  rcases hb : b.bits with _ | ws
  · -- small-pool mode
    have hhaseq : b.has x = b.hasInSmallPool x := by
      simp only [bucket16.has, hb]
    by_cases hhas : b.hasInSmallPool x = true
    · have hbx : b.has x = true := by rw [hhaseq]; exact hhas
      have hstep : b.add x = (false, b) := by
        simp only [bucket16.add, hb, bucket16.addToSmallPool, hhas, if_true]
      rw [hstep]
      refine ⟨by simp [hbx], hwf, ?_, by simp [hbx]⟩
      intro y hy
      rcases eq_or_ne y x with rfl | hne
      · simp [hbx]
      · simp [hne]
    · have hbx : b.has x = false := by rw [hhaseq]; simpa using hhas
      have hxmem : x ∉ b.elems := by
        have := bucket16.has16_eq_mem b hwf x
        rw [hbx] at this
        simpa using this.symm
      by_cases hfull : b.smallPoolLen < b.smallPool.length
      · -- room in the pool: append
        have hstep : b.add x =
            (true, { b with smallPool := b.smallPool.set b.smallPoolLen x,
                            smallPoolLen := b.smallPoolLen + 1 }) := by
          simp only [bucket16.add, hb, bucket16.addToSmallPool, hhas, hfull]
          simp
        set b2 : bucket16 := { b with smallPool := b.smallPool.set b.smallPoolLen x,
                                      smallPoolLen := b.smallPoolLen + 1 } with hb2
        have helems2 : b2.elems = b.elems ++ [x] := by
          simp only [bucket16.elems, hb2, hb]
          exact take_succ_set b.smallPool b.smallPoolLen x hfull
        have helems1 : b.elems = b.smallPool.take b.smallPoolLen := by
          simp only [bucket16.elems, hb]
        have hwf2 : b2.wf = true := by
          rw [bucket16.wf16_iff]
        
        
        
        
        
        
        
        
        
        
        
        
        
        
        
        
        
        
        
        
        
        
        
        
        
        
        
          have hptake : b2.smallPool.take b2.smallPoolLen = b.elems ++ [x] := by
            simpa [bucket16.elems, hb2, hb] using helems2
          refine ⟨by simp [hb2, hpool], by simp [hb2]; omega, ?_, ?_, ?_⟩
          · rw [hptake, List.nodup_append]
            refine ⟨by rw [helems1]; exact hnd, List.nodup_singleton x, ?_⟩
            intro a ha hax
            rw [List.mem_singleton] at hax
            subst hax
            exact hxmem ha
          · intro v hv
            rw [hptake, List.mem_append, List.mem_singleton] at hv
            rcases hv with hv | rfl
            · exact hbnd v (by rwa [← helems1])
            · exact hx
          · intro ws hws
            simp [hb2, hb] at hws
        rw [hstep]
        refine ⟨by simp [hbx], hwf2, ?_, ?_⟩
        · intro y hy
          show b2.has y = (y == x || b.has y)
          rw [bucket16.has16_eq_mem _ hwf2, bucket16.has16_eq_mem _ hwf]
          simp only [helems2]
          by_cases h1 : y = x <;> by_cases h2 : y ∈ b.elems <;> simp [h1, h2]
        · show b2.elems.length = b.elems.length + _
          rw [helems2, hbx]
          simp
      · -- pool full: promote to bitmap
        have hfull56 : b.smallPoolLen = 56 := by omega
        have htake : b.smallPool.take b.smallPoolLen = b.smallPool := by
          rw [hfull56, ← hpool, List.take_length]
        have hpbnd : ∀ v ∈ b.smallPool, v < 65536 := by rw [← htake]; exact hbnd
        have hrep1 : (List.replicate wordsPerBucket (0 : Nat)).length = 1024 := by
          simp [wordsPerBucket, bitsPerBucket]
        have hrep2 : ∀ w ∈ List.replicate wordsPerBucket (0 : Nat), w < 2 ^ 64 := by
          intro w hw
          have := List.eq_of_mem_replicate hw
          subst this
          norm_num
        obtain ⟨hf1, hf2, hf3⟩ := foldAddBits_spec b.smallPool
          (List.replicate wordsPerBucket 0) hrep1 hrep2 hpbnd
        set ws1 := b.smallPool.foldl (fun ws v => (bucket16.addBits ws v).2)
          (List.replicate wordsPerBucket 0) with hws1
        obtain ⟨hg1, hg2, hg3, hg4⟩ := addBits_spec ws1 x hx hf1 hf2
        set ws2 := (bucket16.addBits ws1 x).2 with hws2
        have hstep : b.add x =
            (true, { bits := some ws2, smallPoolLen := 0, smallPool := b.smallPool }) := by
          simp only [bucket16.add, hb, bucket16.addToSmallPool, hhas, hfull]
          simp
        set b2 : bucket16 := { bits := some ws2, smallPoolLen := 0, smallPool := b.smallPool }
          with hb2
        have hwf2 : b2.wf = true := by
          rw [bucket16.wf16_iff]
          refine ⟨by simp [hb2, hpool], by simp [hb2], by simp [hb2], by simp [hb2], ?_⟩
          intro ws hws
          simp only [hb2] at hws
          injection hws with hws
          subst hws
          exact ⟨hg2, hg3⟩
        have htb : ∀ y, y < 65536 →
            ((ws2.getD (y / 64) 0).testBit (y % 64)) = ((y == x) || decide (y ∈ b.smallPool)) := by
          intro y hy
          rw [hg4 y hy, hf3 y hy, getD_replicate_zero]
          simp
        have hmem2 : ∀ y, y ∈ b2.elems ↔ (y = x ∨ y ∈ b.elems) := by
          intro y
          have helems2 : b2.elems = bitsElemsFrom ws2 0 := by
            simp only [bucket16.elems, hb2, bitsElems]
          rw [helems2, mem_bitsElems0 hg2, bucket16.elems, hb, htake]
          constructor
          · rintro ⟨hy, htt⟩
            rw [htb y hy] at htt
            simpa using htt
          · rintro (rfl | hmem)
            · refine ⟨hx, ?_⟩
              rw [htb y hx]
              simp
            · have hym : y < 65536 := hpbnd y hmem
              refine ⟨hym, ?_⟩
              rw [htb y hym]
              simp [hmem]
        rw [hstep]
        refine ⟨by simp [hbx], hwf2, ?_, ?_⟩
        · intro y hy
          show b2.has y = (y == x || b.has y)
          rw [bucket16.has16_eq_mem _ hwf2, bucket16.has16_eq_mem _ hwf]
          simp only [hmem2]
          by_cases h1 : y = x <;> by_cases h2 : y ∈ b.elems <;> simp [h1, h2]
        · show b2.elems.length = b.elems.length + _
          rw [hbx]
          simp only [Bool.false_eq_true, if_false]
          exact length_insert_of_mem_iff (bucket16.elems16_nodup b hwf)
            (bucket16.elems16_nodup b2 hwf2) hxmem hmem2
  · -- bitmap mode
    obtain ⟨hws, hwbnd⟩ := hbits ws hb
    obtain ⟨ha1, ha2, ha3, ha4⟩ := addBits_spec ws x hx hws hwbnd
    set ws2 := (bucket16.addBits ws x).2 with hws2
    have hstep : b.add x = ((bucket16.addBits ws x).1, { b with bits := some ws2 }) := by
      simp only [bucket16.add, hb]
    set b2 : bucket16 := { b with bits := some ws2 } with hb2
    have hwf2 : b2.wf = true := by
      rw [bucket16.wf16_iff]
      refine ⟨by simp [hb2, hpool], by simp [hb2]; exact hlen, by simp [hb2]; exact hnd,
        by simp [hb2]; exact hbnd, ?_⟩
      intro ws' hws'
      simp only [hb2] at hws'
      injection hws' with hws'
      subst hws'
      exact ⟨ha2, ha3⟩
    have hhasb : ∀ y, b.has y = ((ws.getD (y / 64) 0).testBit (y % 64)) := by
      intro y
      simp only [bucket16.has, hb, getWordNumBitMask]
      rw [land_mask_eq_testBit]
    have hhasb2 : ∀ y, b2.has y = ((ws2.getD (y / 64) 0).testBit (y % 64)) := by
      intro y
      simp only [bucket16.has, hb2, getWordNumBitMask]
      rw [land_mask_eq_testBit]
    have hmem2 : ∀ y, y ∈ b2.elems ↔ (y = x ∨ y ∈ b.elems) := by
      intro y
      have h1 : b2.elems = bitsElemsFrom ws2 0 := by
        simp only [bucket16.elems, hb2, bitsElems]
      have h2 : b.elems = bitsElemsFrom ws 0 := by
        simp only [bucket16.elems, hb, bitsElems]
      rw [h1, h2, mem_bitsElems0 ha2, mem_bitsElems0 hws]
      constructor
      · rintro ⟨hy, htt⟩
        rw [ha4 y hy] at htt
        have hcases : y = x ∨ (ws.getD (y / 64) 0).testBit (y % 64) = true := by
          by_cases hyx : y = x
          · exact Or.inl hyx
          · right
            have hf : (y == x) = false := by simpa using hyx
            rw [hf] at htt
            simpa using htt
        rcases hcases with rfl | hh
        · exact Or.inl rfl
        · exact Or.inr ⟨hy, hh⟩
      · rintro (rfl | ⟨hy, hmem⟩)
        · refine ⟨hx, ?_⟩
          rw [ha4 y hx]
          simp
        · refine ⟨hy, ?_⟩
          rw [ha4 y hy, hmem, Bool.or_true]
    rw [hstep]
    refine ⟨?_, hwf2, ?_, ?_⟩
    · show (bucket16.addBits ws x).1 = !b.has x
      rw [ha1, hhasb x]
    · intro y hy
      show b2.has y = (y == x || b.has y)
      rw [hhasb2 y, hhasb y, ha4 y hy]
    · show b2.elems.length = b.elems.length + _
      by_cases hbx : b.has x = true
      · have hxmem : x ∈ b.elems := by
          have := bucket16.has16_eq_mem b hwf x
          rw [hbx] at this
          simpa using this.symm
        rw [hbx]
        simp only [if_true]
        have hsame : ∀ y, y ∈ b2.elems ↔ y ∈ b.elems := by
          intro y
          rw [hmem2 y]
          constructor
          · rintro (rfl | h)
            · exact hxmem
            · exact h
          · exact Or.inr
        rw [length_eq_of_same_mem (bucket16.elems16_nodup b2 hwf2)
          (bucket16.elems16_nodup b hwf) hsame]
        simp
      · have hxmem : x ∉ b.elems := by
          have := bucket16.has16_eq_mem b hwf x
          rw [Bool.not_eq_true] at hbx
          rw [hbx] at this
          simpa using this.symm
        rw [Bool.not_eq_true] at hbx
        rw [hbx]
        simp only [Bool.false_eq_true, if_false]
        exact length_insert_of_mem_iff (bucket16.elems16_nodup b hwf)
          (bucket16.elems16_nodup b2 hwf2) hxmem hmem2

theorem nodup_mem_eraseIdx {l : List Nat} {i : Nat} (h : i < l.length) (hnd : l.Nodup) :
    ∀ y, y ∈ l.eraseIdx i ↔ (y ≠ l[i] ∧ y ∈ l) := by
  intro y
  have hsplit : l = l.take i ++ l[i] :: l.drop (i + 1) := by
    conv_lhs => rw [← List.take_append_drop i l]
    rw [List.drop_eq_getElem_cons h]
  have hnd2 : (l.take i ++ l[i] :: l.drop (i + 1)).Nodup := by rw [← hsplit]; exact hnd
  rw [List.nodup_append] at hnd2
  obtain ⟨hnd3, hnd4, hdisj⟩ := hnd2
  have hnotin1 : l[i] ∉ l.take i := fun hc => hdisj hc (List.mem_cons_self _ _)
  have hnotin2 : l[i] ∉ l.drop (i + 1) := (List.nodup_cons.mp hnd4).1
  rw [List.eraseIdx_eq_take_drop_succ]
  constructor
  · intro hy
    rw [List.mem_append] at hy
    constructor
    · rintro rfl
      rcases hy with hy | hy
      · exact hnotin1 hy
      · exact hnotin2 hy
    · rw [hsplit, List.mem_append, List.mem_cons]
      rcases hy with hy | hy
      · exact Or.inl hy
      · exact Or.inr (Or.inr hy)
  · rintro ⟨hne, hy⟩
    rw [hsplit, List.mem_append, List.mem_cons] at hy
    rw [List.mem_append]
    rcases hy with hy | hy | hy
    · exact Or.inl hy
    · exact absurd hy hne
    · exact Or.inr hy

theorem delPool_elems (pool : List Nat) (n i : Nat) (hn : n ≤ 56)
    (hpool : pool.length = 56) (hi : i < n) :
    (pool.take i ++ pool.drop (i + 1) ++ pool.drop (pool.length - 1)).take (n - 1) =
      (pool.take n).eraseIdx i := by
  have hlenA : (pool.take i).length = i := by rw [List.length_take]; omega
  have hlenB : (pool.drop (i + 1)).length = 55 - i := by rw [List.length_drop]; omega
  rw [List.take_append_of_le_length (by rw [List.length_append]; omega)]
  rw [List.take_append_eq_append_take, hlenA]
  rw [List.take_of_length_le (by omega : (pool.take i).length ≤ n - 1)]
  rw [List.eraseIdx_eq_take_drop_succ, List.take_take, List.drop_take]
  have h1 : i ⊓ n = i := by omega
  have h2 : n - 1 - i = n - (i + 1) := by omega
  rw [h1, h2]

set_option maxRecDepth 4000 in
/-- Full behaviour of `bucket16.del` on a well-formed leaf: the returned
flag is "was present", membership loses exactly `x`, well-formedness is
preserved, and the cardinality shrinks iff `x` was present. -/
theorem bucket16.del16_spec (b : bucket16) (x : Nat) (hx : x < 65536) (hwf : b.wf = true) :
    (b.del x).1 = b.has x ∧
    (b.del x).2.wf = true ∧
    (∀ y, y < 65536 → (b.del x).2.has y = ((y != x) && b.has y)) ∧
    (b.del x).2.elems.length = b.elems.length - (if b.has x then 1 else 0) := by
  obtain ⟨hpool, hlen, hnd, hbnd, hbits⟩ := (bucket16.wf16_iff b).mp hwf
  rcases hb : b.bits with _ | ws
  · -- small-pool mode
    have helems1 : b.elems = b.smallPool.take b.smallPoolLen := by
      simp only [bucket16.elems, hb]
    have hhaseq : ∀ y, b.has y = (b.smallPool.take b.smallPoolLen).contains y := by
      intro y
      simp only [bucket16.has, hb, bucket16.hasInSmallPool]
    rcases hfind : (b.smallPool.take b.smallPoolLen).findIdx? (fun v => v == x) with _ | i
    · -- not present
      have hnomem : x ∉ b.elems := by
        rw [helems1]
        intro hc
        have := List.findIdx?_eq_none_iff.mp hfind x hc
        simp at this
      have hbx : b.has x = false := by
        have := bucket16.has16_eq_mem b hwf x
        rw [this]
        simpa using hnomem
      have hstep : b.del x = (false, b) := by
        simp only [bucket16.del, hb, bucket16.delFromSmallPool, hfind]
      rw [hstep]
      refine ⟨by simp [hbx], hwf, ?_, by simp [hbx]⟩
      intro y hy
      rcases eq_or_ne y x with rfl | hne
      · simp [hbx]
      · simp [hne]
    · -- present at index i
      obtain ⟨hilen, hpi, _⟩ := findIdx?_some_spec hfind
      set L := b.smallPool.take b.smallPoolLen with hL
      have hLlen : L.length = b.smallPoolLen := by
        rw [hL, List.length_take]
        omega
      have hLx : L[i] = x := by rw [beq_iff_eq] at hpi; exact hpi
      have hxmem : x ∈ b.elems := by
        rw [helems1, ← hLx]
        exact List.getElem_mem _
      have hbx : b.has x = true := by
        have := bucket16.has16_eq_mem b hwf x
        rw [this]
        simpa using hxmem
      have hstep : b.del x =
          (true, { b with
              smallPool := b.smallPool.take i ++ b.smallPool.drop (i + 1) ++
                b.smallPool.drop (b.smallPool.length - 1),
              smallPoolLen := b.smallPoolLen - 1 }) := by
        simp only [bucket16.del, hb, bucket16.delFromSmallPool, ← hL, hfind]
      set b2 : bucket16 := { b with
          smallPool := b.smallPool.take i ++ b.smallPool.drop (i + 1) ++
            b.smallPool.drop (b.smallPool.length - 1),
          smallPoolLen := b.smallPoolLen - 1 } with hb2
      have hilen2 : i < b.smallPoolLen := by omega
      have helems2 : b2.elems = L.eraseIdx i := by
        simp only [bucket16.elems, hb2, hb]
        exact delPool_elems b.smallPool b.smallPoolLen i hlen hpool hilen2
      have hmem2 : ∀ y, y ∈ b2.elems ↔ (y ≠ x ∧ y ∈ b.elems) := by
        intro y
        rw [helems2, helems1]
        have h := @nodup_mem_eraseIdx L i (by omega) hnd y
        rw [hLx] at h
        exact h
      have hwf2 : b2.wf = true := by
        rw [bucket16.wf16_iff]
        refine ⟨?_, by simp [hb2]; omega, ?_, ?_, ?_⟩
        · simp only [hb2]
          simp [List.length_take, List.length_drop, hpool]
          omega
        · have heq : b2.elems = b2.smallPool.take b2.smallPoolLen := by
            simp only [bucket16.elems, hb2, hb]
          rw [← heq, helems2]
          exact (List.eraseIdx_sublist L i).nodup hnd
        · intro v hv
          have heq : b2.elems = b2.smallPool.take b2.smallPoolLen := by
            simp only [bucket16.elems, hb2, hb]
          rw [← heq] at hv
          have h2 := (hmem2 v).mp hv
          rw [helems1] at h2
          exact hbnd v h2.2
        · intro ws hws
          simp [hb2, hb] at hws
      rw [hstep]
      refine ⟨by simp [hbx], hwf2, ?_, ?_⟩
      · intro y hy
        show b2.has y = ((y != x) && b.has y)
        rw [bucket16.has16_eq_mem _ hwf2, bucket16.has16_eq_mem _ hwf]
        simp only [hmem2]
        by_cases h1 : y = x <;> by_cases h2 : y ∈ b.elems <;> simp [h1, h2]
      · show b2.elems.length = b.elems.length - _
        rw [helems2, hbx]
        simp only [if_true]
        rw [List.length_eraseIdx, if_pos (by omega)]
        rw [helems1]
  · -- bitmap mode
    obtain ⟨hws, hwbnd⟩ := hbits ws hb
    have hx64 : x / 64 < 1024 := by omega
    set word := ws.getD (x / 64) 0 with hword
    have hwordlt : word < 2 ^ 64 := by
      rw [hword, getD_eq_getElem _ _ _ (by omega)]
      exact hwbnd _ (List.getElem_mem _)
    set ws2 := ws.set (x / 64) (landNot64 word (1 <<< (x % 64))) with hws2
    have hstep : b.del x = (((word &&& (1 <<< (x % 64))) != 0),
        { b with bits := some ws2 }) := by
      simp only [bucket16.del, hb, getWordNumBitMask, hws2, hword]
    set b2 : bucket16 := { b with bits := some ws2 } with hb2
    have hws2len : ws2.length = 1024 := by rw [hws2, List.length_set]; exact hws
    have hws2bnd : ∀ w ∈ ws2, w < 2 ^ 64 := by
      intro w hw
      rcases List.mem_or_eq_of_mem_set hw with hmem | rfl
      · exact hwbnd w hmem
      · exact lt_of_le_of_lt (landNot64_le _ _) hwordlt
    have htb2 : ∀ y, y < 65536 →
        ((ws2.getD (y / 64) 0).testBit (y % 64)) =
          ((y != x) && (ws.getD (y / 64) 0).testBit (y % 64)) := by
      intro y hy
      rcases eq_or_ne (x / 64) (y / 64) with heq | hne
      · rw [hws2, ← heq, getD_set_self _ _ _ _ (by omega)]
        rw [landNot64_testBit _ _ _ (by omega), shiftLeft_one, Nat.testBit_two_pow]
        have : (y != x) = !(decide (x % 64 = y % 64)) := by
          rcases eq_or_ne y x with rfl | hne2
          · simp
          · have : ¬ (x % 64 = y % 64) := by omega
            simp [hne2, this]
        rw [this, heq, Bool.and_comm, hword, heq]
      · rw [hws2, getD_set_ne _ _ _ _ _ hne]
        have : (y != x) = true := by
          have : y ≠ x := by omega
          simpa using this
        simp [this]
    have hwf2 : b2.wf = true := by
      rw [bucket16.wf16_iff]
      refine ⟨by simp [hb2, hpool], by simp [hb2]; exact hlen, by simp [hb2]; exact hnd,
        by simp [hb2]; exact hbnd, ?_⟩
      intro ws' hws'
      simp only [hb2] at hws'
      injection hws' with hws'
      subst hws'
      exact ⟨hws2len, hws2bnd⟩
    have hhasb : ∀ y, b.has y = ((ws.getD (y / 64) 0).testBit (y % 64)) := by
      intro y
      simp only [bucket16.has, hb, getWordNumBitMask]
      rw [land_mask_eq_testBit]
    have hhasb2 : ∀ y, b2.has y = ((ws2.getD (y / 64) 0).testBit (y % 64)) := by
      intro y
      simp only [bucket16.has, hb2, getWordNumBitMask]
      rw [land_mask_eq_testBit]
    have hmem2 : ∀ y, y ∈ b2.elems ↔ (y ≠ x ∧ y ∈ b.elems) := by
      intro y
      have h1 : b2.elems = bitsElemsFrom ws2 0 := by
        simp only [bucket16.elems, hb2, bitsElems]
      have h2 : b.elems = bitsElemsFrom ws 0 := by
        simp only [bucket16.elems, hb, bitsElems]
      rw [h1, h2, mem_bitsElems0 hws2len, mem_bitsElems0 hws]
      constructor
      · rintro ⟨hy, htt⟩
        rw [htb2 y hy] at htt
        rw [Bool.and_eq_true] at htt
        obtain ⟨hne, hold⟩ := htt
        exact ⟨by simpa using hne, hy, hold⟩
      · rintro ⟨hne, hy, hold⟩
        refine ⟨hy, ?_⟩
        rw [htb2 y hy, hold]
        have : (y != x) = true := by simpa using hne
        simp [this]
    rw [hstep]
    refine ⟨?_, hwf2, ?_, ?_⟩
    · show ((word &&& (1 <<< (x % 64))) != 0) = b.has x
      rw [land_mask_eq_testBit, hhasb x, hword]
    · intro y hy
      show b2.has y = ((y != x) && b.has y)
      rw [hhasb2 y, hhasb y, htb2 y hy]
    · show b2.elems.length = b.elems.length - _
      have hlr := length_remove_of_mem_iff (bucket16.elems16_nodup b hwf)
        (bucket16.elems16_nodup b2 hwf2) hmem2
      rw [hlr]
      have : b.has x = decide (x ∈ b.elems) := bucket16.has16_eq_mem b hwf x
      by_cases hxm : x ∈ b.elems
      · rw [if_pos hxm, this, if_pos (by simpa using hxm)]
      · rw [if_neg hxm, this, if_neg (by simpa using hxm)]

/-! ## Claims -/

/-- Promotion keeps `bits` non-nil when the pool was full. -/
theorem promote_bits_isSome (b : bucket16) (x : Nat) (hb : b.bits = none)
    (hfull : b.smallPoolLen = 56) (hpool : b.smallPool.length = 56)
    (hnotin : b.hasInSmallPool x = false) :
    (b.add x).2.bits.isSome = true := by
  have hnlt : ¬ b.smallPoolLen < b.smallPool.length := by omega
  simp only [bucket16.add, hb, bucket16.addToSmallPool, hnotin, hnlt]
  simp

/-- C7: inserting a 57th distinct low-16 value into a full 56-slot pool
switches the leaf to bitmap representation and preserves membership of all
57 values (the 56 pool entries and the new one), observed through `has`. -/
theorem claim_C7 (b : bucket16) (x : Nat) (hwf : b.wf = true) (hb : b.bits = none)
    (hfull : b.smallPoolLen = 56) (hx : x < 65536) (hnew : b.has x = false) :
    (b.add x).2.bits.isSome = true ∧
    (b.add x).2.has x = true ∧
    (∀ v, v ∈ b.smallPool → (b.add x).2.has v = true) := by
  obtain ⟨hpool, hlen, hnd, hbnd, _⟩ := (bucket16.wf16_iff b).mp hwf
  obtain ⟨_, _, hhas, _⟩ := bucket16.add16_spec b x hx hwf
  have htake : b.smallPool.take b.smallPoolLen = b.smallPool := by
    rw [hfull, ← hpool, List.take_length]
  have hnotin : b.hasInSmallPool x = false := by
    have : b.has x = b.hasInSmallPool x := by simp only [bucket16.has, hb]
    rw [← this, hnew]
  refine ⟨promote_bits_isSome b x hb hfull hpool hnotin, ?_, ?_⟩
  · rw [hhas x hx]
    simp
  · intro v hv
    have hvlt : v < 65536 := by
      apply hbnd
      rwa [htake]
    rw [hhas v hvlt]
    have hvelems : v ∈ b.elems := by
      simp only [bucket16.elems, hb]
      rwa [htake]
    have : b.has v = true := by
      rw [bucket16.has16_eq_mem b hwf v]
      simpa using hvelems
    simp [this]

/-- Witness for C7 at the concrete leaf holding `{0, ..., 55}` plus `56`. -/
theorem claim_C7_witness :
    ((⟨none, 56, List.range 56⟩ : bucket16).add 56).2.bits.isSome = true ∧
    ((⟨none, 56, List.range 56⟩ : bucket16).add 56).2.has 56 = true ∧
    (∀ v, v ∈ (⟨none, 56, List.range 56⟩ : bucket16).smallPool →
      ((⟨none, 56, List.range 56⟩ : bucket16).add 56).2.has v = true) :=
  claim_C7 ⟨none, 56, List.range 56⟩ 56 (by decide) (by decide) (by decide) (by decide)
    (by decide)

/-- C5 (amended): the nil-checked operations — `Len`, `Has`, `AppendTo`,
`ForEach` — are safe no-ops with the empty-set answer on a nil set, while
`Add` has no nil check and dereferences the nil receiver (a panic). -/
theorem claim_C5 :
    nilLen none = 0 ∧
    (∀ x, nilHas none x = false) ∧
    (∀ dst, nilAppendTo none dst = dst) ∧
    nilForEachParts none = [] ∧
    (∀ x, nilAdd none x = GoResult.panics) :=
  ⟨rfl, fun _ => rfl, fun _ => rfl, rfl, fun _ => rfl⟩

/-- C5 counterexample to the claim as stated: `Add` on a nil set panics
instead of behaving like an add on an empty set. -/
theorem claim_C5_counterexample :
    nilAdd none 0 = GoResult.panics ∧
    (GoResult.panics : GoResult Set) ≠ GoResult.ok (emptySet.Add 0) :=
  ⟨rfl, by simp⟩

/-! ## Binary search correctness -/

theorem bsLoop_spec (u16 : List Nat) (x : Nat) (hs : u16.Pairwise (· ≤ ·)) :
    ∀ i j, i ≤ j → j ≤ u16.length →
      (∀ k, (hk : k < u16.length) → k < i → u16[k] < x) →
      (∀ k, (hk : k < u16.length) → j ≤ k → ¬ u16[k] < x) →
      i ≤ bsLoop u16 x i j ∧ bsLoop u16 x i j ≤ j ∧
        (∀ k, (hk : k < u16.length) → k < bsLoop u16 x i j → u16[k] < x) ∧
        (∀ k, (hk : k < u16.length) → bsLoop u16 x i j ≤ k → ¬ u16[k] < x) := by
  intro i j
  induction i, j using bsLoop.induct u16 x with
  | case1 i j hij m hcond ih =>
    intro hle hjlen hlow hhigh
    simp only [Bool.and_eq_true, decide_eq_true_eq] at hcond
    obtain ⟨hmlen, hmx⟩ := hcond
    have hm1 : i ≤ m := by omega
    have hm2 : m < j := by omega
    rw [getD_eq_getElem _ _ _ hmlen] at hmx
    have hstep : bsLoop u16 x i j = bsLoop u16 x (m + 1) j := by
      rw [bsLoop]
      simp only [dif_pos hij]
      rw [if_pos]
      simp only [Bool.and_eq_true, decide_eq_true_eq]
      rw [getD_eq_getElem _ _ _ hmlen]
      exact ⟨hmlen, hmx⟩
    rw [hstep]
    have hlow2 : ∀ k, (hk : k < u16.length) → k < m + 1 → u16[k] < x := by
      intro k hk hkm
      rcases Nat.lt_or_ge k m with h | h
      · rcases Nat.lt_or_ge k i with h2 | h2
        · exact hlow k hk h2
        · have := List.pairwise_iff_getElem.mp hs k m hk hmlen h
          omega
      · have hkm2 : k = m := by omega
        subst hkm2
        exact hmx
    obtain ⟨g1, g2, g3, g4⟩ := ih (by omega) hjlen hlow2 hhigh
    exact ⟨by omega, g2, g3, g4⟩
  | case2 i j hij m hcond ih =>
    intro hle hjlen hlow hhigh
    have hstep : bsLoop u16 x i j = bsLoop u16 x i m := by
      rw [bsLoop]
      simp only [dif_pos hij]
      rw [if_neg hcond]
    have hm1 : i ≤ m := by omega
    have hm2 : m < j := by omega
    rw [hstep]
    have hhigh2 : ∀ k, (hk : k < u16.length) → m ≤ k → ¬ u16[k] < x := by
      intro k hk hmk
      simp only [Bool.and_eq_true, decide_eq_true_eq, not_and] at hcond
      have hmlen : m < u16.length := by omega
      have hmge : ¬ u16[m] < x := by
        intro hc
        exact hcond hmlen (by rwa [getD_eq_getElem _ _ _ hmlen])
      intro hc
      apply hmge
      rcases Nat.eq_or_lt_of_le hmk with rfl | hlt
      · exact hc
      · have := List.pairwise_iff_getElem.mp hs m k hmlen hk hlt
        omega
    obtain ⟨g1, g2, g3, g4⟩ := ih hm1 (by omega) hlow hhigh2
    exact ⟨g1, by omega, g3, g4⟩
  | case3 i j hij =>
    intro hle hjlen hlow hhigh
    have hstep : bsLoop u16 x i j = i := by
      rw [bsLoop]
      simp only [dif_neg hij]
    rw [hstep]
    have hij2 : i = j ∨ i < j := by omega
    refine ⟨le_refl i, by omega, ?_, ?_⟩
    · intro k hk hki
      exact hlow k hk hki
    · intro k hk hik
      apply hhigh k hk
      omega

/-- `binarySearch16` on a sorted key list: the result is the lower bound
position of `x`, and the found-test used by the callers is equivalent to
membership. -/
theorem binarySearch16_spec (u16 : List Nat) (x : Nat) (hs : u16.Pairwise (· ≤ ·)) :
    binarySearch16 u16 x ≤ u16.length ∧
    (∀ k, (hk : k < u16.length) → k < binarySearch16 u16 x → u16[k] < x) ∧
    (∀ k, (hk : k < u16.length) → binarySearch16 u16 x ≤ k → ¬ u16[k] < x) := by
  have h := bsLoop_spec u16 x hs 0 u16.length (by omega) (le_refl _)
    (fun k hk hk0 => by omega) (fun k hk hle => by omega)
  exact ⟨h.2.1, h.2.2.1, h.2.2.2⟩

/-- On a sorted duplicate-free key list, the caller's found-test
`n < len ∧ u16[n] = x` (with `n = binarySearch16 u16 x`) holds iff `x` is a
member of the list. -/
theorem binarySearch16_found (u16 : List Nat) (x : Nat) (hs : u16.Pairwise (· < ·)) :
    (if h : binarySearch16 u16 x < u16.length then
        (u16[binarySearch16 u16 x] = x ↔ x ∈ u16)
      else x ∉ u16) := by
  have hle : u16.Pairwise (· ≤ ·) := hs.imp (fun h => Nat.le_of_lt h)
  obtain ⟨h1, h2, h3⟩ := binarySearch16_spec u16 x hle
  split
  · rename_i hlt
    constructor
    · intro heq
      rw [← heq]
      exact List.getElem_mem _
    · intro hmem
      obtain ⟨k, hk, hkx⟩ := List.mem_iff_getElem.mp hmem
      rcases Nat.lt_trichotomy k (binarySearch16 u16 x) with h | h | h
      · have := h2 k hk h
        omega
      · subst h; exact hkx
      · have hnk := List.pairwise_iff_getElem.mp hs (binarySearch16 u16 x) k hlt hk h
        have := h3 (binarySearch16 u16 x) hlt (le_refl _)
        omega
  · rename_i hge
    intro hmem
    obtain ⟨k, hk, hkx⟩ := List.mem_iff_getElem.mp hmem
    have := h2 k hk (by omega)
    omega

/-! ## bucket32 semantic lemmas -/

theorem bucket32.wf32_iff (b : bucket32) :
    b.wf = true ↔
      b.hi < 4294967296 ∧ b.b16his.length = b.buckets.length ∧ b.b16his.Nodup ∧
        (∀ h ∈ b.b16his, h < 65536) ∧
        (maxUnsortedBuckets < b.buckets.length → b.b16his.Pairwise (· < ·)) ∧
        (∀ leaf ∈ b.buckets, leaf.wf = true) := by
  simp only [bucket32.wf, Bool.and_eq_true, Bool.or_eq_true, decide_eq_true_eq,
    beq_iff_eq, List.all_eq_true]
  constructor
  · rintro ⟨⟨⟨⟨⟨h1, h2⟩, h3⟩, h4⟩, h5⟩, h6⟩
    refine ⟨h1, h2, h3, h4, ?_, h6⟩
    rcases h5 with h5 | h5
    · intro hc; omega
    · exact fun _ => h5
  · rintro ⟨h1, h2, h3, h4, h5, h6⟩
    refine ⟨⟨⟨⟨⟨h1, h2⟩, h3⟩, h4⟩, ?_⟩, h6⟩
    rcases Nat.lt_or_ge maxUnsortedBuckets b.buckets.length with h | h
    · exact Or.inr (h5 h)
    · exact Or.inl h

theorem mem_pairElems {hs : List Nat} {bs : List bucket16} (x : Nat) :
    x ∈ pairElems hs bs ↔
      ∃ i, ∃ h1 : i < hs.length, ∃ h2 : i < bs.length,
        ∃ v ∈ bs[i].elems, x = hs[i] * 65536 + v := by
  rw [pairElems, List.mem_flatten]
  constructor
  · rintro ⟨l, hl, hx⟩
    rw [List.mem_map] at hl
    obtain ⟨p, hp, rfl⟩ := hl
    obtain ⟨i, hi, hpi⟩ := List.mem_iff_getElem.mp hp
    rw [List.getElem_zip] at hpi
    subst hpi
    rw [List.mem_map] at hx
    obtain ⟨v, hv, rfl⟩ := hx
    have h1 : i < hs.length := by
      rw [List.length_zip] at hi; omega
    have h2 : i < bs.length := by
      rw [List.length_zip] at hi; omega
    exact ⟨i, h1, h2, v, hv, rfl⟩
  · rintro ⟨i, h1, h2, v, hv, rfl⟩
    refine ⟨bs[i].elems.map (fun v => hs[i] * 65536 + v), ?_, ?_⟩
    · rw [List.mem_map]
      refine ⟨(hs[i], bs[i]), ?_, rfl⟩
      rw [List.mem_iff_getElem]
      refine ⟨i, by rw [List.length_zip]; omega, ?_⟩
      rw [List.getElem_zip]
    · rw [List.mem_map]
      exact ⟨v, hv, rfl⟩

theorem pairElems_length (hs : List Nat) (bs : List bucket16) :
    (pairElems hs bs).length =
      ((hs.zip bs).map (fun p => p.2.elems.length)).sum := by
  rw [pairElems, List.length_flatten, List.map_map]
  congr 1
  apply List.map_congr_left
  intro p _
  simp

/-- Decomposition of `pairElems` around an updated leaf slot. -/
theorem pairElems_set (hs : List Nat) (bs : List bucket16) (i : Nat) (nb : bucket16)
    (hlen : hs.length = bs.length) (hi : i < bs.length) :
    pairElems hs (bs.set i nb) =
      pairElems (hs.take i) (bs.take i) ++
        nb.elems.map (fun v => hs[i] * 65536 + v) ++
        pairElems (hs.drop (i + 1)) (bs.drop (i + 1)) ∧
    pairElems hs bs =
      pairElems (hs.take i) (bs.take i) ++
        (bs[i].elems).map (fun v => hs[i] * 65536 + v) ++
        pairElems (hs.drop (i + 1)) (bs.drop (i + 1)) := by
  have hih : i < hs.length := by omega
  have hsplit : hs = hs.take i ++ hs[i] :: hs.drop (i + 1) := by
    conv_lhs => rw [← List.take_append_drop i hs]
    rw [List.drop_eq_getElem_cons hih]
  have hlent : (hs.take i).length = (bs.take i).length := by
    rw [List.length_take, List.length_take]
    omega
  constructor
  · have hset : bs.set i nb = bs.take i ++ nb :: bs.drop (i + 1) := by
      rw [List.set_eq_take_append_cons_drop, if_pos hi]
    rw [hset]
    conv_lhs => rw [hsplit]
    rw [pairElems, List.zip_append hlent]
    simp only [List.zip_cons_cons, List.map_append, List.map_cons, List.flatten_append,
      List.flatten_cons]
    rw [pairElems, pairElems, List.append_assoc]
  · conv_lhs => rw [hsplit, show bs = bs.take i ++ bs[i] :: bs.drop (i + 1) by
      conv_lhs => rw [← List.take_append_drop i bs]
      rw [List.drop_eq_getElem_cons hi]]
    rw [pairElems, List.zip_append hlent]
    simp only [List.zip_cons_cons, List.map_append, List.map_cons, List.flatten_append,
      List.flatten_cons]
    rw [pairElems, pairElems, List.append_assoc]

/-- Appending a fresh keyed leaf appends its block to `pairElems`. -/
theorem pairElems_append_one (hs : List Nat) (bs : List bucket16) (h : Nat) (nb : bucket16)
    (hlen : hs.length = bs.length) :
    pairElems (hs ++ [h]) (bs ++ [nb]) =
      pairElems hs bs ++ nb.elems.map (fun v => h * 65536 + v) := by
  rw [pairElems, List.zip_append hlen]
  simp only [List.zip_cons_cons, List.zip_nil_right, List.map_append, List.map_cons,
    List.map_nil, List.flatten_append, List.flatten_cons, List.flatten_nil]
  rw [pairElems, List.append_nil]

/-- Inserting a fresh keyed leaf at position `n` splices its block in. -/
theorem pairElems_insert (hs : List Nat) (bs : List bucket16) (n : Nat) (h : Nat)
    (nb : bucket16) (hlen : hs.length = bs.length) (hn : n ≤ hs.length) :
    pairElems (hs.take n ++ [h] ++ hs.drop n) (bs.take n ++ [nb] ++ bs.drop n) =
      pairElems (hs.take n) (bs.take n) ++ nb.elems.map (fun v => h * 65536 + v) ++
        pairElems (hs.drop n) (bs.drop n) := by
  have hlent : (hs.take n).length = (bs.take n).length := by
    rw [List.length_take, List.length_take]
    omega
  rw [pairElems,
    List.zip_append (by
      simp only [List.length_append, List.length_take, List.length_singleton]
      omega),
    List.zip_append hlent]
  simp only [List.zip_cons_cons, List.zip_nil_left, List.map_append, List.map_cons,
    List.map_nil, List.flatten_append, List.flatten_cons, List.flatten_nil]
  simp [pairElems, List.append_assoc]

theorem nodup_getElem_unique {l : List Nat} (hnd : l.Nodup) {i j : Nat}
    (hi : i < l.length) (hj : j < l.length) (heq : l[i] = l[j]) : i = j := by
  rcases Nat.lt_trichotomy i j with h | h | h
  · have := List.pairwise_iff_getElem.mp hnd i j hi hj h
    exact absurd heq this
  · exact h
  · have := List.pairwise_iff_getElem.mp hnd j i hj hi h
    exact absurd heq.symm this

theorem split32 (x : Nat) (hx : x < 4294967296) :
    (x >>> 16) % 65536 = x / 65536 ∧ x % 65536 < 65536 ∧
      x = ((x >>> 16) % 65536) * 65536 + x % 65536 := by
  rw [Nat.shiftRight_eq_div_pow]
  norm_num
  omega

/-- If key `i` routes `x`'s mid key, membership of `x` in the mid bucket is
exactly membership of `x`'s low half in leaf `i`. -/
theorem pair_route (b : bucket32) (hwf : b.wf = true) (x : Nat) (hx : x < 4294967296)
    (i : Nat) (h1 : i < b.b16his.length) (heq : b.b16his[i] = (x >>> 16) % 65536) :
    decide (x ∈ b.elems) = (b.buckets.getD i emptyB16).has (x % 65536) := by
  obtain ⟨hhi, hlen, hnd, hkb, hsort, hleaf⟩ := (bucket32.wf32_iff b).mp hwf
  obtain ⟨hdiv, hmod, hdecomp⟩ := split32 x hx
  have h2 : i < b.buckets.length := by omega
  have hgetD : b.buckets.getD i emptyB16 = b.buckets[i] := getD_eq_getElem _ _ _ h2
  have hlw : b.buckets[i].wf = true := hleaf _ (List.getElem_mem _)
  rw [hgetD, bucket16.has16_eq_mem _ hlw]
  have hiff : x ∈ b.elems ↔ (x % 65536) ∈ b.buckets[i].elems := by
    rw [bucket32.elems, mem_pairElems]
    constructor
    · rintro ⟨j, hj1, hj2, v, hv, hxv⟩
      have hkj : b.b16his[j] < 65536 := hkb _ (List.getElem_mem _)
      have hvlt : v < 65536 := bucket16.elems16_lt _ (hleaf _ (List.getElem_mem _)) v hv
      have hjk : b.b16his[j] = (x >>> 16) % 65536 := by
        rw [hdiv]
        omega
      have hij : j = i := nodup_getElem_unique hnd hj1 h1 (by rw [hjk, heq])
      subst hij
      have : v = x % 65536 := by omega
      rwa [← this]
    · intro hv
      refine ⟨i, h1, h2, x % 65536, hv, ?_⟩
      rw [heq]
      omega
  simp only [hiff]

/-- If `x`'s mid key appears nowhere, `x` is not in the mid bucket. -/
theorem pair_route_none (b : bucket32) (hwf : b.wf = true) (x : Nat)
    (hx : x < 4294967296) (hnot : ((x >>> 16) % 65536) ∉ b.b16his) :
    decide (x ∈ b.elems) = false := by
  obtain ⟨hhi, hlen, hnd, hkb, hsort, hleaf⟩ := (bucket32.wf32_iff b).mp hwf
  obtain ⟨hdiv, hmod, hdecomp⟩ := split32 x hx
  simp only [decide_eq_false_iff_not]
  intro hc
  rw [bucket32.elems, mem_pairElems] at hc
  obtain ⟨j, hj1, hj2, v, hv, hxv⟩ := hc
  have hkj : b.b16his[j] < 65536 := hkb _ (List.getElem_mem _)
  have hvlt : v < 65536 := bucket16.elems16_lt _ (hleaf _ (List.getElem_mem _)) v hv
  apply hnot
  have : b.b16his[j] = (x >>> 16) % 65536 := by
    rw [hdiv]
    omega
  rw [← this]
  exact List.getElem_mem _

/-- `bucket32.has` decides membership in the mid bucket's element list. -/
theorem bucket32.has32_eq_mem (b : bucket32) (hwf : b.wf = true) (x : Nat)
    (hx : x < 4294967296) : b.has x = decide (x ∈ b.elems) := by
  obtain ⟨hhi, hlen, hnd, hkb, hsort, hleaf⟩ := (bucket32.wf32_iff b).mp hwf
  rw [bucket32.has]
  by_cases hmode : maxUnsortedBuckets < b.buckets.length
  · rw [if_pos hmode, bucket32.hasSlow]
    have hpw : b.b16his.Pairwise (· < ·) := hsort hmode
    have hfound := binarySearch16_found b.b16his ((x >>> 16) % 65536) hpw
    set n := binarySearch16 b.b16his ((x >>> 16) % 65536) with hn
    by_cases hcond : b.b16his.length ≤ n ∨ b.b16his.getD n 0 ≠ ((x >>> 16) % 65536)
    · rw [if_pos (by simpa using hcond)]
      rcases hcond with hc | hc
      · rw [dif_neg (by omega)] at hfound
        rw [pair_route_none b hwf x hx hfound]
      · rcases Nat.lt_or_ge n b.b16his.length with hlt | hge
        · rw [dif_pos hlt] at hfound
          rw [getD_eq_getElem _ _ _ hlt] at hc
          have : ((x >>> 16) % 65536) ∉ b.b16his := by
            intro hmem
            exact hc (hfound.mpr hmem)
          rw [pair_route_none b hwf x hx this]
        · rw [dif_neg (by omega)] at hfound
          rw [pair_route_none b hwf x hx hfound]
    · rw [if_neg (by simpa using hcond)]
      push_neg at hcond
      obtain ⟨hlt, hceq⟩ := hcond
      rw [getD_eq_getElem _ _ _ hlt] at hceq
      rw [pair_route b hwf x hx n hlt hceq]
      have : n < b.buckets.length := by omega
      simp [this]
  · rw [if_neg hmode]
    rcases hfind : b.b16his.findIdx? (fun h => h == ((x >>> 16) % 65536)) with _ | i
    · have hnot : ((x >>> 16) % 65536) ∉ b.b16his := by
        intro hc
        have := List.findIdx?_eq_none_iff.mp hfind _ hc
        simp at this
      rw [pair_route_none b hwf x hx hnot]
    · obtain ⟨h1, hpi, _⟩ := findIdx?_some_spec hfind
      rw [beq_iff_eq] at hpi
      rw [pair_route b hwf x hx i h1 hpi]
      have : i < b.buckets.length := by omega
      simp [this]

instance : IsTotal (Nat × bucket16) (fun p q => p.1 ≤ q.1) :=
  ⟨fun a b => Nat.le_total a.1 b.1⟩

instance : IsTrans (Nat × bucket16) (fun p q => p.1 ≤ q.1) :=
  ⟨fun _ _ _ => Nat.le_trans⟩

instance : IsTotal bucket32 (fun p q => p.hi ≤ q.hi) :=
  ⟨fun a b => Nat.le_total a.hi b.hi⟩

instance : IsTrans bucket32 (fun p q => p.hi ≤ q.hi) :=
  ⟨fun _ _ _ => Nat.le_trans⟩

theorem zip_map_fst_snd {α β : Type _} :
    ∀ (l : List (α × β)), (l.map Prod.fst).zip (l.map Prod.snd) = l := by
  intro l
  induction l with
  | nil => rfl
  | cons p t ih => simp [ih]

theorem isNonDecr_iff : ∀ (l : List Nat), isNonDecr l = true ↔ l.Pairwise (· ≤ ·) := by
  intro l
  have hchain : ∀ (l : List Nat), isNonDecr l = true ↔ l.Chain' (· ≤ ·) := by
    intro l
    induction l with
    | nil => simp [isNonDecr]
    | cons a t ih =>
      cases t with
      | nil => simp [isNonDecr]
      | cons b t2 =>
        rw [isNonDecr]
        rw [Bool.and_eq_true, decide_eq_true_eq, ih, List.chain'_cons]
  rw [hchain l, List.chain'_iff_pairwise]

theorem pairElems_lt (hs : List Nat) (bs : List bucket16)
    (hkb : ∀ h ∈ hs, h < 65536) (hleaf : ∀ leaf ∈ bs, leaf.wf = true) :
    ∀ y ∈ pairElems hs bs, y < 4294967296 := by
  intro y hy
  rw [mem_pairElems] at hy
  obtain ⟨i, h1, h2, v, hv, rfl⟩ := hy
  have hk : hs[i] < 65536 := hkb _ (List.getElem_mem _)
  have hvlt : v < 65536 := bucket16.elems16_lt _ (hleaf _ (List.getElem_mem _)) v hv
  omega

theorem pairElems_nodup :
    ∀ (hs : List Nat) (bs : List bucket16), hs.Nodup →
      (∀ h ∈ hs, h < 65536) → (∀ leaf ∈ bs, leaf.wf = true) →
      (pairElems hs bs).Nodup := by
  intro hs
  induction hs with
  | nil => intro bs _ _ _; simp [pairElems]
  | cons h t ih =>
    intro bs hnd hkb hleaf
    cases bs with
    | nil => simp [pairElems]
    | cons leaf bs2 =>
      have hcons : pairElems (h :: t) (leaf :: bs2) =
          leaf.elems.map (fun v => h * 65536 + v) ++ pairElems t bs2 := by
        simp [pairElems]
      rw [hcons, List.nodup_append]
      have hlw : leaf.wf = true := hleaf leaf (List.mem_cons_self _ _)
      refine ⟨?_, ?_, ?_⟩
      · exact (bucket16.elems16_nodup leaf hlw).map (fun a b hab => by omega)
      · exact ih bs2 (List.nodup_cons.mp hnd).2 (fun k hk => hkb k (List.mem_cons_of_mem _ hk))
          (fun k hk => hleaf k (List.mem_cons_of_mem _ hk))
      · intro a ha hb
        obtain ⟨v, hv, rfl⟩ := List.mem_map.mp ha
        rw [mem_pairElems] at hb
        obtain ⟨i, h1, h2, w, hw, hvw⟩ := hb
        have hki : t[i] < 65536 := hkb _ (List.mem_cons_of_mem _ (List.getElem_mem _))
        have hvlt : v < 65536 := bucket16.elems16_lt _ hlw v hv
        have hwlt : w < 65536 :=
          bucket16.elems16_lt _ (hleaf _ (List.mem_cons_of_mem _ (List.getElem_mem _))) w hw
        have : h = t[i] := by omega
        exact (List.nodup_cons.mp hnd).1 (this ▸ List.getElem_mem _)

/-- `sort.Sort` on a mid bucket: permutes the keyed leaves, sorts keys. -/
theorem bucket32.doSort_spec (b : bucket32) (hlen : b.b16his.length = b.buckets.length) :
    b.doSort.hi = b.hi ∧ b.doSort.hint = b.hint ∧
    (b.doSort.b16his.zip b.doSort.buckets).Perm (b.b16his.zip b.buckets) ∧
    b.doSort.b16his.length = b.b16his.length ∧
    b.doSort.buckets.length = b.buckets.length ∧
    b.doSort.b16his.Pairwise (· ≤ ·) ∧
    b.doSort.b16his.Perm b.b16his ∧
    b.doSort.elems.Perm b.elems ∧
    (∀ leaf ∈ b.doSort.buckets, leaf ∈ b.buckets) := by
  have hzlen : (b.b16his.zip b.buckets).length = b.b16his.length := by
    rw [List.length_zip]
    omega
  set ps := (b.b16his.zip b.buckets).insertionSort (fun p q => p.1 ≤ q.1) with hps
  have hperm : ps.Perm (b.b16his.zip b.buckets) := List.perm_insertionSort _ _
  have hsorted : ps.Pairwise (fun p q => p.1 ≤ q.1) :=
    List.sorted_insertionSort (fun (p q : Nat × bucket16) => p.1 ≤ q.1)
      (b.b16his.zip b.buckets)
  have hd1 : b.doSort.b16his = ps.map Prod.fst := rfl
  have hd2 : b.doSort.buckets = ps.map Prod.snd := rfl
  have hlenps : ps.length = b.b16his.length := by
    rw [hperm.length_eq, hzlen]
  have hpermfst : (ps.map Prod.fst).Perm b.b16his := by
    have := hperm.map Prod.fst
    rwa [List.map_fst_zip _ _ (by omega)] at this
  refine ⟨rfl, rfl, ?_, ?_, ?_, ?_, ?_, ?_, ?_⟩
  · rw [hd1, hd2, zip_map_fst_snd]
    exact hperm
  · rw [hd1, List.length_map, hlenps]
  · rw [hd2, List.length_map, hlenps]
    omega
  · rw [hd1, List.pairwise_map]
    exact hsorted
  · rw [hd1]
    exact hpermfst
  · show (pairElems b.doSort.b16his b.doSort.buckets).Perm (pairElems b.b16his b.buckets)
    rw [pairElems, pairElems, hd1, hd2, zip_map_fst_snd]
    exact (hperm.map _).flatten
  · intro leaf hleaf
    rw [hd2] at hleaf
    obtain ⟨p, hp, rfl⟩ := List.mem_map.mp hleaf
    have := hperm.mem_iff.mp hp
    exact (List.of_mem_zip this).2

/-- `bucket32.sort` (the checked sort): same guarantees, conditionally. -/
theorem bucket32.sort32_spec (b : bucket32) (hlen : b.b16his.length = b.buckets.length) :
    b.sort.hi = b.hi ∧ b.sort.hint = b.hint ∧
    (b.sort.b16his.zip b.sort.buckets).Perm (b.b16his.zip b.buckets) ∧
    b.sort.b16his.length = b.b16his.length ∧
    b.sort.buckets.length = b.buckets.length ∧
    b.sort.b16his.Pairwise (· ≤ ·) ∧
    b.sort.b16his.Perm b.b16his ∧
    b.sort.elems.Perm b.elems ∧
    (∀ leaf ∈ b.sort.buckets, leaf ∈ b.buckets) := by
  rw [bucket32.sort]
  by_cases hnd : isNonDecr b.b16his = true
  · rw [if_pos hnd]
    exact ⟨rfl, rfl, List.Perm.refl _, rfl, rfl, (isNonDecr_iff _).mp hnd,
      List.Perm.refl _, List.Perm.refl _, fun leaf h => h⟩
  · rw [if_neg hnd]
    exact bucket32.doSort_spec b hlen

/-- Membership form of `bucket16.add16_spec`. -/
theorem bucket16.add_mem (b : bucket16) (x : Nat) (hx : x < 65536) (hwf : b.wf = true) :
    ∀ v, v ∈ (b.add x).2.elems ↔ (v = x ∨ v ∈ b.elems) := by
  obtain ⟨_, hwf2, hhas, _⟩ := bucket16.add16_spec b x hx hwf
  intro v
  constructor
  · intro hv
    have hvlt : v < 65536 := bucket16.elems16_lt _ hwf2 v hv
    have h1 : (b.add x).2.has v = true := by
      rw [bucket16.has16_eq_mem _ hwf2]
      simpa using hv
    rw [hhas v hvlt, Bool.or_eq_true] at h1
    rcases h1 with h | h
    · exact Or.inl (by simpa using h)
    · right
      rw [bucket16.has16_eq_mem _ hwf] at h
      simpa using h
  · intro hv
    have hvlt : v < 65536 := by
      rcases hv with rfl | hv
      · exact hx
      · exact bucket16.elems16_lt _ hwf v hv
    have h1 : (b.add x).2.has v = true := by
      rw [hhas v hvlt]
      rcases hv with rfl | hv
      · simp
      · have : b.has v = true := by
          rw [bucket16.has16_eq_mem _ hwf]
          simpa using hv
        simp [this]
    rw [bucket16.has16_eq_mem _ hwf2] at h1
    simpa using h1

/-- Membership form of `bucket16.del16_spec`. -/
theorem bucket16.del_mem (b : bucket16) (x : Nat) (hx : x < 65536) (hwf : b.wf = true) :
    ∀ v, v ∈ (b.del x).2.elems ↔ (v ≠ x ∧ v ∈ b.elems) := by
  obtain ⟨_, hwf2, hhas, _⟩ := bucket16.del16_spec b x hx hwf
  intro v
  constructor
  · intro hv
    have hvlt : v < 65536 := bucket16.elems16_lt _ hwf2 v hv
    have h1 : (b.del x).2.has v = true := by
      rw [bucket16.has16_eq_mem _ hwf2]
      simpa using hv
    rw [hhas v hvlt, Bool.and_eq_true] at h1
    obtain ⟨h2, h3⟩ := h1
    refine ⟨by simpa using h2, ?_⟩
    rw [bucket16.has16_eq_mem _ hwf] at h3
    simpa using h3
  · rintro ⟨hne, hv⟩
    have hvlt : v < 65536 := bucket16.elems16_lt _ hwf v hv
    have h1 : (b.del x).2.has v = true := by
      rw [hhas v hvlt]
      have h2 : (v != x) = true := by simpa using hne
      have h3 : b.has v = true := by
        rw [bucket16.has16_eq_mem _ hwf]
        simpa using hv
      simp [h2, h3]
    rw [bucket16.has16_eq_mem _ hwf2] at h1
    simpa using h1

theorem pairElems_split (hs : List Nat) (bs : List bucket16) (n : Nat)
    (hlen : hs.length = bs.length) :
    pairElems hs bs = pairElems (hs.take n) (bs.take n) ++
      pairElems (hs.drop n) (bs.drop n) := by
  have hlent : (hs.take n).length = (bs.take n).length := by
    rw [List.length_take, List.length_take]
    omega
  conv_lhs => rw [← List.take_append_drop n hs, ← List.take_append_drop n bs]
  rw [pairElems, List.zip_append hlent, List.map_append, List.flatten_append]
  rfl

/-- Core update branch of `bucket32.add`: adding `x` into the leaf at the
(unique) index `i` whose key matches `x`'s mid key.  The resulting `hint`
value `h2` is arbitrary: it never affects the results. -/
theorem b32_update_spec (b : bucket32) (x : Nat) (hx : x < 4294967296)
    (hwf : b.wf = true) (i : Nat) (h1 : i < b.b16his.length)
    (heq : b.b16his[i] = (x >>> 16) % 65536) (h2 : Nat) :
    ((b.buckets.getD i emptyB16).add (x % 65536)).1 = !b.has x ∧
    (bucket32.mk b.hi b.b16his
        (b.buckets.set i ((b.buckets.getD i emptyB16).add (x % 65536)).2) h2).wf = true ∧
    (∀ y, y < 4294967296 →
      (bucket32.mk b.hi b.b16his
          (b.buckets.set i ((b.buckets.getD i emptyB16).add (x % 65536)).2) h2).has y =
        ((y == x) || b.has y)) ∧
    (bucket32.mk b.hi b.b16his
        (b.buckets.set i ((b.buckets.getD i emptyB16).add (x % 65536)).2) h2).elems.length =
      b.elems.length + (if b.has x then 0 else 1) := by
  obtain ⟨hhi, hlen, hnd, hkb, hsort, hleaf⟩ := (bucket32.wf32_iff b).mp hwf
  obtain ⟨hdiv, hmod, hdecomp⟩ := split32 x hx
  have hib : i < b.buckets.length := by omega
  have hgetD : b.buckets.getD i emptyB16 = b.buckets[i] := getD_eq_getElem _ _ _ hib
  have hlw : b.buckets[i].wf = true := hleaf _ (List.getElem_mem _)
  obtain ⟨la1, la2, la3, la4⟩ := bucket16.add16_spec b.buckets[i] (x % 65536) hmod hlw
  have hmemadd := bucket16.add_mem b.buckets[i] (x % 65536) hmod hlw
  have hbhasx : b.has x = b.buckets[i].has (x % 65536) := by
    rw [bucket32.has32_eq_mem b hwf x hx, pair_route b hwf x hx i h1 heq, hgetD]
  have hxeq : b.b16his[i] * 65536 + x % 65536 = x := by
    rw [heq, hdiv]
    omega
  set nb := ((b.buckets.getD i emptyB16).add (x % 65536)).2 with hnb
  have hnbeq : nb = (b.buckets[i].add (x % 65536)).2 := by rw [hnb, hgetD]
  rw [← hnbeq] at la2 la4 hmemadd
  set B2 : bucket32 := bucket32.mk b.hi b.b16his (b.buckets.set i nb) h2 with hB2
  obtain ⟨hE2, hE⟩ := pairElems_set b.b16his b.buckets i nb hlen hib
  have hB2elems : B2.elems = pairElems b.b16his (b.buckets.set i nb) := rfl
  have hbelems : b.elems = pairElems b.b16his b.buckets := rfl
  have hmemE : ∀ y, y ∈ B2.elems ↔ (y = x ∨ y ∈ b.elems) := by
    intro y
    rw [hB2elems, hbelems, hE2, hE]
    simp only [List.mem_append, List.mem_map]
    constructor
    · rintro ((hP | ⟨v, hv, rfl⟩) | hS)
      · exact Or.inr (Or.inl (Or.inl hP))
      · rcases (hmemadd v).mp hv with rfl | hvold
        · exact Or.inl hxeq
        · exact Or.inr (Or.inl (Or.inr ⟨v, hvold, rfl⟩))
      · exact Or.inr (Or.inr hS)
    · rintro (rfl | ((hP | ⟨v, hv, rfl⟩) | hS))
      · refine Or.inl (Or.inr ⟨y % 65536, ?_, hxeq⟩)
        exact (hmemadd _).mpr (Or.inl rfl)
      · exact Or.inl (Or.inl hP)
      · exact Or.inl (Or.inr ⟨v, (hmemadd v).mpr (Or.inr hv), rfl⟩)
      · exact Or.inr hS
  have hwf2 : B2.wf = true := by
    rw [bucket32.wf32_iff]
    refine ⟨hhi, ?_, hnd, hkb, ?_, ?_⟩
    · rw [hB2]
      simp only [List.length_set]
      exact hlen
    · intro hc
      apply hsort
      rw [hB2] at hc
      simpa using hc
    · intro leaf hlf
      rw [hB2] at hlf
      simp only at hlf
      rcases List.mem_or_eq_of_mem_set hlf with hmem | rfl
      · exact hleaf _ hmem
      · exact la2
  refine ⟨?_, hwf2, ?_, ?_⟩
  · rw [hgetD, la1, hbhasx]
  · intro y hy
    rw [bucket32.has32_eq_mem B2 hwf2 y hy, bucket32.has32_eq_mem b hwf y hy]
    simp only [hmemE]
    by_cases hc1 : y = x <;> by_cases hc2 : y ∈ b.elems <;> simp [hc1, hc2]
  · have hlen2 : B2.elems.length =
        (pairElems (b.b16his.take i) (b.buckets.take i)).length + nb.elems.length +
          (pairElems (b.b16his.drop (i + 1)) (b.buckets.drop (i + 1))).length := by
      rw [hB2elems, hE2]
      simp [List.length_append]
      omega
    have hlen1 : b.elems.length =
        (pairElems (b.b16his.take i) (b.buckets.take i)).length +
          b.buckets[i].elems.length +
          (pairElems (b.b16his.drop (i + 1)) (b.buckets.drop (i + 1))).length := by
      rw [hbelems, hE]
      simp [List.length_append]
      omega
    rw [hlen2, hlen1, la4, hbhasx]
    by_cases hc : b.buckets[i].has (x % 65536) = true
    · rw [hc]
      simp
    · rw [Bool.not_eq_true] at hc
      rw [hc]
      simp only [Bool.false_eq_true, if_false]
      omega

theorem emptyB16_has (v : Nat) : emptyB16.has v = false := rfl

/-- The fresh leaf allocated for a missing key holds exactly `lo`. -/
theorem newLeaf_mem (lo : Nat) (hlo : lo < 65536) :
    (∀ v, v ∈ (emptyB16.add lo).2.elems ↔ v = lo) ∧
    (emptyB16.add lo).2.elems.length = 1 ∧ (emptyB16.add lo).2.wf = true := by
  obtain ⟨_, hwf2, _, hlen⟩ := bucket16.add16_spec emptyB16 lo hlo emptyB16_wf
  have hmem := bucket16.add_mem emptyB16 lo hlo emptyB16_wf
  refine ⟨?_, ?_, hwf2⟩
  · intro v
    rw [hmem v, emptyB16_elems]
    simp
  · rw [hlen, emptyB16_elems, emptyB16_has]
    simp

/-- `addAllocSmall` on a missing key from the linear regime: appends the
key (sorting once when the threshold is crossed), adds exactly `x`. -/
theorem b32_allocSmall_spec (b : bucket32) (x : Nat) (hx : x < 4294967296)
    (hwf : b.wf = true) (hmiss : ((x >>> 16) % 65536) ∉ b.b16his) :
    b.has x = false ∧
    (b.addAllocSmall ((x >>> 16) % 65536) (x % 65536)).wf = true ∧
    (b.addAllocSmall ((x >>> 16) % 65536) (x % 65536)).hi = b.hi ∧
    (∀ y, y < 4294967296 →
      (b.addAllocSmall ((x >>> 16) % 65536) (x % 65536)).has y = ((y == x) || b.has y)) ∧
    (b.addAllocSmall ((x >>> 16) % 65536) (x % 65536)).elems.length =
      b.elems.length + 1 := by
  obtain ⟨hhi, hlen, hnd, hkb, hsort, hleaf⟩ := (bucket32.wf32_iff b).mp hwf
  obtain ⟨hdiv, hmod, hdecomp⟩ := split32 x hx
  have hhi16 : (x >>> 16) % 65536 < 65536 := Nat.mod_lt _ (by norm_num)
  obtain ⟨hnlmem, hnllen, hnlwf⟩ := newLeaf_mem (x % 65536) hmod
  have hbhasx : b.has x = false := by
    rw [bucket32.has32_eq_mem b hwf x hx, pair_route_none b hwf x hx hmiss]
  set b1 : bucket32 := { b with
      b16his := b.b16his ++ [(x >>> 16) % 65536],
      buckets := b.buckets ++ [(emptyB16.add (x % 65536)).2] } with hb1
  have hb1his : b1.b16his = b.b16his ++ [(x >>> 16) % 65536] := rfl
  have hb1len : b1.b16his.length = b1.buckets.length := by
    rw [hb1]
    simp only [List.length_append, List.length_singleton]
    omega
  have hb1elems : b1.elems = b.elems ++
      (emptyB16.add (x % 65536)).2.elems.map (fun v => ((x >>> 16) % 65536) * 65536 + v) := by
    show pairElems b1.b16his b1.buckets = _
    rw [hb1]
    exact pairElems_append_one b.b16his b.buckets _ _ hlen
  have hb1mem : ∀ y, y ∈ b1.elems ↔ (y = x ∨ y ∈ b.elems) := by
    intro y
    rw [hb1elems, List.mem_append, List.mem_map]
    constructor
    · rintro (hm | ⟨v, hv, rfl⟩)
      · exact Or.inr hm
      · rw [hnlmem v] at hv
        subst hv
        exact Or.inl (by omega)
    · rintro (rfl | hm)
      · refine Or.inr ⟨y % 65536, (hnlmem _).mpr rfl, by omega⟩
      · exact Or.inl hm
  have hb1elen : b1.elems.length = b.elems.length + 1 := by
    rw [hb1elems, List.length_append, List.length_map, hnllen]
  have hb1nd : b1.b16his.Nodup := by
    rw [hb1his, List.nodup_append]
    exact ⟨hnd, List.nodup_singleton _, fun a ha hb => by
      rw [List.mem_singleton] at hb
      subst hb
      exact hmiss ha⟩
  have hb1kb : ∀ h ∈ b1.b16his, h < 65536 := by
    intro h hh
    rw [hb1his, List.mem_append, List.mem_singleton] at hh
    rcases hh with hh | rfl
    · exact hkb h hh
    · exact hhi16
  have hb1leaf : ∀ leaf ∈ b1.buckets, leaf.wf = true := by
    intro leaf hl
    rw [hb1] at hl
    simp only at hl
    rw [List.mem_append, List.mem_singleton] at hl
    rcases hl with hl | rfl
    · exact hleaf _ hl
    · exact hnlwf
  have hstep : b.addAllocSmall ((x >>> 16) % 65536) (x % 65536) =
      (if maxUnsortedBuckets < b1.buckets.length then b1.doSort else b1) := by
    rw [bucket32.addAllocSmall]
  rw [hstep]
  by_cases hthr : maxUnsortedBuckets < b1.buckets.length
  · rw [if_pos hthr]
    obtain ⟨hd0, hd1, hdzip, hdhis, hdbuck, hdsorted, hdpermh, hdelems, hdsub⟩ :=
      bucket32.doSort_spec b1 hb1len
    have hdnd : b1.doSort.b16his.Nodup := (hdpermh.nodup_iff).mpr hb1nd
    have hwfd : b1.doSort.wf = true := by
      rw [bucket32.wf32_iff]
      refine ⟨by rw [hd0]; exact hhi, by rw [hdhis, hdbuck]; exact hb1len, hdnd, ?_, ?_, ?_⟩
      · intro h hh
        exact hb1kb h (hdpermh.mem_iff.mp hh)
      · intro _
        exact List.Sorted.lt_of_le hdsorted hdnd
      · intro leaf hl
        exact hb1leaf leaf (hdsub leaf hl)
    refine ⟨hbhasx, hwfd, by rw [hd0], ?_, ?_⟩
    · intro y hy
      rw [bucket32.has32_eq_mem _ hwfd y hy, bucket32.has32_eq_mem b hwf y hy]
      have hmem : y ∈ b1.doSort.elems ↔ (y = x ∨ y ∈ b.elems) := by
        rw [hdelems.mem_iff, hb1mem y]
      simp only [hmem]
      by_cases hc1 : y = x <;> by_cases hc2 : y ∈ b.elems <;> simp [hc1, hc2]
    · rw [hdelems.length_eq, hb1elen]
  · rw [if_neg hthr]
    have hwf1 : b1.wf = true := by
      rw [bucket32.wf32_iff]
      exact ⟨hhi, hb1len, hb1nd, hb1kb, fun hc => absurd hc hthr, hb1leaf⟩
    refine ⟨hbhasx, hwf1, rfl, ?_, hb1elen⟩
    intro y hy
    rw [bucket32.has32_eq_mem _ hwf1 y hy, bucket32.has32_eq_mem b hwf y hy]
    simp only [hb1mem y]
    by_cases hc1 : y = x <;> by_cases hc2 : y ∈ b.elems <;> simp [hc1, hc2]

set_option maxHeartbeats 1000000 in
/-- `addAllocBig` on a missing key in the binary-search regime: splices the
new key at its lower-bound position, preserving strict key order. -/
theorem b32_allocBig_spec (b : bucket32) (x : Nat) (hx : x < 4294967296)
    (hwf : b.wf = true) (hbig : maxUnsortedBuckets < b.buckets.length)
    (hmiss : ((x >>> 16) % 65536) ∉ b.b16his) :
    b.has x = false ∧
    (b.addAllocBig ((x >>> 16) % 65536) (x % 65536)
        (binarySearch16 b.b16his ((x >>> 16) % 65536))).wf = true ∧
    (b.addAllocBig ((x >>> 16) % 65536) (x % 65536)
        (binarySearch16 b.b16his ((x >>> 16) % 65536))).hi = b.hi ∧
    (∀ y, y < 4294967296 →
      (b.addAllocBig ((x >>> 16) % 65536) (x % 65536)
          (binarySearch16 b.b16his ((x >>> 16) % 65536))).has y = ((y == x) || b.has y)) ∧
    (b.addAllocBig ((x >>> 16) % 65536) (x % 65536)
        (binarySearch16 b.b16his ((x >>> 16) % 65536))).elems.length =
      b.elems.length + 1 := by
  obtain ⟨hhi, hlen, hnd, hkb, hsort, hleaf⟩ := (bucket32.wf32_iff b).mp hwf
  obtain ⟨hdiv, hmod, hdecomp⟩ := split32 x hx
  have hhi16 : (x >>> 16) % 65536 < 65536 := Nat.mod_lt _ (by norm_num)
  obtain ⟨hnlmem, hnllen, hnlwf⟩ := newLeaf_mem (x % 65536) hmod
  have hpw : b.b16his.Pairwise (· < ·) := hsort hbig
  have hple : b.b16his.Pairwise (· ≤ ·) := hpw.imp (fun h => Nat.le_of_lt h)
  obtain ⟨hble, hblow, hbhigh⟩ := binarySearch16_spec b.b16his ((x >>> 16) % 65536) hple
  set n := binarySearch16 b.b16his ((x >>> 16) % 65536) with hn
  have hbhasx : b.has x = false := by
    rw [bucket32.has32_eq_mem b hwf x hx, pair_route_none b hwf x hx hmiss]
  have hhighs : ∀ k, (hk : k < b.b16his.length) → n ≤ k →
      ((x >>> 16) % 65536) < b.b16his[k] := by
    intro k hk hnk
    have h1 := hbhigh k hk hnk
    have h2 : b.b16his[k] ≠ (x >>> 16) % 65536 := by
      intro hc
      exact hmiss (hc ▸ List.getElem_mem _)
    omega
  rw [bucket32.addAllocBig]
  by_cases hcase : b.b16his.length ≤ n
  · rw [if_pos hcase]
    set b1 : bucket32 := { b with
        b16his := b.b16his ++ [(x >>> 16) % 65536],
        buckets := b.buckets ++ [(emptyB16.add (x % 65536)).2] } with hb1
    have hb1his : b1.b16his = b.b16his ++ [(x >>> 16) % 65536] := rfl
    have hb1len : b1.b16his.length = b1.buckets.length := by
      rw [hb1]
      simp only [List.length_append, List.length_singleton]
      omega
    have hb1elems : b1.elems = b.elems ++
        (emptyB16.add (x % 65536)).2.elems.map
          (fun v => ((x >>> 16) % 65536) * 65536 + v) := by
      show pairElems b1.b16his b1.buckets = _
      rw [hb1]
      exact pairElems_append_one b.b16his b.buckets _ _ hlen
    have hb1mem : ∀ y, y ∈ b1.elems ↔ (y = x ∨ y ∈ b.elems) := by
      intro y
      rw [hb1elems, List.mem_append, List.mem_map]
      constructor
      · rintro (hm | ⟨v, hv, rfl⟩)
        · exact Or.inr hm
        · rw [hnlmem v] at hv
          subst hv
          exact Or.inl (by omega)
      · rintro (rfl | hm)
        · refine Or.inr ⟨y % 65536, (hnlmem _).mpr rfl, by omega⟩
        · exact Or.inl hm
    have hwf1 : b1.wf = true := by
      rw [bucket32.wf32_iff]
      refine ⟨hhi, hb1len, ?_, ?_, ?_, ?_⟩
      · rw [hb1his, List.nodup_append]
        exact ⟨hnd, List.nodup_singleton _, fun a ha hb => by
          rw [List.mem_singleton] at hb
          subst hb
          exact hmiss ha⟩
      · intro h hh
        rw [hb1his, List.mem_append, List.mem_singleton] at hh
        rcases hh with hh | rfl
        · exact hkb h hh
        · exact hhi16
      · intro _
        rw [hb1his, List.pairwise_append]
        refine ⟨hpw, List.pairwise_singleton _ _, ?_⟩
        intro a ha c hc
        rw [List.mem_singleton] at hc
        subst hc
        obtain ⟨k, hk, rfl⟩ := List.mem_iff_getElem.mp ha
        exact hblow k hk (by omega)
      · intro leaf hl
        rw [hb1] at hl
        simp only at hl
        rw [List.mem_append, List.mem_singleton] at hl
        rcases hl with hl | rfl
        · exact hleaf _ hl
        · exact hnlwf
    refine ⟨hbhasx, hwf1, rfl, ?_, ?_⟩
    · intro y hy
      rw [bucket32.has32_eq_mem _ hwf1 y hy, bucket32.has32_eq_mem b hwf y hy]
      simp only [hb1mem y]
      by_cases hc1 : y = x <;> by_cases hc2 : y ∈ b.elems <;> simp [hc1, hc2]
    · rw [hb1elems, List.length_append, List.length_map, hnllen]
  · rw [if_neg hcase]
    have hnlt : n < b.b16his.length := by omega
    set b1 : bucket32 := { b with
        b16his := b.b16his.take n ++ [(x >>> 16) % 65536] ++ b.b16his.drop n,
        buckets := b.buckets.take n ++ [(emptyB16.add (x % 65536)).2] ++
          b.buckets.drop n } with hb1
    have hb1his : b1.b16his =
        b.b16his.take n ++ [(x >>> 16) % 65536] ++ b.b16his.drop n := rfl
    have hb1len : b1.b16his.length = b1.buckets.length := by
      rw [hb1]
      simp only [List.length_append, List.length_singleton, List.length_take,
        List.length_drop]
      omega
    have hsplit := pairElems_split b.b16his b.buckets n hlen
    have hb1elems : b1.elems =
        pairElems (b.b16his.take n) (b.buckets.take n) ++
          (emptyB16.add (x % 65536)).2.elems.map
            (fun v => ((x >>> 16) % 65536) * 65536 + v) ++
          pairElems (b.b16his.drop n) (b.buckets.drop n) := by
      show pairElems b1.b16his b1.buckets = _
      rw [hb1]
      exact pairElems_insert b.b16his b.buckets n _ _ hlen (by omega)
    have hb1mem : ∀ y, y ∈ b1.elems ↔ (y = x ∨ y ∈ b.elems) := by
      intro y
      rw [hb1elems]
      have hbmem : b.elems = pairElems (b.b16his.take n) (b.buckets.take n) ++
          pairElems (b.b16his.drop n) (b.buckets.drop n) := hsplit
      rw [hbmem]
      simp only [List.mem_append, List.mem_map]
      constructor
      · rintro ((hP | ⟨v, hv, rfl⟩) | hS)
        · exact Or.inr (Or.inl hP)
        · rw [hnlmem v] at hv
          subst hv
          exact Or.inl (by omega)
        · exact Or.inr (Or.inr hS)
      · rintro (rfl | (hP | hS))
        · exact Or.inl (Or.inr ⟨y % 65536, (hnlmem _).mpr rfl, by omega⟩)
        · exact Or.inl (Or.inl hP)
        · exact Or.inr hS
    have hpermhis : b1.b16his.Perm (((x >>> 16) % 65536) :: b.b16his) := by
      rw [hb1his, List.append_assoc, List.singleton_append]
      have := @List.perm_middle Nat ((x >>> 16) % 65536) (b.b16his.take n)
        (b.b16his.drop n)
      rw [List.take_append_drop] at this
      exact this
    have hwf1 : b1.wf = true := by
      rw [bucket32.wf32_iff]
      refine ⟨hhi, hb1len, ?_, ?_, ?_, ?_⟩
      · rw [hpermhis.nodup_iff]
        exact List.nodup_cons.mpr ⟨hmiss, hnd⟩
      · intro h hh
        rw [hpermhis.mem_iff, List.mem_cons] at hh
        rcases hh with rfl | hh
        · exact hhi16
        · exact hkb h hh
      · intro _
        rw [hb1his, List.append_assoc, List.singleton_append, List.pairwise_append]
        refine ⟨hpw.sublist (List.take_sublist n _), ?_, ?_⟩
        · rw [List.pairwise_cons]
          refine ⟨?_, hpw.sublist (List.drop_sublist n _)⟩
          intro a ha
          obtain ⟨j, hj, rfl⟩ := List.mem_iff_getElem.mp ha
          rw [List.getElem_drop]
          exact hhighs (n + j) (by rw [List.length_drop] at hj; omega) (by omega)
        · intro a ha c hc
          obtain ⟨k, hk, rfl⟩ := List.mem_iff_getElem.mp ha
          have hkn : k < n := by rw [List.length_take] at hk; omega
          have hklen : k < b.b16his.length := by omega
          rw [List.getElem_take]
          rw [List.mem_cons] at hc
          rcases hc with rfl | hc
          · exact hblow k hklen hkn
          · obtain ⟨j, hj, rfl⟩ := List.mem_iff_getElem.mp hc
            rw [List.getElem_drop]
            have hjlen : n + j < b.b16his.length := by rw [List.length_drop] at hj; omega
            exact List.pairwise_iff_getElem.mp hpw k (n + j) hklen hjlen (by omega)
      · intro leaf hl
        rw [hb1] at hl
        simp only at hl
        rw [List.mem_append, List.mem_append, List.mem_singleton] at hl
        rcases hl with (hl | rfl) | hl
        · exact hleaf _ (List.mem_of_mem_take hl)
        · exact hnlwf
        · exact hleaf _ (List.mem_of_mem_drop hl)
    refine ⟨hbhasx, hwf1, rfl, ?_, ?_⟩
    · intro y hy
      rw [bucket32.has32_eq_mem _ hwf1 y hy, bucket32.has32_eq_mem b hwf y hy]
      simp only [hb1mem y]
      by_cases hc1 : y = x <;> by_cases hc2 : y ∈ b.elems <;> simp [hc1, hc2]
    · have hbmem2 : b.elems = pairElems (b.b16his.take n) (b.buckets.take n) ++
          pairElems (b.b16his.drop n) (b.buckets.drop n) := hsplit
      rw [hb1elems, hbmem2]
      simp only [List.length_append, List.length_map, hnllen]
      omega

set_option maxHeartbeats 1000000 in
/-- Full behaviour of `bucket32.add` on a well-formed mid bucket. -/
theorem bucket32.add32_spec (b : bucket32) (x : Nat) (hx : x < 4294967296)
    (hwf : b.wf = true) :
    (b.add x).1 = !b.has x ∧
    (b.add x).2.wf = true ∧
    (b.add x).2.hi = b.hi ∧
    (∀ y, y < 4294967296 → (b.add x).2.has y = ((y == x) || b.has y)) ∧
    (b.add x).2.elems.length = b.elems.length + (if b.has x then 0 else 1) := by
  obtain ⟨hhi, hlen, hnd, hkb, hsort, hleaf⟩ := (bucket32.wf32_iff b).mp hwf
  by_cases hfast : (decide (b.hint < b.b16his.length) &&
      (b.b16his.getD b.hint 0 == (x >>> 16) % 65536)) = true
  · -- hint fast path
    rw [Bool.and_eq_true, decide_eq_true_eq] at hfast
    obtain ⟨h1, heq0⟩ := hfast
    rw [getD_eq_getElem _ _ _ h1, beq_iff_eq] at heq0
    have hib : b.hint < b.buckets.length := by omega
    have hstep : b.add x = (((b.buckets.getD b.hint emptyB16).add (x % 65536)).1,
        bucket32.mk b.hi b.b16his
          (b.buckets.set b.hint
            ((b.buckets.getD b.hint emptyB16).add (x % 65536)).2) b.hint) := by
      rw [bucket32.add]
      rw [if_pos (by
        rw [Bool.and_eq_true, decide_eq_true_eq]
        exact ⟨h1, by rw [getD_eq_getElem _ _ _ h1]; simpa using heq0⟩)]
      rw [if_pos hib]
    obtain ⟨g1, g2, g3, g4⟩ := b32_update_spec b x hx hwf b.hint h1 heq0 b.hint
    rw [hstep]
    exact ⟨g1, g2, rfl, g3, g4⟩
  · rw [Bool.not_eq_true] at hfast
    have hstep0 : b.add x = b.addSlow ((x >>> 16) % 65536) (x % 65536) := by
      rw [bucket32.add, if_neg (by rw [hfast]; simp)]
    rw [hstep0]
    by_cases hmode : maxUnsortedBuckets < b.buckets.length
    · -- binary-search regime
      have hpw : b.b16his.Pairwise (· < ·) := hsort hmode
      have hfound := binarySearch16_found b.b16his ((x >>> 16) % 65536) hpw
      set n := binarySearch16 b.b16his ((x >>> 16) % 65536) with hn
      by_cases hcond : (decide (b.b16his.length ≤ n) ||
          (b.b16his.getD n 0 != (x >>> 16) % 65536)) = true
      · -- miss: insert via addAllocBig
        have hmiss : ((x >>> 16) % 65536) ∉ b.b16his := by
          rw [Bool.or_eq_true, decide_eq_true_eq] at hcond
          rcases hcond with hc | hc
          · rw [dif_neg (by omega)] at hfound
            exact hfound
          · rcases Nat.lt_or_ge n b.b16his.length with hlt | hge
            · rw [dif_pos hlt] at hfound
              rw [getD_eq_getElem _ _ _ hlt] at hc
              intro hmem
              have := hfound.mpr hmem
              simp [this] at hc
            · rw [dif_neg (by omega)] at hfound
              exact hfound
        have hstep : b.addSlow ((x >>> 16) % 65536) (x % 65536) =
            (true, (bucket32.mk b.hi b.b16his b.buckets n).addAllocBig
              ((x >>> 16) % 65536) (x % 65536) n) := by
          rw [bucket32.addSlow, if_pos hmode, if_pos (by simpa using hcond)]
        set b1 : bucket32 := bucket32.mk b.hi b.b16his b.buckets n with hb1
        have hwf1 : b1.wf = true := hwf
        have hn1 : binarySearch16 b1.b16his ((x >>> 16) % 65536) = n := rfl
        obtain ⟨g0, g1, g2, g3, g4⟩ := b32_allocBig_spec b1 x hx hwf1 hmode hmiss
        rw [hn1] at g1 g2 g3 g4
        rw [hstep]
        refine ⟨?_, g1, g2, g3, ?_⟩
        · show true = !b.has x
          have : b.has x = false := g0
          rw [this]
          rfl
        · have : b.has x = false := g0
          rw [g4, this]
          rfl
      · -- hit: add into leaf n
        rw [Bool.or_eq_true, decide_eq_true_eq] at hcond
        push_neg at hcond
        obtain ⟨hnlt, hneq⟩ := hcond
        have hnlt2 : n < b.b16his.length := by omega
        have heq0 : b.b16his[n] = (x >>> 16) % 65536 := by
          have := hneq
          rw [getD_eq_getElem _ _ _ hnlt2] at this
          simpa using this
        have hib : n < b.buckets.length := by omega
        have hstep : b.addSlow ((x >>> 16) % 65536) (x % 65536) =
            (((b.buckets.getD n emptyB16).add (x % 65536)).1,
              bucket32.mk b.hi b.b16his
                (b.buckets.set n ((b.buckets.getD n emptyB16).add (x % 65536)).2) n) := by
          rw [bucket32.addSlow, if_pos hmode]
          rw [if_neg (by
            simp only [Bool.or_eq_true, decide_eq_true_eq]
            push_neg
            exact ⟨by omega, by simpa using hneq⟩)]
          rw [if_pos hib]
        obtain ⟨g1, g2, g3, g4⟩ := b32_update_spec b x hx hwf n hnlt2 heq0 n
        rw [hstep]
        exact ⟨g1, g2, rfl, g3, g4⟩
    · -- linear regime
      rcases hfind : b.b16his.findIdx? (fun h => h == (x >>> 16) % 65536) with _ | i
      · -- miss: append via addAllocSmall
        have hmiss : ((x >>> 16) % 65536) ∉ b.b16his := by
          intro hc
          have := List.findIdx?_eq_none_iff.mp hfind _ hc
          simp at this
        have hstep : b.addSlow ((x >>> 16) % 65536) (x % 65536) =
            (true, b.addAllocSmall ((x >>> 16) % 65536) (x % 65536)) := by
          rw [bucket32.addSlow, if_neg hmode, hfind]
        obtain ⟨g0, g1, g2, g3, g4⟩ := b32_allocSmall_spec b x hx hwf hmiss
        rw [hstep]
        refine ⟨?_, g1, g2, g3, ?_⟩
        · show true = !b.has x
          rw [g0]
          rfl
        · rw [g4, g0]
          rfl
      · -- hit at index i
        obtain ⟨h1, hpi, _⟩ := findIdx?_some_spec hfind
        rw [beq_iff_eq] at hpi
        have hib : i < b.buckets.length := by omega
        have hstep : b.addSlow ((x >>> 16) % 65536) (x % 65536) =
            (((b.buckets.getD i emptyB16).add (x % 65536)).1,
              bucket32.mk b.hi b.b16his
                (b.buckets.set i ((b.buckets.getD i emptyB16).add (x % 65536)).2) i) := by
          rw [bucket32.addSlow, if_neg hmode, hfind]
          simp only
          rw [if_pos hib]
        obtain ⟨g1, g2, g3, g4⟩ := b32_update_spec b x hx hwf i h1 hpi i
        rw [hstep]
        exact ⟨g1, g2, rfl, g3, g4⟩

/-- Core update branch of `bucket32.del`: deleting `x` from the leaf at the
(unique) matching index `i`; the resulting `hint` value is arbitrary. -/
theorem b32_del_update_spec (b : bucket32) (x : Nat) (hx : x < 4294967296)
    (hwf : b.wf = true) (i : Nat) (h1 : i < b.b16his.length)
    (heq : b.b16his[i] = (x >>> 16) % 65536) (h2 : Nat) :
    ((b.buckets.getD i emptyB16).del (x % 65536)).1 = b.has x ∧
    (bucket32.mk b.hi b.b16his
        (b.buckets.set i ((b.buckets.getD i emptyB16).del (x % 65536)).2) h2).wf = true ∧
    (∀ y, y < 4294967296 →
      (bucket32.mk b.hi b.b16his
          (b.buckets.set i ((b.buckets.getD i emptyB16).del (x % 65536)).2) h2).has y =
        ((y != x) && b.has y)) ∧
    (bucket32.mk b.hi b.b16his
        (b.buckets.set i ((b.buckets.getD i emptyB16).del (x % 65536)).2) h2).elems.length =
      b.elems.length - (if b.has x then 1 else 0) := by
  obtain ⟨hhi, hlen, hnd, hkb, hsort, hleaf⟩ := (bucket32.wf32_iff b).mp hwf
  obtain ⟨hdiv, hmod, hdecomp⟩ := split32 x hx
  have hib : i < b.buckets.length := by omega
  have hgetD : b.buckets.getD i emptyB16 = b.buckets[i] := getD_eq_getElem _ _ _ hib
  have hlw : b.buckets[i].wf = true := hleaf _ (List.getElem_mem _)
  obtain ⟨la1, la2, la3, la4⟩ := bucket16.del16_spec b.buckets[i] (x % 65536) hmod hlw
  have hmemdel := bucket16.del_mem b.buckets[i] (x % 65536) hmod hlw
  have hbhasx : b.has x = b.buckets[i].has (x % 65536) := by
    rw [bucket32.has32_eq_mem b hwf x hx, pair_route b hwf x hx i h1 heq, hgetD]
  have hxeq : b.b16his[i] * 65536 + x % 65536 = x := by
    rw [heq, hdiv]
    omega
  set nb := ((b.buckets.getD i emptyB16).del (x % 65536)).2 with hnb
  have hnbeq : nb = (b.buckets[i].del (x % 65536)).2 := by rw [hnb, hgetD]
  rw [← hnbeq] at la2 la4 hmemdel
  set B2 : bucket32 := bucket32.mk b.hi b.b16his (b.buckets.set i nb) h2 with hB2
  obtain ⟨hE2, hE⟩ := pairElems_set b.b16his b.buckets i nb hlen hib
  have hB2elems : B2.elems = pairElems b.b16his (b.buckets.set i nb) := rfl
  have hbelems : b.elems = pairElems b.b16his b.buckets := rfl
  have hmemE : ∀ y, y ∈ B2.elems ↔ (y ≠ x ∧ y ∈ b.elems) := by
    intro y
    rw [hB2elems, hbelems, hE2, hE]
    simp only [List.mem_append, List.mem_map]
    have hblocknd : ∀ v, v ∈ b.buckets[i].elems → v < 65536 :=
      fun v hv => bucket16.elems16_lt _ hlw v hv
    have hPne : ∀ hP : y ∈ pairElems (b.b16his.take i) (b.buckets.take i), y ≠ x := by
      intro hP hc
      subst hc
      rw [mem_pairElems] at hP
      obtain ⟨j, hj1, hj2, v, hv, hyv⟩ := hP
      have hjlen : j < b.b16his.length := by
        rw [List.length_take] at hj1
        omega
      have hgj : (b.b16his.take i)[j] = b.b16his[j] := List.getElem_take _
      have hkj : b.b16his[j] < 65536 := hkb _ (List.getElem_mem _)
      have hvlt : v < 65536 := by
        apply bucket16.elems16_lt ((b.buckets.take i)[j]) _ v hv
        exact hleaf _ (List.mem_of_mem_take (List.getElem_mem _))
      have hjk : b.b16his[j] = (y >>> 16) % 65536 := by
        rw [hdiv, ← hgj] at *
        omega
      have hji : j = i := nodup_getElem_unique hnd hjlen h1 (by rw [hjk, heq])
      rw [List.length_take] at hj1
      omega
    have hSne : ∀ hS : y ∈ pairElems (b.b16his.drop (i + 1)) (b.buckets.drop (i + 1)),
        y ≠ x := by
      intro hS hc
      subst hc
      rw [mem_pairElems] at hS
      obtain ⟨j, hj1, hj2, v, hv, hyv⟩ := hS
      have hjlen : i + 1 + j < b.b16his.length := by
        rw [List.length_drop] at hj1
        omega
      have hgj : (b.b16his.drop (i + 1))[j] = b.b16his[i + 1 + j] := List.getElem_drop _
      have hkj : b.b16his[i + 1 + j] < 65536 := hkb _ (List.getElem_mem _)
      have hvlt : v < 65536 := by
        apply bucket16.elems16_lt ((b.buckets.drop (i + 1))[j]) _ v hv
        exact hleaf _ (List.mem_of_mem_drop (List.getElem_mem _))
      have hjk : b.b16his[i + 1 + j] = (y >>> 16) % 65536 := by
        rw [hdiv, ← hgj] at *
        omega
      have hji : i + 1 + j = i := nodup_getElem_unique hnd hjlen h1 (by rw [hjk, heq])
      omega
    constructor
    · rintro ((hP | ⟨v, hv, rfl⟩) | hS)
      · exact ⟨hPne hP, Or.inl (Or.inl hP)⟩
      · obtain ⟨hvne, hvold⟩ := (hmemdel v).mp hv
        refine ⟨?_, Or.inl (Or.inr ⟨v, hvold, rfl⟩)⟩
        intro hc
        have hvlt : v < 65536 := hblocknd v hvold
        apply hvne
        omega
      · exact ⟨hSne hS, Or.inr hS⟩
    · rintro ⟨hne, ((hP | ⟨v, hv, rfl⟩) | hS)⟩
      · exact Or.inl (Or.inl hP)
      · refine Or.inl (Or.inr ⟨v, (hmemdel v).mpr ⟨?_, hv⟩, rfl⟩)
        intro hc
        subst hc
        exact hne hxeq
      · exact Or.inr hS
  have hwf2 : B2.wf = true := by
    rw [bucket32.wf32_iff]
    refine ⟨hhi, ?_, hnd, hkb, ?_, ?_⟩
    · rw [hB2]
      simp only [List.length_set]
      exact hlen
    · intro hc
      apply hsort
      rw [hB2] at hc
      simpa using hc
    · intro leaf hlf
      rw [hB2] at hlf
      simp only at hlf
      rcases List.mem_or_eq_of_mem_set hlf with hmem | rfl
      · exact hleaf _ hmem
      · exact la2
  refine ⟨?_, hwf2, ?_, ?_⟩
  · rw [hgetD, la1, hbhasx]
  · intro y hy
    rw [bucket32.has32_eq_mem B2 hwf2 y hy, bucket32.has32_eq_mem b hwf y hy]
    simp only [hmemE]
    by_cases hc1 : y = x <;> by_cases hc2 : y ∈ b.elems <;> simp [hc1, hc2]
  · have hlen2 : B2.elems.length =
        (pairElems (b.b16his.take i) (b.buckets.take i)).length + nb.elems.length +
          (pairElems (b.b16his.drop (i + 1)) (b.buckets.drop (i + 1))).length := by
      rw [hB2elems, hE2]
      simp [List.length_append]
      omega
    have hlen1 : b.elems.length =
        (pairElems (b.b16his.take i) (b.buckets.take i)).length +
          b.buckets[i].elems.length +
          (pairElems (b.b16his.drop (i + 1)) (b.buckets.drop (i + 1))).length := by
      rw [hbelems, hE]
      simp [List.length_append]
      omega
    rw [hlen2, hlen1, la4, hbhasx]
    by_cases hc : b.buckets[i].has (x % 65536) = true
    · have hpos : 1 ≤ b.buckets[i].elems.length := by
        have hmem : (x % 65536) ∈ b.buckets[i].elems := by
          have h := hc
          rw [bucket16.has16_eq_mem _ hlw] at h
          simpa using h
        exact List.length_pos_of_mem hmem
      rw [hc]
      simp only [if_true]
      omega
    · rw [Bool.not_eq_true] at hc
      rw [hc]
      simp only [Bool.false_eq_true, if_false]
      omega

set_option maxHeartbeats 1000000 in
/-- Full behaviour of `bucket32.del` on a well-formed mid bucket. -/
theorem bucket32.del32_spec (b : bucket32) (x : Nat) (hx : x < 4294967296)
    (hwf : b.wf = true) :
    (b.del x).1 = b.has x ∧
    (b.del x).2.wf = true ∧
    (b.del x).2.hi = b.hi ∧
    (∀ y, y < 4294967296 → (b.del x).2.has y = ((y != x) && b.has y)) ∧
    (b.del x).2.elems.length = b.elems.length - (if b.has x then 1 else 0) := by
  obtain ⟨hhi, hlen, hnd, hkb, hsort, hleaf⟩ := (bucket32.wf32_iff b).mp hwf
  have hmissCase : ∀ (b2 : bucket32), b2 = b → b.has x = false →
      (false = b.has x ∧ b2.wf = true ∧ b2.hi = b.hi ∧
        (∀ y, y < 4294967296 → b2.has y = ((y != x) && b.has y)) ∧
        b2.elems.length = b.elems.length - (if b.has x then 1 else 0)) := by
    rintro b2 rfl hnone
    refine ⟨hnone.symm, hwf, rfl, ?_, by rw [hnone]; rfl⟩
    intro y hy
    rcases eq_or_ne y x with rfl | hne
    · simp [hnone]
    · simp [hne]
  by_cases hfast : (decide (b.hint < b.b16his.length) &&
      (b.b16his.getD b.hint 0 == (x >>> 16) % 65536)) = true
  · rw [Bool.and_eq_true, decide_eq_true_eq] at hfast
    obtain ⟨h1, heq0⟩ := hfast
    rw [getD_eq_getElem _ _ _ h1, beq_iff_eq] at heq0
    have hib : b.hint < b.buckets.length := by omega
    have hstep : b.del x = (((b.buckets.getD b.hint emptyB16).del (x % 65536)).1,
        bucket32.mk b.hi b.b16his
          (b.buckets.set b.hint
            ((b.buckets.getD b.hint emptyB16).del (x % 65536)).2) b.hint) := by
      rw [bucket32.del]
      rw [if_pos (by
        rw [Bool.and_eq_true, decide_eq_true_eq]
        exact ⟨h1, by rw [getD_eq_getElem _ _ _ h1]; simpa using heq0⟩)]
      rw [if_pos hib]
    obtain ⟨g1, g2, g3, g4⟩ := b32_del_update_spec b x hx hwf b.hint h1 heq0 b.hint
    rw [hstep]
    exact ⟨g1, g2, rfl, g3, g4⟩
  · rw [Bool.not_eq_true] at hfast
    have hstep0 : b.del x = b.delSlow ((x >>> 16) % 65536) (x % 65536) := by
      rw [bucket32.del, if_neg (by rw [hfast]; simp)]
    rw [hstep0]
    by_cases hmode : maxUnsortedBuckets < b.buckets.length
    · have hpw : b.b16his.Pairwise (· < ·) := hsort hmode
      have hfound := binarySearch16_found b.b16his ((x >>> 16) % 65536) hpw
      set n := binarySearch16 b.b16his ((x >>> 16) % 65536) with hn
      by_cases hcond : (decide (b.b16his.length ≤ n) ||
          (b.b16his.getD n 0 != (x >>> 16) % 65536)) = true
      · have hmiss : ((x >>> 16) % 65536) ∉ b.b16his := by
          rw [Bool.or_eq_true, decide_eq_true_eq] at hcond
          rcases hcond with hc | hc
          · rw [dif_neg (by omega)] at hfound
            exact hfound
          · rcases Nat.lt_or_ge n b.b16his.length with hlt | hge
            · rw [dif_pos hlt] at hfound
              rw [getD_eq_getElem _ _ _ hlt] at hc
              intro hmem
              have := hfound.mpr hmem
              simp [this] at hc
            · rw [dif_neg (by omega)] at hfound
              exact hfound
        have hnone : b.has x = false := by
          rw [bucket32.has32_eq_mem b hwf x hx, pair_route_none b hwf x hx hmiss]
        have hstep : b.delSlow ((x >>> 16) % 65536) (x % 65536) =
            (false, bucket32.mk b.hi b.b16his b.buckets n) := by
          rw [bucket32.delSlow, if_pos hmode, if_pos (by simpa using hcond)]
        rw [hstep]
        have hb1 : (bucket32.mk b.hi b.b16his b.buckets n).wf = true := hwf
        refine ⟨hnone.symm, hb1, rfl, ?_, by rw [hnone]; rfl⟩
        intro y hy
        have hhaseq : (bucket32.mk b.hi b.b16his b.buckets n).has y = b.has y := rfl
        rw [hhaseq]
        rcases eq_or_ne y x with rfl | hne
        · simp [hnone]
        · simp [hne]
      · rw [Bool.or_eq_true, decide_eq_true_eq] at hcond
        push_neg at hcond
        obtain ⟨hnlt, hneq⟩ := hcond
        have hnlt2 : n < b.b16his.length := by omega
        have heq0 : b.b16his[n] = (x >>> 16) % 65536 := by
          have := hneq
          rw [getD_eq_getElem _ _ _ hnlt2] at this
          simpa using this
        have hib : n < b.buckets.length := by omega
        have hstep : b.delSlow ((x >>> 16) % 65536) (x % 65536) =
            (((b.buckets.getD n emptyB16).del (x % 65536)).1,
              bucket32.mk b.hi b.b16his
                (b.buckets.set n ((b.buckets.getD n emptyB16).del (x % 65536)).2) n) := by
          rw [bucket32.delSlow, if_pos hmode]
          rw [if_neg (by
            simp only [Bool.or_eq_true, decide_eq_true_eq]
            push_neg
            exact ⟨by omega, by simpa using hneq⟩)]
          rw [if_pos hib]
        obtain ⟨g1, g2, g3, g4⟩ := b32_del_update_spec b x hx hwf n hnlt2 heq0 n
        rw [hstep]
        exact ⟨g1, g2, rfl, g3, g4⟩
    · rcases hfind : b.b16his.findIdx? (fun h => h == (x >>> 16) % 65536) with _ | i
      · have hmiss : ((x >>> 16) % 65536) ∉ b.b16his := by
          intro hc
          have := List.findIdx?_eq_none_iff.mp hfind _ hc
          simp at this
        have hnone : b.has x = false := by
          rw [bucket32.has32_eq_mem b hwf x hx, pair_route_none b hwf x hx hmiss]
        have hstep : b.delSlow ((x >>> 16) % 65536) (x % 65536) = (false, b) := by
          rw [bucket32.delSlow, if_neg hmode, hfind]
        rw [hstep]
        exact hmissCase b rfl hnone
      · obtain ⟨h1, hpi, _⟩ := findIdx?_some_spec hfind
        rw [beq_iff_eq] at hpi
        have hib : i < b.buckets.length := by omega
        have hstep : b.delSlow ((x >>> 16) % 65536) (x % 65536) =
            (((b.buckets.getD i emptyB16).del (x % 65536)).1,
              bucket32.mk b.hi b.b16his
                (b.buckets.set i ((b.buckets.getD i emptyB16).del (x % 65536)).2) i) := by
          rw [bucket32.delSlow, if_neg hmode, hfind]
          simp only
          rw [if_pos hib]
        obtain ⟨g1, g2, g3, g4⟩ := b32_del_update_spec b x hx hwf i h1 hpi i
        rw [hstep]
        exact ⟨g1, g2, rfl, g3, g4⟩

/-- C8: the sorted-mode invariant of a mid bucket.  (1) After any insertion
whose result holds more than `maxUnsortedBuckets` (32) entries — in
particular the insertion that first crosses the threshold, which triggers
the one-time sort, and every later shift-insertion — the key array is
sorted strictly ascending.  (2) In the over-threshold regime, lookups go
through the binary-search path `hasSlow`, and that lookup is correct
(it decides membership). -/
theorem claim_C8 (b : bucket32) (x : Nat) (hx : x < 4294967296) (hwf : b.wf = true) :
    (maxUnsortedBuckets < (b.add x).2.buckets.length →
      (b.add x).2.b16his.Pairwise (· < ·)) ∧
    (maxUnsortedBuckets < b.buckets.length →
      b.has x = b.hasSlow ((x >>> 16) % 65536) (x % 65536) ∧
      b.has x = decide (x ∈ b.elems)) := by
  obtain ⟨_, hwf2, _, _, _⟩ := bucket32.add32_spec b x hx hwf
  constructor
  · intro hthr
    obtain ⟨_, _, _, _, hsort2, _⟩ := (bucket32.wf32_iff _).mp hwf2
    exact hsort2 hthr
  · intro hthr
    constructor
    · rw [bucket32.has, if_pos hthr]
    · exact bucket32.has32_eq_mem b hwf x hx

/-- Witness mid bucket for C8: 33 keyed leaves, i.e. already past the
unsorted threshold. -/
theorem claim_C8_witness :
    (maxUnsortedBuckets <
        ((bucket32.mk 0 (List.range 33)
            ((List.range 33).map (fun k => bucket16.mk none 1 (k :: List.replicate 55 0)))
            0).add 7).2.buckets.length →
      ((bucket32.mk 0 (List.range 33)
          ((List.range 33).map (fun k => bucket16.mk none 1 (k :: List.replicate 55 0)))
          0).add 7).2.b16his.Pairwise (· < ·)) ∧
    (maxUnsortedBuckets <
        (bucket32.mk 0 (List.range 33)
          ((List.range 33).map (fun k => bucket16.mk none 1 (k :: List.replicate 55 0)))
          0).buckets.length →
      (bucket32.mk 0 (List.range 33)
          ((List.range 33).map (fun k => bucket16.mk none 1 (k :: List.replicate 55 0)))
          0).has 7 =
        (bucket32.mk 0 (List.range 33)
          ((List.range 33).map (fun k => bucket16.mk none 1 (k :: List.replicate 55 0)))
          0).hasSlow ((7 >>> 16) % 65536) (7 % 65536) ∧
      (bucket32.mk 0 (List.range 33)
          ((List.range 33).map (fun k => bucket16.mk none 1 (k :: List.replicate 55 0)))
          0).has 7 =
        decide (7 ∈ (bucket32.mk 0 (List.range 33)
          ((List.range 33).map (fun k => bucket16.mk none 1 (k :: List.replicate 55 0)))
          0).elems)) :=
  claim_C8 _ 7 (by decide) (by decide)

/-- C9: the `hint` field is only a performance cache, never
correctness-bearing: for every well-formed mid-bucket state and any two
values of the hint field, `has`, `add` and `del` return the same boolean
and produce the same resulting membership. -/
theorem claim_C9 (b : bucket32) (h1 h2 : Nat) (x : Nat) (hx : x < 4294967296)
    (hwf : b.wf = true) :
    ({ b with hint := h1 } : bucket32).has x = ({ b with hint := h2 } : bucket32).has x ∧
    (({ b with hint := h1 } : bucket32).add x).1 =
      (({ b with hint := h2 } : bucket32).add x).1 ∧
    (∀ y, y < 4294967296 →
      (({ b with hint := h1 } : bucket32).add x).2.has y =
        (({ b with hint := h2 } : bucket32).add x).2.has y) ∧
    (({ b with hint := h1 } : bucket32).del x).1 =
      (({ b with hint := h2 } : bucket32).del x).1 ∧
    (∀ y, y < 4294967296 →
      (({ b with hint := h1 } : bucket32).del x).2.has y =
        (({ b with hint := h2 } : bucket32).del x).2.has y) := by
  have hwfA : ({ b with hint := h1 } : bucket32).wf = true := hwf
  have hwfB : ({ b with hint := h2 } : bucket32).wf = true := hwf
  have hhasA : ∀ y, ({ b with hint := h1 } : bucket32).has y = b.has y := fun _ => rfl
  have hhasB : ∀ y, ({ b with hint := h2 } : bucket32).has y = b.has y := fun _ => rfl
  obtain ⟨aa1, _, _, aa4, _⟩ := bucket32.add32_spec { b with hint := h1 } x hx hwfA
  obtain ⟨ba1, _, _, ba4, _⟩ := bucket32.add32_spec { b with hint := h2 } x hx hwfB
  obtain ⟨ad1, _, _, ad4, _⟩ := bucket32.del32_spec { b with hint := h1 } x hx hwfA
  obtain ⟨bd1, _, _, bd4, _⟩ := bucket32.del32_spec { b with hint := h2 } x hx hwfB
  refine ⟨by rw [hhasA, hhasB], ?_, ?_, ?_, ?_⟩
  · rw [aa1, ba1, hhasA, hhasB]
  · intro y hy
    rw [aa4 y hy, ba4 y hy, hhasA, hhasB]
  · rw [ad1, bd1, hhasA, hhasB]
  · intro y hy
    rw [ad4 y hy, bd4 y hy, hhasA, hhasB]

/-- Witness for C9 at a concrete two-leaf mid bucket and hints 0 and 5. -/
theorem claim_C9_witness :
    ({ bucket32.mk 0 [3, 1] [bucket16.mk none 1 (7 :: List.replicate 55 0),
        bucket16.mk none 1 (9 :: List.replicate 55 0)] 0 with hint := 0 } : bucket32).has
        (3 * 65536 + 7) =
      ({ bucket32.mk 0 [3, 1] [bucket16.mk none 1 (7 :: List.replicate 55 0),
        bucket16.mk none 1 (9 :: List.replicate 55 0)] 0 with hint := 5 } : bucket32).has
        (3 * 65536 + 7) ∧
    (({ bucket32.mk 0 [3, 1] [bucket16.mk none 1 (7 :: List.replicate 55 0),
        bucket16.mk none 1 (9 :: List.replicate 55 0)] 0 with hint := 0 } : bucket32).add
        (3 * 65536 + 7)).1 =
      (({ bucket32.mk 0 [3, 1] [bucket16.mk none 1 (7 :: List.replicate 55 0),
        bucket16.mk none 1 (9 :: List.replicate 55 0)] 0 with hint := 5 } : bucket32).add
        (3 * 65536 + 7)).1 ∧
    (∀ y, y < 4294967296 →
      (({ bucket32.mk 0 [3, 1] [bucket16.mk none 1 (7 :: List.replicate 55 0),
          bucket16.mk none 1 (9 :: List.replicate 55 0)] 0 with hint := 0 } : bucket32).add
          (3 * 65536 + 7)).2.has y =
        (({ bucket32.mk 0 [3, 1] [bucket16.mk none 1 (7 :: List.replicate 55 0),
          bucket16.mk none 1 (9 :: List.replicate 55 0)] 0 with hint := 5 } : bucket32).add
          (3 * 65536 + 7)).2.has y) ∧
    (({ bucket32.mk 0 [3, 1] [bucket16.mk none 1 (7 :: List.replicate 55 0),
        bucket16.mk none 1 (9 :: List.replicate 55 0)] 0 with hint := 0 } : bucket32).del
        (3 * 65536 + 7)).1 =
      (({ bucket32.mk 0 [3, 1] [bucket16.mk none 1 (7 :: List.replicate 55 0),
        bucket16.mk none 1 (9 :: List.replicate 55 0)] 0 with hint := 5 } : bucket32).del
        (3 * 65536 + 7)).1 ∧
    (∀ y, y < 4294967296 →
      (({ bucket32.mk 0 [3, 1] [bucket16.mk none 1 (7 :: List.replicate 55 0),
          bucket16.mk none 1 (9 :: List.replicate 55 0)] 0 with hint := 0 } : bucket32).del
          (3 * 65536 + 7)).2.has y =
        (({ bucket32.mk 0 [3, 1] [bucket16.mk none 1 (7 :: List.replicate 55 0),
          bucket16.mk none 1 (9 :: List.replicate 55 0)] 0 with hint := 5 } : bucket32).del
          (3 * 65536 + 7)).2.has y) :=
  claim_C9 (bucket32.mk 0 [3, 1] [bucket16.mk none 1 (7 :: List.replicate 55 0),
    bucket16.mk none 1 (9 :: List.replicate 55 0)] 0) 0 5 (3 * 65536 + 7) (by decide)
    (by decide)

/-! ## Set-level semantic lemmas -/

/-- Every member of a well-formed mid bucket fits 32 bits. -/
theorem bucket32.elems32_lt (b : bucket32) (hwf : b.wf = true) :
    ∀ v ∈ b.elems, v < 4294967296 := by
  obtain ⟨hhi, hlen, hnd, hkb, hsort, hleaf⟩ := (bucket32.wf32_iff b).mp hwf
  intro v hv
  rw [bucket32.elems, mem_pairElems] at hv
  obtain ⟨i, h1, h2, w, hw, rfl⟩ := hv
  have hk : b.b16his[i] < 65536 := hkb _ (List.getElem_mem _)
  have hwlt : w < 65536 := bucket16.elems16_lt _ (hleaf _ (List.getElem_mem _)) w hw
  omega

theorem topElems_append (l1 l2 : List bucket32) :
    topElems (l1 ++ l2) = topElems l1 ++ topElems l2 := by
  simp [topElems]

theorem topElems_cons (b : bucket32) (l : List bucket32) :
    topElems (b :: l) =
      b.elems.map (fun v => b.hi * 4294967296 + v) ++ topElems l := by
  simp [topElems]

theorem mem_topElems {bs : List bucket32} (x : Nat) :
    x ∈ topElems bs ↔ ∃ i, ∃ h : i < bs.length,
      ∃ v ∈ bs[i].elems, x = bs[i].hi * 4294967296 + v := by
  rw [topElems, List.mem_flatten]
  constructor
  · rintro ⟨l, hl, hx⟩
    rw [List.mem_map] at hl
    obtain ⟨b, hb, rfl⟩ := hl
    obtain ⟨i, hi, rfl⟩ := List.getElem_of_mem hb
    rw [List.mem_map] at hx
    obtain ⟨v, hv, rfl⟩ := hx
    exact ⟨i, hi, v, hv, rfl⟩
  · rintro ⟨i, hi, v, hv, rfl⟩
    refine ⟨bs[i].elems.map (fun v => bs[i].hi * 4294967296 + v), ?_, ?_⟩
    · rw [List.mem_map]
      exact ⟨bs[i], List.getElem_mem _, rfl⟩
    · rw [List.mem_map]
      exact ⟨v, hv, rfl⟩

theorem topElems_length (bs : List bucket32) :
    (topElems bs).length = (bs.map (fun b => b.elems.length)).sum := by
  rw [topElems, List.length_flatten, List.map_map]
  congr 1
  apply List.map_congr_left
  intro b _
  simp

/-- Decomposing `topElems` around position `i`, for both the updated and the
original arrays. -/
theorem topElems_set (bs : List bucket32) (i : Nat) (nb : bucket32)
    (hi : i < bs.length) :
    topElems (bs.set i nb) =
      topElems (bs.take i) ++ nb.elems.map (fun v => nb.hi * 4294967296 + v) ++
        topElems (bs.drop (i + 1)) ∧
    topElems bs =
      topElems (bs.take i) ++
        (bs[i].elems).map (fun v => bs[i].hi * 4294967296 + v) ++
        topElems (bs.drop (i + 1)) := by
  constructor
  · have hset : bs.set i nb = bs.take i ++ nb :: bs.drop (i + 1) := by
      rw [List.set_eq_take_append_cons_drop, if_pos hi]
    rw [hset, topElems_append, topElems_cons, List.append_assoc]
  · conv_lhs => rw [show bs = bs.take i ++ bs[i] :: bs.drop (i + 1) by
      conv_lhs => rw [← List.take_append_drop i bs]
      rw [List.drop_eq_getElem_cons hi]]
    rw [topElems_append, topElems_cons, List.append_assoc]

theorem topElems_append_one (bs : List bucket32) (nb : bucket32) :
    topElems (bs ++ [nb]) =
      topElems bs ++ nb.elems.map (fun v => nb.hi * 4294967296 + v) := by
  rw [topElems_append, topElems_cons]
  simp [topElems]

theorem split64 (x : Nat) (hx : x < 18446744073709551616) :
    (x >>> 32) % 4294967296 = x / 4294967296 ∧ x % 4294967296 < 4294967296 ∧
      x = ((x >>> 32) % 4294967296) * 4294967296 + x % 4294967296 := by
  rw [Nat.shiftRight_eq_div_pow]
  norm_num
  omega

theorem Set.wf_iff (s : Set) :
    s.wf = true ↔
      (s.buckets.map bucket32.hi).Nodup ∧ (∀ b ∈ s.buckets, b.wf = true) ∧
        s.itemsCount = s.memberList.length := by
  simp only [Set.wf, Bool.and_eq_true, decide_eq_true_eq, beq_iff_eq,
    List.all_eq_true, and_assoc]

/-- If mid bucket `i` carries `x`'s high word, set membership of `x` is leaf
membership of `x`'s low word in that bucket. -/
theorem top_route (s : Set) (hwf : s.wf = true) (x : Nat)
    (hx : x < 18446744073709551616) (i : Nat) (h1 : i < s.buckets.length)
    (heq : (s.buckets[i]).hi = (x >>> 32) % 4294967296) :
    decide (x ∈ s.memberList) = (s.buckets.getD i emptyB32).has (x % 4294967296) := by
  obtain ⟨hnd, hbwf, hcnt⟩ := (Set.wf_iff s).mp hwf
  obtain ⟨hdiv, hmod, hdecomp⟩ := split64 x hx
  have hgetD : s.buckets.getD i emptyB32 = s.buckets[i] := getD_eq_getElem _ _ _ h1
  have hbw : (s.buckets[i]).wf = true := hbwf _ (List.getElem_mem _)
  rw [hgetD, bucket32.has32_eq_mem _ hbw _ hmod]
  have hndh : ∀ j k, (hj : j < s.buckets.length) → (hk : k < s.buckets.length) →
      (s.buckets[j]).hi = (s.buckets[k]).hi → j = k := by
    intro j k hj hk hjk
    have hjm : j < (s.buckets.map bucket32.hi).length := by simp [hj]
    have hkm : k < (s.buckets.map bucket32.hi).length := by simp [hk]
    refine nodup_getElem_unique hnd hjm hkm ?_
    simp only [List.getElem_map]
    exact hjk
  have hiff : x ∈ s.memberList ↔ (x % 4294967296) ∈ (s.buckets[i]).elems := by
    rw [Set.memberList, mem_topElems]
    constructor
    · rintro ⟨j, hj1, v, hv, hxv⟩
      have hhij : (s.buckets[j]).hi < 4294967296 :=
        ((bucket32.wf32_iff _).mp (hbwf _ (List.getElem_mem _))).1
      have hvlt : v < 4294967296 :=
        bucket32.elems32_lt _ (hbwf _ (List.getElem_mem _)) v hv
      have hjk : (s.buckets[j]).hi = (x >>> 32) % 4294967296 := by
        rw [hdiv]
        omega
      have hij : j = i := hndh j i hj1 h1 (by rw [hjk, heq])
      subst hij
      have : v = x % 4294967296 := by omega
      rwa [← this]
    · intro hv
      refine ⟨i, h1, x % 4294967296, hv, ?_⟩
      rw [heq]
      omega
  simp only [hiff]

/-- If `x`'s high word appears in no mid bucket, `x` is not a member. -/
theorem top_route_none (s : Set) (hwf : s.wf = true) (x : Nat)
    (hx : x < 18446744073709551616)
    (hnot : ∀ b ∈ s.buckets, b.hi ≠ (x >>> 32) % 4294967296) :
    decide (x ∈ s.memberList) = false := by
  obtain ⟨hnd, hbwf, hcnt⟩ := (Set.wf_iff s).mp hwf
  obtain ⟨hdiv, hmod, hdecomp⟩ := split64 x hx
  simp only [decide_eq_false_iff_not]
  intro hc
  rw [Set.memberList, mem_topElems] at hc
  obtain ⟨j, hj1, v, hv, hxv⟩ := hc
  have hhij : (s.buckets[j]).hi < 4294967296 :=
    ((bucket32.wf32_iff _).mp (hbwf _ (List.getElem_mem _))).1
  have hvlt : v < 4294967296 :=
    bucket32.elems32_lt _ (hbwf _ (List.getElem_mem _)) v hv
  apply hnot _ (List.getElem_mem hj1)
  rw [hdiv]
  omega

/-- `Set.Has` decides membership in the member list. -/
theorem Set.Has_eq_mem (s : Set) (hwf : s.wf = true) (x : Nat)
    (hx : x < 18446744073709551616) :
    s.Has x = decide (x ∈ s.memberList) := by
  rw [Set.Has]
  rcases hfind : s.buckets.findIdx? (fun b => b.hi == (x >>> 32) % 4294967296)
      with _ | i
  · have hnot : ∀ b ∈ s.buckets, b.hi ≠ (x >>> 32) % 4294967296 := by
      intro b hb hc
      have := List.findIdx?_eq_none_iff.mp hfind _ hb
      simp [hc] at this
    rw [hfind, top_route_none s hwf x hx hnot]
  · obtain ⟨h1, hpi, _⟩ := findIdx?_some_spec hfind
    rw [beq_iff_eq] at hpi
    rw [hfind, top_route s hwf x hx i h1 hpi]

theorem set_getElem_self {α : Type _} (l : List α) (i : Nat) (h : i < l.length) :
    l.set i l[i] = l := by
  apply List.ext_getElem
  · simp
  · intro n h1 h2
    rw [List.getElem_set]
    split
    · simp_all
    · rfl

/-- A freshly keyed empty mid bucket is well-formed. -/
theorem emptyB32_hi_wf (h : Nat) (hh : h < 4294967296) :
    ({ emptyB32 with hi := h } : bucket32).wf = true := by
  rw [bucket32.wf32_iff]
  refine ⟨hh, rfl, List.nodup_nil, ?_, ?_, ?_⟩ <;>
    simp [emptyB32, maxUnsortedBuckets]

theorem emptyB32_hi_elems (h : Nat) :
    ({ emptyB32 with hi := h } : bucket32).elems = [] := rfl

/-- Membership after a mid-bucket insertion: the inserted low word joins
the members, nothing else changes. -/
theorem b32_add_mem (b : bucket32) (hwf : b.wf = true) (lo : Nat)
    (hlo : lo < 4294967296) :
    ∀ v, v ∈ (b.add lo).2.elems ↔ (v = lo ∨ v ∈ b.elems) := by
  obtain ⟨ha1, ha2, ha3, ha4, ha5⟩ := bucket32.add32_spec b lo hlo hwf
  intro v
  constructor
  · intro hv
    have hvlt : v < 4294967296 := bucket32.elems32_lt _ ha2 v hv
    have hh := bucket32.has32_eq_mem _ ha2 v hvlt
    rw [ha4 v hvlt] at hh
    have : ((v == lo) || b.has v) = true := by
      rw [hh]
      simpa using hv
    rw [Bool.or_eq_true] at this
    rcases this with hc | hc
    · exact Or.inl (by simpa using hc)
    · right
      have := bucket32.has32_eq_mem b hwf v hvlt
      rw [hc] at this
      simpa using this.symm
  · intro hv
    have hvlt : v < 4294967296 := by
      rcases hv with rfl | hv
      · exact hlo
      · exact bucket32.elems32_lt _ hwf v hv
    have hh := bucket32.has32_eq_mem _ ha2 v hvlt
    rw [ha4 v hvlt] at hh
    have hrhs : ((v == lo) || b.has v) = true := by
      rcases hv with rfl | hv
      · simp
      · rw [bucket32.has32_eq_mem b hwf v hvlt]
        simp [hv]
    rw [hrhs] at hh
    simpa using hh.symm

/-- Membership after a mid-bucket deletion: exactly the deleted low word
leaves the members. -/
theorem b32_del_mem (b : bucket32) (hwf : b.wf = true) (lo : Nat)
    (hlo : lo < 4294967296) :
    ∀ v, v ∈ (b.del lo).2.elems ↔ (v ≠ lo ∧ v ∈ b.elems) := by
  obtain ⟨hd1, hd2, hd3, hd4, hd5⟩ := bucket32.del32_spec b lo hlo hwf
  intro v
  constructor
  · intro hv
    have hvlt : v < 4294967296 := bucket32.elems32_lt _ hd2 v hv
    have hh := bucket32.has32_eq_mem _ hd2 v hvlt
    rw [hd4 v hvlt] at hh
    have : ((v != lo) && b.has v) = true := by
      rw [hh]
      simpa using hv
    rw [Bool.and_eq_true] at this
    obtain ⟨hc1, hc2⟩ := this
    refine ⟨by simpa using hc1, ?_⟩
    have := bucket32.has32_eq_mem b hwf v hvlt
    rw [hc2] at this
    simpa using this.symm
  · rintro ⟨hne, hv⟩
    have hvlt : v < 4294967296 := bucket32.elems32_lt _ hwf v hv
    have hh := bucket32.has32_eq_mem _ hd2 v hvlt
    rw [hd4 v hvlt] at hh
    have hrhs : ((v != lo) && b.has v) = true := by
      rw [bucket32.has32_eq_mem b hwf v hvlt]
      simp [hv, hne]
    rw [hrhs] at hh
    simpa using hh.symm

/-- Full behavior of `Set.Add` on well-formed states: the invariant is
preserved, membership gains exactly `x`, and the maintained count tracks
the true cardinality. -/
theorem Set.Add_spec (s : Set) (x : Nat) (hx : x < 18446744073709551616)
    (hwf : s.wf = true) :
    (s.Add x).wf = true ∧
    (∀ y, y < 18446744073709551616 → (s.Add x).Has y = ((y == x) || s.Has y)) ∧
    (s.Add x).Len = s.Len + (if s.Has x then 0 else 1) := by
  obtain ⟨hnd, hbwf, hcnt⟩ := (Set.wf_iff s).mp hwf
  obtain ⟨hdiv, hmod, hdecomp⟩ := split64 x hx
  rcases hfind : s.buckets.findIdx? (fun b => b.hi == (x >>> 32) % 4294967296)
      with _ | i
  · -- no mid bucket carries x's high word: a fresh one is appended
    have hsHasx : s.Has x = false := by rw [Set.Has, hfind]
    have hbase : ({ emptyB32 with hi := (x >>> 32) % 4294967296 } : bucket32).wf = true :=
      emptyB32_hi_wf _ (by omega)
    obtain ⟨ha1, ha2, ha3, ha4, ha5⟩ := bucket32.add32_spec _ _ hmod hbase
    have hmemnb := b32_add_mem _ hbase _ hmod
    have hAdd : s.Add x = Set.mk (s.itemsCount + 1)
        (s.buckets ++
          [(({ emptyB32 with hi := (x >>> 32) % 4294967296 } : bucket32).add
              (x % 4294967296)).2]) := by
      rw [Set.Add, hfind]
    set nb := (({ emptyB32 with hi := (x >>> 32) % 4294967296 } : bucket32).add
        (x % 4294967296)).2 with hnb
    have hnbhi : nb.hi = (x >>> 32) % 4294967296 := ha3
    have hnbelems : ∀ v, v ∈ nb.elems ↔ v = x % 4294967296 := by
      intro v
      rw [hmemnb v, emptyB32_hi_elems]
      simp
    have hnblen : nb.elems.length = 1 := by
      have hbh : ({ emptyB32 with hi := (x >>> 32) % 4294967296 } : bucket32).has
          (x % 4294967296) = false := by
        rw [bucket32.has32_eq_mem _ hbase _ hmod, emptyB32_hi_elems]
        simp
      rw [ha5, emptyB32_hi_elems, hbh]
      simp
    have hnotin : ((x >>> 32) % 4294967296) ∉ s.buckets.map bucket32.hi := by
      intro hc
      rw [List.mem_map] at hc
      obtain ⟨b, hb, hbh⟩ := hc
      have hfb := List.findIdx?_eq_none_iff.mp hfind _ hb
      rw [hbh] at hfb
      simp at hfb
    have hM' : (s.Add x).memberList =
        s.memberList ++ nb.elems.map (fun v => nb.hi * 4294967296 + v) := by
      rw [hAdd]
      exact topElems_append_one s.buckets nb
    have hwf' : (s.Add x).wf = true := by
      rw [Set.wf_iff]
      refine ⟨?_, ?_, ?_⟩
      · rw [hAdd]
        show ((s.buckets ++ [nb]).map bucket32.hi).Nodup
        simp only [List.map_append, List.map_cons, List.map_nil]
        rw [List.nodup_append]
        refine ⟨hnd, List.nodup_singleton _, ?_⟩
        intro a ha hb
        rw [List.mem_singleton] at hb
        subst hb
        rw [hnbhi] at ha
        exact hnotin ha
      · rw [hAdd]
        intro b hb
        rw [List.mem_append] at hb
        rcases hb with hb | hb
        · exact hbwf _ hb
        · rw [List.mem_singleton] at hb
          subst hb
          exact ha2
      · rw [hM', hAdd]
        simp only [List.length_append, List.length_map, hnblen]
        omega
    have hHas : ∀ y, y < 18446744073709551616 →
        (s.Add x).Has y = ((y == x) || s.Has y) := by
      intro y hy
      rw [Set.Has_eq_mem _ hwf' y hy, Set.Has_eq_mem s hwf y hy]
      have hiff : y ∈ (s.Add x).memberList ↔ (y = x ∨ y ∈ s.memberList) := by
        rw [hM', List.mem_append, List.mem_map]
        constructor
        · rintro (hm | ⟨v, hv, rfl⟩)
          · exact Or.inr hm
          · left
            rw [(hnbelems v).mp hv, hnbhi]
            omega
        · rintro (heq | hm)
          · right
            refine ⟨x % 4294967296, (hnbelems _).mpr rfl, ?_⟩
            rw [hnbhi, heq]
            omega
          · exact Or.inl hm
      rcases eq_or_ne y x with rfl | hne
      · simp [hiff]
      · simp [hiff, hne]
    refine ⟨hwf', hHas, ?_⟩
    rw [hsHasx, hAdd]
    simp [Set.Len]
  · -- x's high word routes to the existing mid bucket i
    obtain ⟨h1, hpi, _⟩ := findIdx?_some_spec hfind
    rw [beq_iff_eq] at hpi
    have hbw : (s.buckets[i]).wf = true := hbwf _ (List.getElem_mem _)
    obtain ⟨ha1, ha2, ha3, ha4, ha5⟩ := bucket32.add32_spec (s.buckets[i]) _ hmod hbw
    have hmem2 := b32_add_mem (s.buckets[i]) hbw _ hmod
    have hgd : s.buckets.getD i emptyB32 = s.buckets[i] := getD_eq_getElem _ _ _ h1
    have hAdd : s.Add x = Set.mk
        (s.itemsCount + (if ((s.buckets.getD i emptyB32).add (x % 4294967296)).1
          then 1 else 0))
        (s.buckets.set i ((s.buckets.getD i emptyB32).add (x % 4294967296)).2) := by
      rw [Set.Add, hfind]
    rw [hgd] at hAdd
    have hsHasx : s.Has x = (s.buckets.getD i emptyB32).has (x % 4294967296) := by
      rw [Set.Has, hfind]
    rw [hgd] at hsHasx
    set b2 := ((s.buckets[i]).add (x % 4294967296)).2 with hb2
    obtain ⟨hd1, hd2⟩ := topElems_set s.buckets i b2 h1
    have hb2hi : b2.hi = (s.buckets[i]).hi := ha3
    have hwf' : (s.Add x).wf = true := by
      rw [Set.wf_iff]
      refine ⟨?_, ?_, ?_⟩
      · rw [hAdd]
        show ((s.buckets.set i b2).map bucket32.hi).Nodup
        rw [List.map_set, hb2hi]
        have hlen : i < (s.buckets.map bucket32.hi).length := by simp [h1]
        have hieq : (s.buckets.map bucket32.hi)[i] = (s.buckets[i]).hi := by simp
        rw [← hieq, set_getElem_self _ _ hlen]
        exact hnd
      · rw [hAdd]
        intro b hb
        rcases List.mem_or_eq_of_mem_set hb with hb | rfl
        · exact hbwf _ hb
        · exact ha2
      · rw [hAdd]
        have hMlen : s.memberList.length =
            (topElems (s.buckets.take i)).length + (s.buckets[i]).elems.length +
              (topElems (s.buckets.drop (i + 1))).length := by
          rw [Set.memberList, hd2]
          simp only [List.length_append, List.length_map]
        have hM'len : (topElems (s.buckets.set i b2)).length =
            (topElems (s.buckets.take i)).length + b2.elems.length +
              (topElems (s.buckets.drop (i + 1))).length := by
          rw [hd1]
          simp only [List.length_append, List.length_map]
        show s.itemsCount + (if ((s.buckets[i]).add (x % 4294967296)).1 then 1 else 0)
            = (topElems (s.buckets.set i b2)).length
        rw [hM'len, ha1, ha5]
        by_cases hhas : (s.buckets[i]).has (x % 4294967296) = true
        · simp only [hhas]
          simp
          omega
        · rw [Bool.not_eq_true] at hhas
          simp only [hhas]
          simp
          omega
    have hM'mem : ∀ y, y ∈ (s.Add x).memberList ↔ (y = x ∨ y ∈ s.memberList) := by
      intro y
      rw [hAdd]
      show y ∈ topElems (s.buckets.set i b2) ↔ _
      rw [hd1, Set.memberList, hd2]
      simp only [List.mem_append, List.mem_map, or_assoc]
      constructor
      · rintro (hm | ⟨v, hv, rfl⟩ | hm)
        · exact Or.inr (Or.inl hm)
        · rw [hmem2 v] at hv
          rcases hv with rfl | hv
          · left
            rw [hb2hi, hpi]
            omega
          · right; right; left
            exact ⟨v, hv, by rw [hb2hi]⟩
        · exact Or.inr (Or.inr (Or.inr hm))
      · rintro (heq | hm | ⟨v, hv, rfl⟩ | hm)
        · right; left
          refine ⟨x % 4294967296, (hmem2 _).mpr (Or.inl rfl), ?_⟩
          rw [hb2hi, hpi, heq]
          omega
        · exact Or.inl hm
        · right; left
          exact ⟨v, (hmem2 v).mpr (Or.inr hv), by rw [hb2hi]⟩
        · exact Or.inr (Or.inr hm)
    have hHas : ∀ y, y < 18446744073709551616 →
        (s.Add x).Has y = ((y == x) || s.Has y) := by
      intro y hy
      rw [Set.Has_eq_mem _ hwf' y hy, Set.Has_eq_mem s hwf y hy]
      rcases eq_or_ne y x with rfl | hne
      · simp [hM'mem]
      · simp [hM'mem, hne]
    refine ⟨hwf', hHas, ?_⟩
    rw [hsHasx, hAdd, ha1]
    by_cases hhas : (s.buckets[i]).has (x % 4294967296) = true
    · simp [Set.Len, hhas]
    · rw [Bool.not_eq_true] at hhas
      simp [Set.Len, hhas]

/-- Values stored in mid buckets other than the one routing `x` differ
from `x`. -/
theorem topElems_other_ne (s : Set) (hwf : s.wf = true) (x : Nat)
    (hx : x < 18446744073709551616) (i : Nat) (h1 : i < s.buckets.length)
    (hpi : (s.buckets[i]).hi = (x >>> 32) % 4294967296) :
    (∀ y ∈ topElems (s.buckets.take i), y ≠ x) ∧
    (∀ y ∈ topElems (s.buckets.drop (i + 1)), y ≠ x) := by
  obtain ⟨hnd, hbwf, hcnt⟩ := (Set.wf_iff s).mp hwf
  obtain ⟨hdiv, hmod, hdecomp⟩ := split64 x hx
  have hne : ∀ j, (hj : j < s.buckets.length) → j ≠ i →
      ∀ v ∈ (s.buckets[j]).elems, (s.buckets[j]).hi * 4294967296 + v ≠ x := by
    intro j hj hji v hv hc
    have hbwj := hbwf _ (List.getElem_mem hj)
    have hhj : (s.buckets[j]).hi < 4294967296 := ((bucket32.wf32_iff _).mp hbwj).1
    have hvlt : v < 4294967296 := bucket32.elems32_lt _ hbwj v hv
    have hhij : (s.buckets[j]).hi = (x >>> 32) % 4294967296 := by
      rw [hdiv]
      omega
    have hji' : j = i := by
      have hjm : j < (s.buckets.map bucket32.hi).length := by simp [hj]
      have him : i < (s.buckets.map bucket32.hi).length := by simp [h1]
      refine nodup_getElem_unique hnd hjm him ?_
      simp only [List.getElem_map]
      rw [hhij, hpi]
    exact hji hji'
  constructor
  · intro y hy
    rw [mem_topElems] at hy
    obtain ⟨j, hj, v, hv, rfl⟩ := hy
    have hjlen : j < s.buckets.length := by
      simp [List.length_take] at hj
      omega
    have hji : j < i := by
      simp [List.length_take] at hj
      omega
    have hjt : (s.buckets.take i)[j] = s.buckets[j] := List.getElem_take _
    rw [hjt] at hv ⊢
    exact hne j hjlen (by omega) v hv
  · intro y hy
    rw [mem_topElems] at hy
    obtain ⟨j, hj, v, hv, rfl⟩ := hy
    have hjlen : i + 1 + j < s.buckets.length := by
      simp [List.length_drop] at hj
      omega
    have hjt : (s.buckets.drop (i + 1))[j] = s.buckets[i + 1 + j] := List.getElem_drop _
    rw [hjt] at hv ⊢
    exact hne (i + 1 + j) hjlen (by omega) v hv

/-- Full behavior of `Set.Del` on well-formed states: the internal boolean
reports prior membership, the invariant is preserved, membership loses
exactly `x`, and the count is decremented exactly on a removal. -/
theorem Set.Del_spec (s : Set) (x : Nat) (hx : x < 18446744073709551616)
    (hwf : s.wf = true) :
    (s.Del x).1 = s.Has x ∧
    (s.Del x).2.wf = true ∧
    (∀ y, y < 18446744073709551616 → (s.Del x).2.Has y = ((y != x) && s.Has y)) ∧
    (s.Del x).2.Len = s.Len - (if s.Has x then 1 else 0) := by
  obtain ⟨hnd, hbwf, hcnt⟩ := (Set.wf_iff s).mp hwf
  obtain ⟨hdiv, hmod, hdecomp⟩ := split64 x hx
  rcases hfind : s.buckets.findIdx? (fun b => b.hi == (x >>> 32) % 4294967296)
      with _ | i
  · -- x's high word routes to no mid bucket: Del is a no-op
    have hsHasx : s.Has x = false := by rw [Set.Has, hfind]
    have hDel : s.Del x = (false, s) := by rw [Set.Del, hfind]
    rw [hDel, hsHasx]
    refine ⟨rfl, hwf, ?_, by simp⟩
    intro y hy
    rcases eq_or_ne y x with heq | hne
    · rw [heq]
      show s.Has x = ((x != x) && s.Has x)
      simp [hsHasx]
    · show s.Has y = ((y != x) && s.Has y)
      simp [hne]
  · obtain ⟨h1, hpi, _⟩ := findIdx?_some_spec hfind
    rw [beq_iff_eq] at hpi
    have hbw : (s.buckets[i]).wf = true := hbwf _ (List.getElem_mem _)
    obtain ⟨hdd1, hdd2, hdd3, hdd4, hdd5⟩ :=
      bucket32.del32_spec (s.buckets[i]) _ hmod hbw
    have hmem2 := b32_del_mem (s.buckets[i]) hbw _ hmod
    have hgd : s.buckets.getD i emptyB32 = s.buckets[i] := getD_eq_getElem _ _ _ h1
    have hDel : s.Del x = (((s.buckets.getD i emptyB32).del (x % 4294967296)).1,
        Set.mk
          (s.itemsCount -
            (if ((s.buckets.getD i emptyB32).del (x % 4294967296)).1 then 1 else 0))
          (s.buckets.set i ((s.buckets.getD i emptyB32).del (x % 4294967296)).2)) := by
      rw [Set.Del, hfind]
    rw [hgd] at hDel
    have hsHasx : s.Has x = (s.buckets.getD i emptyB32).has (x % 4294967296) := by
      rw [Set.Has, hfind]
    rw [hgd] at hsHasx
    set b2 := ((s.buckets[i]).del (x % 4294967296)).2 with hb2
    obtain ⟨hd1, hd2⟩ := topElems_set s.buckets i b2 h1
    have hb2hi : b2.hi = (s.buckets[i]).hi := hdd3
    obtain ⟨hTne, hDne⟩ := topElems_other_ne s hwf x hx i h1 hpi
    have hwf' : (s.Del x).2.wf = true := by
      rw [hDel, Set.wf_iff]
      refine ⟨?_, ?_, ?_⟩
      · show ((s.buckets.set i b2).map bucket32.hi).Nodup
        rw [List.map_set, hb2hi]
        have hlen : i < (s.buckets.map bucket32.hi).length := by simp [h1]
        have hieq : (s.buckets.map bucket32.hi)[i] = (s.buckets[i]).hi := by simp
        rw [← hieq, set_getElem_self _ _ hlen]
        exact hnd
      · intro b hb
        rcases List.mem_or_eq_of_mem_set hb with hb | rfl
        · exact hbwf _ hb
        · exact hdd2
      · have hMlen : s.memberList.length =
            (topElems (s.buckets.take i)).length + (s.buckets[i]).elems.length +
              (topElems (s.buckets.drop (i + 1))).length := by
          rw [Set.memberList, hd2]
          simp only [List.length_append, List.length_map]
        have hM'len : (topElems (s.buckets.set i b2)).length =
            (topElems (s.buckets.take i)).length + b2.elems.length +
              (topElems (s.buckets.drop (i + 1))).length := by
          rw [hd1]
          simp only [List.length_append, List.length_map]
        show s.itemsCount -
            (if ((s.buckets[i]).del (x % 4294967296)).1 then 1 else 0)
            = (topElems (s.buckets.set i b2)).length
        rw [hM'len, hdd1, hdd5]
        by_cases hhas : (s.buckets[i]).has (x % 4294967296) = true
        · have hmemx : (x % 4294967296) ∈ (s.buckets[i]).elems := by
            have hq := bucket32.has32_eq_mem _ hbw _ hmod
            rw [hhas] at hq
            simpa using hq.symm
          have hpos : 1 ≤ (s.buckets[i]).elems.length :=
            List.length_pos_of_mem hmemx
          simp only [hhas]
          simp
          omega
        · rw [Bool.not_eq_true] at hhas
          simp only [hhas]
          simp
          omega
    have hM'mem : ∀ y, y ∈ (s.Del x).2.memberList ↔ (y ≠ x ∧ y ∈ s.memberList) := by
      intro y
      rw [hDel]
      show y ∈ topElems (s.buckets.set i b2) ↔ _
      rw [hd1, Set.memberList, hd2]
      simp only [List.mem_append, List.mem_map, or_assoc]
      constructor
      · rintro (hm | ⟨v, hv, rfl⟩ | hm)
        · exact ⟨hTne _ hm, Or.inl hm⟩
        · rw [hmem2 v] at hv
          obtain ⟨hvne, hv⟩ := hv
          refine ⟨?_, Or.inr (Or.inl ⟨v, hv, by rw [hb2hi]⟩)⟩
          rw [hb2hi, hpi]
          intro hc
          have hvlt : v < 4294967296 := bucket32.elems32_lt _ hbw v hv
          apply hvne
          omega
        · exact ⟨hDne _ hm, Or.inr (Or.inr hm)⟩
      · rintro ⟨hne, (hm | ⟨v, hv, rfl⟩ | hm)⟩
        · exact Or.inl hm
        · right; left
          refine ⟨v, ?_, by rw [hb2hi]⟩
          rw [hmem2 v]
          refine ⟨?_, hv⟩
          intro hc
          apply hne
          rw [hc, hpi]
          omega
        · exact Or.inr (Or.inr hm)
    have hHas : ∀ y, y < 18446744073709551616 →
        (s.Del x).2.Has y = ((y != x) && s.Has y) := by
      intro y hy
      rw [Set.Has_eq_mem _ hwf' y hy, Set.Has_eq_mem s hwf y hy]
      rcases eq_or_ne y x with heq | hne
      · rw [heq]
        simp [hM'mem]
      · simp [hM'mem, hne]
    refine ⟨?_, hwf', hHas, ?_⟩
    · rw [hDel]
      show ((s.buckets[i]).del (x % 4294967296)).1 = s.Has x
      rw [hdd1, hsHasx]
    · rw [hDel, hsHasx, hdd1]
      by_cases hhas : (s.buckets[i]).has (x % 4294967296) = true
      · simp [Set.Len, hhas]
      · rw [Bool.not_eq_true] at hhas
        simp [Set.Len, hhas]

/-- C1: on any well-formed set, after `Add x` the element tests present;
`Len` grows by exactly 1 when `x` was absent and is unchanged when `x` was
already present (idempotence of `Add` on the cardinality). -/
theorem claim_C1 (s : Set) (x : Nat) (hx : x < 18446744073709551616)
    (hwf : s.wf = true) :
    (s.Add x).Has x = true ∧
    (s.Has x = false → (s.Add x).Len = s.Len + 1) ∧
    (s.Has x = true → (s.Add x).Len = s.Len) := by
  obtain ⟨hwf', hHas, hLen⟩ := Set.Add_spec s x hx hwf
  refine ⟨?_, ?_, ?_⟩
  · rw [hHas x hx]
    simp
  · intro h
    rw [hLen, h]
    simp
  · intro h
    rw [hLen, h]
    simp

/-- Witness for C1 at the empty set and x = 5. -/
theorem claim_C1_witness :
    (emptySet.Add 5).Has 5 = true ∧
    (emptySet.Has 5 = false → (emptySet.Add 5).Len = emptySet.Len + 1) ∧
    (emptySet.Has 5 = true → (emptySet.Add 5).Len = emptySet.Len) :=
  claim_C1 emptySet 5 (by decide) (by decide)

/-- C2: on any well-formed set, after `Del x` the element tests absent; the
deletion's boolean (the inner result the Go code uses to guard the
decrement) is true iff `x` was present beforehand, and `Len` is decremented
exactly when a removal occurred. -/
theorem claim_C2 (s : Set) (x : Nat) (hx : x < 18446744073709551616)
    (hwf : s.wf = true) :
    (s.Del x).2.Has x = false ∧
    (s.Del x).1 = s.Has x ∧
    (s.Del x).2.Len = s.Len - (if (s.Del x).1 then 1 else 0) := by
  obtain ⟨h1, hwf', hHas, hLen⟩ := Set.Del_spec s x hx hwf
  refine ⟨?_, h1, ?_⟩
  · rw [hHas x hx]
    simp
  · rw [hLen, h1]

/-- Witness for C2 at the singleton set obtained by adding 5. -/
theorem claim_C2_witness :
    ((emptySet.Add 5).Del 5).2.Has 5 = false ∧
    ((emptySet.Add 5).Del 5).1 = (emptySet.Add 5).Has 5 ∧
    ((emptySet.Add 5).Del 5).2.Len =
      (emptySet.Add 5).Len - (if ((emptySet.Add 5).Del 5).1 then 1 else 0) :=
  claim_C2 (emptySet.Add 5) 5 (by decide) (by decide)

/-- Leaf emission: `bucket16.appendTo` appends exactly the leaf's members
shifted under the 48-bit base, strictly ascending and confined to the
base's 16-bit block, and the returned leaf (whose pool may have been
sorted in place) is well-formed with permuted — hence unchanged —
membership. -/
theorem bucket16.appendTo16_spec (b : bucket16) (hwf : b.wf = true) (dst : List Nat)
    (hi hi16 : Nat) (h16 : hi16 < 65536) :
    ∃ L, (b.appendTo dst hi hi16).1 = dst ++ L ∧
      L.Pairwise (· < ·) ∧
      (∀ y, y ∈ L ↔ ∃ v ∈ b.elems, y = hi * 4294967296 + hi16 * 65536 + v) ∧
      L.length = b.elems.length ∧
      (∀ y ∈ L, hi * 4294967296 + hi16 * 65536 ≤ y ∧
        y < hi * 4294967296 + hi16 * 65536 + 65536) ∧
      (b.appendTo dst hi hi16).2.wf = true ∧
      ((b.appendTo dst hi hi16).2.elems).Perm b.elems := by
  obtain ⟨hpool, hlen, hnd, hbnd, hbits⟩ := (bucket16.wf16_iff b).mp hwf
  have hlor : ∀ v, v < 65536 →
      (hi <<< 32 ||| hi16 <<< 16) ||| v = hi * 4294967296 + hi16 * 65536 + v := by
    intro v hv
    rw [hi64_eq_add hi hi16 h16]
    exact @lor_base_add (hi * 4294967296 + hi16 * 65536) v 16 (by omega) (by omega)
  rcases hb : b.bits with _ | ws
  · -- pool mode: the pool prefix is sorted in place and emitted
    set a := b.smallPool.take b.smallPoolLen with ha
    have helems : b.elems = a := by rw [bucket16.elems, hb]
    set a2 := if 1 < a.length then List.insertionSort (· ≤ ·) a else a with ha2
    have happ : b.appendTo dst hi hi16 =
        (dst ++ a2.map (fun v => (hi <<< 32 ||| hi16 <<< 16) ||| v),
         bucket16.mk none b.smallPoolLen (a2 ++ b.smallPool.drop b.smallPoolLen)) := by
      simp only [bucket16.appendTo, hb]
    have hperm : a2.Perm a := by
      rw [ha2]
      split
      · exact List.perm_insertionSort _ _
      · exact List.Perm.refl _
    have hsorted : a2.Pairwise (· ≤ ·) := by
      rw [ha2]
      split
      · exact List.sorted_insertionSort _ _
      · rename_i h
        rw [List.pairwise_iff_getElem]
        intro i j hi1 hj1 hij
        omega
    have hnd2 : a2.Nodup := hperm.nodup_iff.mpr hnd
    have hlt : ∀ v ∈ a2, v < 65536 := fun v hv => hbnd v (hperm.mem_iff.mp hv)
    have hstrict : a2.Pairwise (· < ·) :=
      (hsorted.and hnd2).imp (fun h => lt_of_le_of_ne h.1 h.2)
    have halen : a.length = b.smallPoolLen := by
      rw [ha, List.length_take]
      omega
    have ha2len : a2.length = b.smallPoolLen := by
      rw [hperm.length_eq, halen]
    have htake : (a2 ++ b.smallPool.drop b.smallPoolLen).take b.smallPoolLen = a2 :=
      List.take_left' ha2len
    have hnbelems :
        (bucket16.mk none b.smallPoolLen
          (a2 ++ b.smallPool.drop b.smallPoolLen)).elems = a2 := by
      rw [bucket16.elems]
      exact htake
    rw [happ]
    refine ⟨a2.map (fun v => hi * 4294967296 + hi16 * 65536 + v),
      ?_, ?_, ?_, ?_, ?_, ?_, ?_⟩
    · show dst ++ a2.map (fun v => (hi <<< 32 ||| hi16 <<< 16) ||| v) = _
      congr 1
      apply List.map_congr_left
      intro v hv
      exact hlor v (hlt v hv)
    · rw [List.pairwise_map]
      exact hstrict.imp (fun h => by omega)
    · intro y
      rw [List.mem_map]
      constructor
      · rintro ⟨v, hv, rfl⟩
        refine ⟨v, ?_, rfl⟩
        rw [helems]
        exact hperm.mem_iff.mp hv
      · rintro ⟨v, hv, rfl⟩
        refine ⟨v, ?_, rfl⟩
        rw [helems] at hv
        exact hperm.mem_iff.mpr hv
    · rw [List.length_map, hperm.length_eq, helems]
    · intro y hy
      rw [List.mem_map] at hy
      obtain ⟨v, hv, rfl⟩ := hy
      have := hlt v hv
      omega
    · show (bucket16.mk none b.smallPoolLen
          (a2 ++ b.smallPool.drop b.smallPoolLen)).wf = true
      rw [bucket16.wf16_iff]
      refine ⟨?_, hlen, ?_, ?_, ?_⟩
      · show (a2 ++ b.smallPool.drop b.smallPoolLen).length = 56
        rw [List.length_append, ha2len, List.length_drop]
        omega
      · show ((a2 ++ b.smallPool.drop b.smallPoolLen).take b.smallPoolLen).Nodup
        rw [htake]
        exact hnd2
      · show ∀ v ∈ (a2 ++ b.smallPool.drop b.smallPoolLen).take b.smallPoolLen,
          v < 65536
        rw [htake]
        exact hlt
      · intro ws hws
        cases hws
    · rw [hnbelems, helems]
      exact hperm
  · -- bitmap mode: the word loop emits the set bits in order
    obtain ⟨hws, hwbnd⟩ := hbits ws hb
    have helems : b.elems = bitsElemsFrom ws 0 := by
      simp only [bucket16.elems, hb]
      rfl
    have happ : b.appendTo dst hi hi16 =
        (dst ++ bitsAppendAux (hi <<< 32 ||| hi16 <<< 16) ws 0, b) := by
      simp only [bucket16.appendTo, hb]
    have hrw : bitsAppendAux (hi <<< 32 ||| hi16 <<< 16) ws 0 =
        (bitsElemsFrom ws 0).map (fun v => (hi <<< 32 ||| hi16 <<< 16) + v) := by
      apply bitsAppendAux_eq ws 0 _ _ hwbnd (by omega)
      rw [hi64_eq_add hi hi16 h16]
      omega
    have hvlt : ∀ v ∈ bitsElemsFrom ws 0, v < 65536 := by
      intro v hv
      exact ((mem_bitsElems0 hws v).mp hv).1
    rw [happ]
    refine ⟨(bitsElemsFrom ws 0).map (fun v => hi * 4294967296 + hi16 * 65536 + v),
      ?_, ?_, ?_, ?_, ?_, hwf, ?_⟩
    · show dst ++ bitsAppendAux (hi <<< 32 ||| hi16 <<< 16) ws 0 = _
      rw [hrw]
      congr 1
      apply List.map_congr_left
      intro v hv
      rw [hi64_eq_add hi hi16 h16]
    · rw [List.pairwise_map]
      exact (bitsElemsFrom_pairwise ws 0).imp (fun h => by omega)
    · intro y
      rw [List.mem_map, helems]
      exact ⟨fun ⟨v, hv, h⟩ => ⟨v, hv, h.symm⟩, fun ⟨v, hv, h⟩ => ⟨v, hv, h.symm⟩⟩
    · rw [List.length_map, helems]
    · intro y hy
      rw [List.mem_map] at hy
      obtain ⟨v, hv, rfl⟩ := hy
      have := hvlt v hv
      omega
    · exact List.Perm.refl _

/-- The mid-bucket emission loop: concatenates the leaf blocks in key
order, producing a strictly ascending list of all pair-encoded members;
the rebuilt leaf array is well-formed with per-leaf permuted membership. -/
theorem b16listAppend_spec (hi : Nat) :
    ∀ (ps : List (Nat × bucket16)) (dst : List Nat),
      (∀ p ∈ ps, p.1 < 65536) → (∀ p ∈ ps, p.2.wf = true) →
      ps.Pairwise (fun p q => p.1 < q.1) →
      ∃ L, (b16listAppend hi ps dst).1 = dst ++ L ∧
        L.Pairwise (· < ·) ∧
        (∀ y, y ∈ L ↔ ∃ p ∈ ps, ∃ v ∈ p.2.elems,
          y = hi * 4294967296 + p.1 * 65536 + v) ∧
        L.length = (ps.map (fun p => p.2.elems.length)).sum ∧
        List.Forall₂ (fun (nl : bucket16) (p : Nat × bucket16) =>
          nl.wf = true ∧ nl.elems.Perm p.2.elems) (b16listAppend hi ps dst).2 ps := by
  intro ps
  induction ps with
  | nil =>
    intro dst _ _ _
    exact ⟨[], by simp [b16listAppend], by simp, by simp [b16listAppend], by simp,
      by simp [b16listAppend]⟩
  | cons p rest ih =>
    intro dst hkb hwf hsort
    obtain ⟨k, leaf⟩ := p
    rw [List.pairwise_cons] at hsort
    obtain ⟨hklt, hsort⟩ := hsort
    have hk : k < 65536 := hkb _ (List.mem_cons_self _ _)
    have hlw : leaf.wf = true := hwf _ (List.mem_cons_self _ _)
    obtain ⟨L1, hL1eq, hL1sort, hL1mem, hL1len, hL1bnd, hL1wf, hL1perm⟩ :=
      bucket16.appendTo16_spec leaf hlw dst hi k hk
    obtain ⟨L2, hL2eq, hL2sort, hL2mem, hL2len, hL2f2⟩ :=
      ih (leaf.appendTo dst hi k).1
        (fun q hq => hkb q (List.mem_cons_of_mem _ hq))
        (fun q hq => hwf q (List.mem_cons_of_mem _ hq)) hsort
    have hstep : b16listAppend hi ((k, leaf) :: rest) dst =
        ((b16listAppend hi rest (leaf.appendTo dst hi k).1).1,
         (leaf.appendTo dst hi k).2 ::
           (b16listAppend hi rest (leaf.appendTo dst hi k).1).2) := by
      rw [b16listAppend]
    rw [hstep]
    refine ⟨L1 ++ L2, ?_, ?_, ?_, ?_, ?_⟩
    · rw [hL2eq, hL1eq, List.append_assoc]
    · rw [List.pairwise_append]
      refine ⟨hL1sort, hL2sort, ?_⟩
      intro y1 h1 y2 h2
      obtain ⟨hlb1, hub1⟩ := hL1bnd y1 h1
      obtain ⟨q, hq, v, hv, rfl⟩ := (hL2mem y2).mp h2
      have hkq : k < q.1 := hklt q hq
      omega
    · intro y
      rw [List.mem_append, hL1mem, hL2mem]
      constructor
      · rintro (⟨v, hv, rfl⟩ | ⟨q, hq, v, hv, rfl⟩)
        · exact ⟨(k, leaf), List.mem_cons_self _ _, v, hv, rfl⟩
        · exact ⟨q, List.mem_cons_of_mem _ hq, v, hv, rfl⟩
      · rintro ⟨q, hq, v, hv, rfl⟩
        rw [List.mem_cons] at hq
        rcases hq with rfl | hq
        · exact Or.inl ⟨v, hv, rfl⟩
        · exact Or.inr ⟨q, hq, v, hv, rfl⟩
    · rw [List.length_append, hL1len, hL2len, List.map_cons, List.sum_cons]
    · exact List.Forall₂.cons ⟨hL1wf, hL1perm⟩ hL2f2

/-- `bucket32.appendTo`: appends exactly the mid bucket's members under its
high-word base, strictly ascending and confined to the bucket's 32-bit
block; the returned bucket is well-formed, keeps its key, and its
membership is a permutation of the original. -/
theorem bucket32.appendTo32_spec (b : bucket32) (hwf : b.wf = true) (dst : List Nat) :
    ∃ L, (b.appendTo dst).1 = dst ++ L ∧
      L.Pairwise (· < ·) ∧
      (∀ y, y ∈ L ↔ ∃ v ∈ b.elems, y = b.hi * 4294967296 + v) ∧
      L.length = b.elems.length ∧
      (∀ y ∈ L, b.hi * 4294967296 ≤ y ∧ y < b.hi * 4294967296 + 4294967296) ∧
      (b.appendTo dst).2.wf = true ∧
      (b.appendTo dst).2.hi = b.hi ∧
      ((b.appendTo dst).2.elems).Perm b.elems := by
  obtain ⟨hhi, hlen, hnd, hkb, hsort, hleaf⟩ := (bucket32.wf32_iff b).mp hwf
  set b1 := if b.buckets.length ≤ maxUnsortedBuckets then b.sort else b with hb1def
  have hb1facts : b1.hi = b.hi ∧ b1.b16his.length = b1.buckets.length ∧
      b1.b16his.Nodup ∧ (∀ h ∈ b1.b16his, h < 65536) ∧
      b1.b16his.Pairwise (· < ·) ∧ (∀ leaf ∈ b1.buckets, leaf.wf = true) ∧
      b1.elems.Perm b.elems := by
    by_cases hc : b.buckets.length ≤ maxUnsortedBuckets
    · have hb1 : b1 = b.sort := by rw [hb1def, if_pos hc]
      obtain ⟨hshi, _, _, hsl1, hsl2, hsle, hsperm, hselems, hsmem⟩ :=
        bucket32.sort32_spec b hlen
      rw [hb1]
      refine ⟨hshi, by rw [hsl1, hsl2, hlen], hsperm.nodup_iff.mpr hnd, ?_, ?_, ?_,
        hselems⟩
      · intro h hh
        exact hkb h (hsperm.mem_iff.mp hh)
      · have hsnd : b.sort.b16his.Nodup := hsperm.nodup_iff.mpr hnd
        exact (hsle.and hsnd).imp (fun h => lt_of_le_of_ne h.1 h.2)
      · intro leaf hl
        exact hleaf leaf (hsmem leaf hl)
    · have hb1 : b1 = b := by rw [hb1def, if_neg hc]
      rw [hb1]
      exact ⟨rfl, hlen, hnd, hkb, hsort (by omega), hleaf, List.Perm.refl _⟩
  obtain ⟨hb1hi, hb1len, hb1nd, hb1kb, hb1sort, hb1leaf, hb1perm⟩ := hb1facts
  have hzlen : (b1.b16his.zip b1.buckets).length = b1.b16his.length := by
    rw [List.length_zip]
    omega
  have happ : b.appendTo dst =
      ((b16listAppend b1.hi (b1.b16his.zip b1.buckets) dst).1,
       bucket32.mk b1.hi b1.b16his
         (b16listAppend b1.hi (b1.b16his.zip b1.buckets) dst).2 b1.hint) := by
    rw [bucket32.appendTo]
  have hzsort : (b1.b16his.zip b1.buckets).Pairwise (fun p q => p.1 < q.1) := by
    rw [List.pairwise_iff_getElem]
    intro i j hi1 hj1 hij
    rw [List.getElem_zip, List.getElem_zip]
    exact List.pairwise_iff_getElem.mp hb1sort i j (by omega) (by omega) hij
  obtain ⟨L, hLeq, hLsort, hLmem, hLlen, hLf2⟩ :=
    b16listAppend_spec b1.hi (b1.b16his.zip b1.buckets) dst
      (fun p hp => hb1kb _ (List.of_mem_zip hp).1)
      (fun p hp => hb1leaf _ (List.of_mem_zip hp).2) hzsort
  have hr2len : (b16listAppend b1.hi (b1.b16his.zip b1.buckets) dst).2.length =
      b1.b16his.length := by
    rw [hLf2.length_eq, hzlen]
  have hmemiff : ∀ y, y ∈ L ↔ ∃ v ∈ b.elems, y = b.hi * 4294967296 + v := by
    intro y
    rw [hLmem]
    constructor
    · rintro ⟨p, hp, w, hw, rfl⟩
      obtain ⟨i, hi1, hpi⟩ := List.getElem_of_mem hp
      rw [List.getElem_zip] at hpi
      have hi2 : i < b1.b16his.length := by omega
      have hi3 : i < b1.buckets.length := by omega
      refine ⟨p.1 * 65536 + w, ?_, ?_⟩
      · rw [← hb1perm.mem_iff, bucket32.elems, mem_pairElems]
        refine ⟨i, hi2, hi3, w, ?_, ?_⟩
        · rw [show b1.buckets[i] = p.2 from by rw [← hpi]]
          exact hw
        · rw [show b1.b16his[i] = p.1 from by rw [← hpi]]
      · rw [hb1hi]
        omega
    · rintro ⟨v, hv, rfl⟩
      rw [← hb1perm.mem_iff, bucket32.elems, mem_pairElems] at hv
      obtain ⟨i, hi2, hi3, w, hw, rfl⟩ := hv
      have hiz : i < (b1.b16his.zip b1.buckets).length := by omega
      refine ⟨(b1.b16his[i], b1.buckets[i]), ?_, w, hw, ?_⟩
      · have : (b1.b16his.zip b1.buckets)[i] = (b1.b16his[i], b1.buckets[i]) :=
          List.getElem_zip
        rw [← this]
        exact List.getElem_mem _
      · rw [hb1hi]
        omega
  rw [happ]
  refine ⟨L, hLeq, hLsort, hmemiff, ?_, ?_, ?_, hb1hi, ?_⟩
  · rw [hLlen, ← pairElems_length, ← bucket32.elems, hb1perm.length_eq]
  · intro y hy
    obtain ⟨p, hp, w, hw, rfl⟩ := (hLmem y).mp hy
    have hp1 : p.1 < 65536 := hb1kb _ (List.of_mem_zip hp).1
    have hwlt : w < 65536 :=
      bucket16.elems16_lt _ (hb1leaf _ (List.of_mem_zip hp).2) w hw
    rw [hb1hi]
    omega
  · rw [bucket32.wf32_iff]
    refine ⟨by rw [hb1hi]; exact hhi, by rw [hr2len], hb1nd, hb1kb, ?_, ?_⟩
    · intro _
      exact hb1sort
    · intro leaf hl
      obtain ⟨i, hi1, hli⟩ := List.getElem_of_mem hl
      obtain ⟨_, hget⟩ := List.forall₂_iff_get.mp hLf2
      have hizp : i < (b1.b16his.zip b1.buckets).length := by
        rw [hzlen]
        rw [hr2len] at hi1
        exact hi1
      have := hget i hi1 hizp
      rw [List.get_eq_getElem, hli] at this
      exact this.1
  · show (pairElems b1.b16his
        (b16listAppend b1.hi (b1.b16his.zip b1.buckets) dst).2).Perm b.elems
    have hperm1 : (pairElems b1.b16his
        (b16listAppend b1.hi (b1.b16his.zip b1.buckets) dst).2).Perm
          (pairElems b1.b16his b1.buckets) := by
      rw [pairElems, pairElems]
      apply List.Perm.join_congr
      rw [List.forall₂_iff_get]
      obtain ⟨hf2len, hget⟩ := List.forall₂_iff_get.mp hLf2
      refine ⟨?_, ?_⟩
      · simp only [List.length_map, List.length_zip, hr2len]
        omega
      · intro i h1 h2
        simp only [List.get_eq_getElem, List.getElem_map, List.getElem_zip]
        apply List.Perm.map
        have hiz : i <
            (b16listAppend b1.hi (b1.b16his.zip b1.buckets) dst).2.length := by
          simp only [List.length_map, List.length_zip, hr2len] at h1
          omega
        have hizp : i < (b1.b16his.zip b1.buckets).length := by
          rw [← hLf2.length_eq]
          exact hiz
        have := hget i hiz hizp
        simp only [List.get_eq_getElem, List.getElem_zip] at this
        exact this.2
    exact hperm1.trans hb1perm

/-- `Set.sort` permutes the mid buckets into nondecreasing key order and
changes nothing else. -/
theorem Set.sort_spec (s : Set) :
    s.sort.itemsCount = s.itemsCount ∧
    s.sort.buckets.Perm s.buckets ∧
    (s.sort.buckets.map bucket32.hi).Pairwise (· ≤ ·) ∧
    (s.sort.memberList).Perm s.memberList := by
  rw [Set.sort]
  by_cases hc : isNonDecr (s.buckets.map bucket32.hi) = true
  · rw [if_pos hc]
    exact ⟨rfl, List.Perm.refl _, (isNonDecr_iff _).mp hc, List.Perm.refl _⟩
  · rw [if_neg hc]
    have hperm : (s.buckets.insertionSort (fun p q => p.hi ≤ q.hi)).Perm s.buckets :=
      List.perm_insertionSort _ _
    have hsorted : (s.buckets.insertionSort (fun p q => p.hi ≤ q.hi)).Pairwise
        (fun p q => p.hi ≤ q.hi) :=
      List.sorted_insertionSort _ _
    refine ⟨rfl, hperm, ?_, ?_⟩
    · rw [List.pairwise_map]
      exact hsorted
    · rw [Set.memberList, Set.memberList, topElems, topElems]
      exact (hperm.map _).flatten

/-- The top-level emission loop: concatenates the mid-bucket blocks in key
order into a strictly ascending list of all members; the rebuilt bucket
array is well-formed per entry with keys and membership preserved. -/
theorem b32listAppend_spec :
    ∀ (bs : List bucket32) (dst : List Nat),
      (∀ bk ∈ bs, bk.wf = true) →
      (bs.map bucket32.hi).Pairwise (· < ·) →
      ∃ L, (b32listAppend bs dst).1 = dst ++ L ∧
        L.Pairwise (· < ·) ∧
        (∀ y, y ∈ L ↔ y ∈ topElems bs) ∧
        L.length = (topElems bs).length ∧
        List.Forall₂ (fun (nb : bucket32) (bk : bucket32) =>
          nb.wf = true ∧ nb.hi = bk.hi ∧ nb.elems.Perm bk.elems)
          (b32listAppend bs dst).2 bs := by
  intro bs
  induction bs with
  | nil =>
    intro dst _ _
    exact ⟨[], by simp [b32listAppend], by simp, by simp [b32listAppend, topElems],
      by simp [topElems], by simp [b32listAppend]⟩
  | cons bk rest ih =>
    intro dst hwf hsort
    simp only [List.map_cons, List.pairwise_cons] at hsort
    obtain ⟨hklt, hsort⟩ := hsort
    have hkw : bk.wf = true := hwf _ (List.mem_cons_self _ _)
    obtain ⟨L1, hL1eq, hL1sort, hL1mem, hL1len, hL1bnd, hL1wf, hL1hi, hL1perm⟩ :=
      bucket32.appendTo32_spec bk hkw dst
    obtain ⟨L2, hL2eq, hL2sort, hL2mem, hL2len, hL2f2⟩ :=
      ih (bk.appendTo dst).1 (fun q hq => hwf q (List.mem_cons_of_mem _ hq)) hsort
    have hstep : b32listAppend (bk :: rest) dst =
        ((b32listAppend rest (bk.appendTo dst).1).1,
         (bk.appendTo dst).2 :: (b32listAppend rest (bk.appendTo dst).1).2) := by
      rw [b32listAppend]
    rw [hstep]
    refine ⟨L1 ++ L2, ?_, ?_, ?_, ?_, ?_⟩
    · rw [hL2eq, hL1eq, List.append_assoc]
    · rw [List.pairwise_append]
      refine ⟨hL1sort, hL2sort, ?_⟩
      intro y1 h1 y2 h2
      obtain ⟨_, hub1⟩ := hL1bnd y1 h1
      have hy2 := (hL2mem y2).mp h2
      rw [mem_topElems] at hy2
      obtain ⟨i, hi1, v, hv, rfl⟩ := hy2
      have hhimem : rest[i].hi ∈ rest.map bucket32.hi :=
        List.mem_map.mpr ⟨rest[i], List.getElem_mem _, rfl⟩
      have : bk.hi < rest[i].hi := hklt _ hhimem
      omega
    · intro y
      rw [List.mem_append, topElems_cons, List.mem_append, hL1mem, hL2mem,
        List.mem_map]
      constructor
      · rintro (⟨v, hv, rfl⟩ | hm)
        · exact Or.inl ⟨v, hv, rfl⟩
        · exact Or.inr hm
      · rintro (⟨v, hv, rfl⟩ | hm)
        · exact Or.inl ⟨v, hv, rfl⟩
        · exact Or.inr hm
    · rw [List.length_append, hL1len, hL2len, topElems_cons, List.length_append,
        List.length_map]
    · exact List.Forall₂.cons ⟨hL1wf, hL1hi, hL1perm⟩ hL2f2

/-- `Set.AppendTo`: appends exactly the members, strictly ascending and
exactly `Len` of them; the returned set is well-formed with membership and
count unchanged. -/
theorem Set.AppendTo_spec (s : Set) (hwf : s.wf = true) (dst : List Nat) :
    ∃ L, (s.AppendTo dst).1 = dst ++ L ∧
      L.Pairwise (· < ·) ∧
      (∀ y, y ∈ L ↔ y ∈ s.memberList) ∧
      L.length = s.Len ∧
      (s.AppendTo dst).2.wf = true ∧
      ((s.AppendTo dst).2.memberList).Perm s.memberList ∧
      (s.AppendTo dst).2.Len = s.Len := by
  obtain ⟨hnd, hbwf, hcnt⟩ := (Set.wf_iff s).mp hwf
  obtain ⟨hscnt, hsperm, hssorted, hsmemperm⟩ := Set.sort_spec s
  have hs1wf : ∀ bk ∈ s.sort.buckets, bk.wf = true := fun bk hb =>
    hbwf _ (hsperm.mem_iff.mp hb)
  have hs1nd : (s.sort.buckets.map bucket32.hi).Nodup :=
    ((hsperm.map _).nodup_iff).mpr hnd
  have hs1strict : (s.sort.buckets.map bucket32.hi).Pairwise (· < ·) :=
    (hssorted.and hs1nd).imp (fun h => lt_of_le_of_ne h.1 h.2)
  obtain ⟨L, hLeq, hLsort, hLmem, hLlen, hLf2⟩ :=
    b32listAppend_spec s.sort.buckets dst hs1wf hs1strict
  have hr2len : (b32listAppend s.sort.buckets dst).2.length =
      s.sort.buckets.length := hLf2.length_eq
  obtain ⟨hf2len, hget0⟩ := List.forall₂_iff_get.mp hLf2
  have hget : ∀ i, (h1 : i < (b32listAppend s.sort.buckets dst).2.length) →
      (h2 : i < s.sort.buckets.length) →
      ((b32listAppend s.sort.buckets dst).2[i]).wf = true ∧
      ((b32listAppend s.sort.buckets dst).2[i]).hi = (s.sort.buckets[i]).hi ∧
      (((b32listAppend s.sort.buckets dst).2[i]).elems).Perm
        ((s.sort.buckets[i]).elems) := by
    intro i h1 h2
    have := hget0 i h1 h2
    simpa [List.get_eq_getElem] using this
  have happ : s.AppendTo dst = ((b32listAppend s.sort.buckets dst).1,
      Set.mk s.sort.itemsCount (b32listAppend s.sort.buckets dst).2) := by
    rw [Set.AppendTo]
  have hmapeq : (b32listAppend s.sort.buckets dst).2.map bucket32.hi =
      s.sort.buckets.map bucket32.hi := by
    apply List.ext_getElem
    · simp [hr2len]
    · intro i h1 h2
      simp only [List.getElem_map]
      have hi1 : i < (b32listAppend s.sort.buckets dst).2.length := by
        simp only [List.length_map] at h1
        exact h1
      have hi2 : i < s.sort.buckets.length := by
        simp only [List.length_map] at h2
        exact h2
      exact (hget i hi1 hi2).2.1
  have hmemperm : (topElems (b32listAppend s.sort.buckets dst).2).Perm
      (topElems s.sort.buckets) := by
    rw [topElems, topElems]
    apply List.Perm.join_congr
    rw [List.forall₂_iff_get]
    refine ⟨by simp [hr2len], ?_⟩
    intro i h1 h2
    simp only [List.get_eq_getElem, List.getElem_map]
    have hi1 : i < (b32listAppend s.sort.buckets dst).2.length := by
      simp only [List.length_map] at h1
      exact h1
    have hi2 : i < s.sort.buckets.length := by
      simp only [List.length_map] at h2
      exact h2
    obtain ⟨hw, hhieq, hep⟩ := hget i hi1 hi2
    rw [hhieq]
    exact hep.map _
  rw [happ]
  refine ⟨L, hLeq, hLsort, ?_, ?_, ?_, ?_, ?_⟩
  · intro y
    rw [hLmem]
    exact hsmemperm.mem_iff
  · rw [hLlen]
    show (Set.memberList s.sort).length = s.Len
    rw [hsmemperm.length_eq, Set.Len]
    exact hcnt.symm
  · rw [Set.wf_iff]
    refine ⟨?_, ?_, ?_⟩
    · show ((b32listAppend s.sort.buckets dst).2.map bucket32.hi).Nodup
      rw [hmapeq]
      exact hs1nd
    · intro bk hb
      obtain ⟨i, hi1, hbi⟩ := List.getElem_of_mem hb
      have hi1' : i < (b32listAppend s.sort.buckets dst).2.length := hi1
      have hi2 : i < s.sort.buckets.length := by
        rw [hr2len] at hi1'
        exact hi1'
      rw [← hbi]
      exact (hget i hi1' hi2).1
    · show s.sort.itemsCount = (topElems (b32listAppend s.sort.buckets dst).2).length
      rw [hscnt, hcnt, hmemperm.length_eq]
      exact hsmemperm.length_eq.symm
  · show (topElems (b32listAppend s.sort.buckets dst).2).Perm s.memberList
    exact hmemperm.trans hsmemperm
  · show s.sort.itemsCount = s.Len
    rw [hscnt]
    rfl

/-- C3: on any well-formed set, `AppendTo dst` appends exactly the members
to `dst`, in strictly ascending order, appending exactly `Len` elements;
the returned (internally reordered) set is well-formed and its membership
is unchanged. -/
theorem claim_C3 (s : Set) (dst : List Nat) (hwf : s.wf = true) :
    ∃ L, (s.AppendTo dst).1 = dst ++ L ∧
      L.Pairwise (· < ·) ∧
      (∀ y, y < 18446744073709551616 → ((y ∈ L) ↔ s.Has y = true)) ∧
      L.length = s.Len ∧
      (s.AppendTo dst).2.wf = true ∧
      (∀ y, y < 18446744073709551616 → (s.AppendTo dst).2.Has y = s.Has y) := by
  obtain ⟨L, h1, h2, h3, h4, h5, h6, h7⟩ := Set.AppendTo_spec s hwf dst
  refine ⟨L, h1, h2, ?_, h4, h5, ?_⟩
  · intro y hy
    rw [h3 y, Set.Has_eq_mem s hwf y hy]
    simp
  · intro y hy
    rw [Set.Has_eq_mem _ h5 y hy, Set.Has_eq_mem s hwf y hy]
    simp [h6.mem_iff]

/-- Witness for C3 at the singleton set `{5}` and destination `[1, 2]`. -/
theorem claim_C3_witness :
    ∃ L, ((emptySet.Add 5).AppendTo [1, 2]).1 = [1, 2] ++ L ∧
      L.Pairwise (· < ·) ∧
      (∀ y, y < 18446744073709551616 → ((y ∈ L) ↔ (emptySet.Add 5).Has y = true)) ∧
      L.length = (emptySet.Add 5).Len ∧
      ((emptySet.Add 5).AppendTo [1, 2]).2.wf = true ∧
      (∀ y, y < 18446744073709551616 →
        ((emptySet.Add 5).AppendTo [1, 2]).2.Has y = (emptySet.Add 5).Has y) :=
  claim_C3 (emptySet.Add 5) [1, 2] (by decide)

/-- The parts emitted by `bucket32.forEach` cover exactly the mid bucket's
members under its base. -/
theorem bucket32.forEachParts_mem (b : bucket32) (hwf : b.wf = true) :
    ∀ y, (∃ part ∈ b.forEachParts, y ∈ part) ↔
      ∃ v ∈ b.elems, y = b.hi * 4294967296 + v := by
  obtain ⟨hhi, hlen, hnd, hkb, hsort, hleaf⟩ := (bucket32.wf32_iff b).mp hwf
  intro y
  constructor
  · rintro ⟨part, hpart, hy⟩
    rw [bucket32.forEachParts, List.mem_map] at hpart
    obtain ⟨p, hp, rfl⟩ := hpart
    have hk : p.1 < 65536 := hkb _ (List.of_mem_zip hp).1
    have hlw : p.2.wf = true := hleaf _ (List.of_mem_zip hp).2
    obtain ⟨L, hLeq, _, hLmem, _, _, _, _⟩ :=
      bucket16.appendTo16_spec p.2 hlw [] b.hi p.1 hk
    rw [hLeq] at hy
    simp only [List.nil_append] at hy
    obtain ⟨w, hw, rfl⟩ := (hLmem y).mp hy
    obtain ⟨i, hi1, hpi⟩ := List.getElem_of_mem hp
    rw [List.getElem_zip] at hpi
    have hi2 : i < b.b16his.length := by
      have := hi1
      rw [List.length_zip] at this
      omega
    have hi3 : i < b.buckets.length := by
      have := hi1
      rw [List.length_zip] at this
      omega
    refine ⟨p.1 * 65536 + w, ?_, by omega⟩
    rw [bucket32.elems, mem_pairElems]
    refine ⟨i, hi2, hi3, w, ?_, ?_⟩
    · rw [show b.buckets[i] = p.2 from by rw [← hpi]]
      exact hw
    · rw [show b.b16his[i] = p.1 from by rw [← hpi]]
  · rintro ⟨v, hv, rfl⟩
    rw [bucket32.elems, mem_pairElems] at hv
    obtain ⟨i, hi2, hi3, w, hw, rfl⟩ := hv
    have hiz : i < (b.b16his.zip b.buckets).length := by
      rw [List.length_zip]
      omega
    have hk : b.b16his[i] < 65536 := hkb _ (List.getElem_mem _)
    have hlw : (b.buckets[i]).wf = true := hleaf _ (List.getElem_mem _)
    obtain ⟨L, hLeq, _, hLmem, _, _, _, _⟩ :=
      bucket16.appendTo16_spec (b.buckets[i]) hlw [] b.hi (b.b16his[i]) hk
    refine ⟨((b.buckets[i]).appendTo [] b.hi (b.b16his[i])).1, ?_, ?_⟩
    · rw [bucket32.forEachParts, List.mem_map]
      refine ⟨(b.b16his[i], b.buckets[i]), ?_, rfl⟩
      rw [show ((b.b16his[i] : Nat), b.buckets[i]) = (b.b16his.zip b.buckets)[i]
        from List.getElem_zip.symm]
      exact List.getElem_mem _
    · rw [hLeq]
      simp only [List.nil_append]
      rw [hLmem]
      exact ⟨w, hw, by omega⟩

/-- The `ForEach` enumeration covers exactly the members. -/
theorem Set.elems_iff (s : Set) (hwf : s.wf = true) :
    ∀ y, y ∈ s.elems ↔ y ∈ s.memberList := by
  obtain ⟨hnd, hbwf, hcnt⟩ := (Set.wf_iff s).mp hwf
  intro y
  constructor
  · intro hy
    rw [Set.elems, List.mem_flatten] at hy
    obtain ⟨part, hpart, hy⟩ := hy
    rw [Set.forEachParts, List.mem_flatten] at hpart
    obtain ⟨bl, hbl, hpartbl⟩ := hpart
    obtain ⟨b, hb, rfl⟩ := List.mem_map.mp hbl
    obtain ⟨v, hv, heq⟩ := (bucket32.forEachParts_mem b (hbwf _ hb) y).mp
      ⟨part, hpartbl, hy⟩
    subst heq
    rw [Set.memberList, mem_topElems]
    obtain ⟨i, hi1, hbi⟩ := List.getElem_of_mem hb
    refine ⟨i, hi1, v, ?_, ?_⟩
    · rw [hbi]
      exact hv
    · rw [hbi]
  · intro hy
    rw [Set.memberList, mem_topElems] at hy
    obtain ⟨i, hi1, v, hv, rfl⟩ := hy
    rw [Set.elems, List.mem_flatten]
    obtain ⟨part, hpart, hyp⟩ := (bucket32.forEachParts_mem (s.buckets[i])
      (hbwf _ (List.getElem_mem _)) _).mpr ⟨v, hv, rfl⟩
    refine ⟨part, ?_, hyp⟩
    rw [Set.forEachParts, List.mem_flatten]
    exact ⟨(s.buckets[i]).forEachParts,
      List.mem_map.mpr ⟨s.buckets[i], List.getElem_mem _, rfl⟩, hpart⟩

/-- Every member of a well-formed set fits 64 bits. -/
theorem Set.memberList_lt (s : Set) (hwf : s.wf = true) :
    ∀ y ∈ s.memberList, y < 18446744073709551616 := by
  obtain ⟨hnd, hbwf, hcnt⟩ := (Set.wf_iff s).mp hwf
  intro y hy
  rw [Set.memberList, mem_topElems] at hy
  obtain ⟨i, hi1, v, hv, rfl⟩ := hy
  have h1 : (s.buckets[i]).hi < 4294967296 :=
    ((bucket32.wf32_iff _).mp (hbwf _ (List.getElem_mem _))).1
  have h2 : v < 4294967296 := bucket32.elems32_lt _ (hbwf _ (List.getElem_mem _)) v hv
  omega

/-- Folding `Set.Add` over a value list: the invariant is preserved, the
membership becomes the union, and adding only present values keeps the
count. -/
theorem foldl_Add_spec :
    ∀ (xs : List Nat) (s : Set), (∀ x ∈ xs, x < 18446744073709551616) →
      s.wf = true →
      (xs.foldl Set.Add s).wf = true ∧
      (∀ y, y < 18446744073709551616 →
        ((xs.foldl Set.Add s).Has y = true ↔ (y ∈ xs ∨ s.Has y = true))) ∧
      ((∀ x ∈ xs, s.Has x = true) → (xs.foldl Set.Add s).Len = s.Len) := by
  intro xs
  induction xs with
  | nil =>
    intro s _ hwf
    refine ⟨hwf, ?_, ?_⟩
    · intro y _
      simp
    · intro _
      rfl
  | cons x xs ih =>
    intro s hbnd hwf
    have hxlt : x < 18446744073709551616 := hbnd _ (List.mem_cons_self _ _)
    obtain ⟨hwf', hHas, hLen⟩ := Set.Add_spec s x hxlt hwf
    obtain ⟨ih1, ih2, ih3⟩ := ih (s.Add x)
      (fun z hz => hbnd z (List.mem_cons_of_mem _ hz)) hwf'
    rw [List.foldl_cons]
    refine ⟨ih1, ?_, ?_⟩
    · intro y hy
      rw [ih2 y hy]
      constructor
      · rintro (hm | hm)
        · exact Or.inl (List.mem_cons_of_mem _ hm)
        · rw [hHas y hy, Bool.or_eq_true] at hm
          rcases hm with hm | hm
          · have : y = x := by simpa using hm
            rw [List.mem_cons]
            exact Or.inl (Or.inl this)
          · exact Or.inr hm
      · rintro (hm | hm)
        · rw [List.mem_cons] at hm
          rcases hm with heq | hm
          · right
            rw [heq, hHas x hxlt]
            simp
          · exact Or.inl hm
        · right
          rw [hHas y hy, hm]
          simp
    · intro hall
      have hx : s.Has x = true := hall _ (List.mem_cons_self _ _)
      have hlen2 : (s.Add x).Len = s.Len := by
        rw [hLen, hx]
        simp
      have h3 := ih3 (fun z hz => by
        rw [hHas z (hbnd z (List.mem_cons_of_mem _ hz)),
          hall z (List.mem_cons_of_mem _ hz)]
        simp)
      rw [h3, hlen2]

/-- A set with zero maintained count has no members. -/
theorem Len_zero_Has (t : Set) (hwf : t.wf = true) (h0 : t.Len = 0) :
    ∀ y, y < 18446744073709551616 → t.Has y = false := by
  intro y hy
  rw [Set.Has_eq_mem t hwf y hy]
  have h1 : t.Len = t.itemsCount := rfl
  have h2 := ((Set.wf_iff t).mp hwf).2.2
  have hlen : t.memberList.length = 0 := by omega
  rw [List.length_eq_zero.mp hlen]
  simp

/-- `Set.Union`: preserves the invariant and computes the boolean union of
the two memberships. -/
theorem Set.Union_spec (s a : Set) (hs : s.wf = true) (ha : a.wf = true) :
    (s.Union a).wf = true ∧
    (∀ y, y < 18446744073709551616 → (s.Union a).Has y = (s.Has y || a.Has y)) := by
  have hUnion : s.Union a = if a.Len == 0 then s
      else if s.Len == 0 then a.Clone else a.elems.foldl Set.Add s := by
    rw [Set.Union, Set.union]
    simp
  rw [hUnion]
  split
  · rename_i h0
    have ha0 : a.Len = 0 := by simpa using h0
    refine ⟨hs, ?_⟩
    intro y hy
    rw [Len_zero_Has a ha ha0 y hy]
    simp
  · rename_i h0
    split
    · rename_i h1
      have hs0 : s.Len = 0 := by simpa using h1
      have ha0 : a.Len ≠ 0 := by simpa using h0
      have hclone : a.Clone = a := by
        rw [Set.Clone, if_neg]
        simpa using ha0
      rw [hclone]
      refine ⟨ha, ?_⟩
      intro y hy
      rw [Len_zero_Has s hs hs0 y hy]
      simp
    · obtain ⟨hfwf, hfHas, _⟩ := foldl_Add_spec a.elems s
        (fun x hx => Set.memberList_lt a ha x ((Set.elems_iff a ha x).mp hx)) hs
      refine ⟨hfwf, ?_⟩
      intro y hy
      apply Bool.coe_iff_coe.mp
      rw [hfHas y hy, Set.elems_iff a ha y]
      have hmem : y ∈ a.memberList ↔ a.Has y = true := by
        rw [Set.Has_eq_mem a ha y hy]
        simp
      rw [hmem, Bool.or_eq_true]
      exact or_comm

/-- C6: `Union` computes the membership union; it is commutative in
content, and self-union changes neither membership nor `Len`. -/
theorem claim_C6 (s a : Set) (hs : s.wf = true) (ha : a.wf = true) :
    (∀ y, y < 18446744073709551616 → (s.Union a).Has y = (s.Has y || a.Has y)) ∧
    (∀ y, y < 18446744073709551616 → (s.Union a).Has y = (a.Union s).Has y) ∧
    (∀ y, y < 18446744073709551616 → (s.Union s).Has y = s.Has y) ∧
    (s.Union s).Len = s.Len := by
  obtain ⟨hwfu, hu⟩ := Set.Union_spec s a hs ha
  obtain ⟨hwfu2, hu2⟩ := Set.Union_spec a s ha hs
  obtain ⟨hwfu3, hu3⟩ := Set.Union_spec s s hs hs
  refine ⟨hu, ?_, ?_, ?_⟩
  · intro y hy
    rw [hu y hy, hu2 y hy, Bool.or_comm]
  · intro y hy
    rw [hu3 y hy, Bool.or_self]
  · have hUnion : s.Union s = if s.Len == 0 then s
        else if s.Len == 0 then s.Clone else s.elems.foldl Set.Add s := by
      rw [Set.Union, Set.union]
      simp
    rw [hUnion]
    split
    · rfl
    · obtain ⟨_, _, hLen⟩ := foldl_Add_spec s.elems s
        (fun x hx => Set.memberList_lt s hs x ((Set.elems_iff s hs x).mp hx)) hs
      apply hLen
      intro x hx
      have hxm := (Set.elems_iff s hs x).mp hx
      have hxlt := Set.memberList_lt s hs x hxm
      rw [Set.Has_eq_mem s hs x hxlt]
      simpa using hxm

/-- Witness for C6 at the singletons `{5}` and `{7}`. -/
theorem claim_C6_witness :
    (∀ y, y < 18446744073709551616 →
      ((emptySet.Add 5).Union (emptySet.Add 7)).Has y =
        ((emptySet.Add 5).Has y || (emptySet.Add 7).Has y)) ∧
    (∀ y, y < 18446744073709551616 →
      ((emptySet.Add 5).Union (emptySet.Add 7)).Has y =
        ((emptySet.Add 7).Union (emptySet.Add 5)).Has y) ∧
    (∀ y, y < 18446744073709551616 →
      ((emptySet.Add 5).Union (emptySet.Add 5)).Has y = (emptySet.Add 5).Has y) ∧
    ((emptySet.Add 5).Union (emptySet.Add 5)).Len = (emptySet.Add 5).Len :=
  claim_C6 (emptySet.Add 5) (emptySet.Add 7) (by decide) (by decide)

/-- The step function of the slow-path fold in `bucket16.intersect`. -/
def interStep (a : bucket16) : Nat × bucket16 → Nat → Nat × bucket16 :=
  fun acc x =>
    let x16 := x % 65536
    if a.has x16 then acc else (acc.1 - 1, (acc.2.del x16).2)

theorem interBitsAux_spec : ∀ (wa wb : List Nat),
    (interBitsAux wa wb).2 = List.zipWith (fun aw bw => bw &&& aw) wa wb ∧
    (interBitsAux wa wb).1 =
      ((interBitsAux wa wb).2.map (fun w => (wordBitsS w).length)).sum := by
  intro wa
  induction wa with
  | nil =>
    intro wb
    simp [interBitsAux]
  | cons aw arest ih =>
    intro wb
    rcases wb with _ | ⟨bw, brest⟩
    · simp [interBitsAux]
    · obtain ⟨ih1, ih2⟩ := ih brest
      have hstep : interBitsAux (aw :: arest) (bw :: brest) =
          ((interBitsAux arest brest).1 +
            (if 0 < bw &&& aw then onesCount64 (bw &&& aw) else 0),
           (bw &&& aw) :: (interBitsAux arest brest).2) := by
        rw [interBitsAux]
      rw [hstep]
      constructor
      · rw [List.zipWith_cons_cons, ih1]
      · simp only [List.map_cons, List.sum_cons]
        rw [ih2]
        rcases Nat.eq_zero_or_pos (bw &&& aw) with h0 | hpos
        · rw [h0]
          have : wordBitsS 0 = [] := by decide
          simp [this]
        · rw [if_pos hpos]
          have hoc : onesCount64 (bw &&& aw) = (wordBitsS (bw &&& aw)).length := rfl
          rw [hoc]
          omega

/-- Invariant of the slow-path fold: deleting the enumerated values absent
from `a` leaves exactly the values also in `a`, with the running count
tracking the size. -/
theorem interFold_spec (a : bucket16) (ha : a.wf = true) :
    ∀ (xs : List Nat) (n : Nat) (cur : bucket16), cur.wf = true → xs.Nodup →
      (∀ x ∈ xs, x < 65536) → (∀ x ∈ xs, x ∈ cur.elems) →
      n = cur.elems.length →
      (xs.foldl (interStep a) (n, cur)).2.wf = true ∧
      (∀ v, v ∈ (xs.foldl (interStep a) (n, cur)).2.elems ↔
        (v ∈ cur.elems ∧ (v ∈ xs → v ∈ a.elems))) ∧
      (xs.foldl (interStep a) (n, cur)).1 =
        (xs.foldl (interStep a) (n, cur)).2.elems.length := by
  intro xs
  induction xs with
  | nil =>
    intro n cur hwf _ _ _ hn
    refine ⟨hwf, ?_, hn⟩
    intro v
    simp
  | cons x rest ih =>
    intro n cur hwf hnd hbnd hsub hn
    have hx16 : x % 65536 = x := Nat.mod_eq_of_lt (hbnd _ (List.mem_cons_self _ _))
    have hxlt : x < 65536 := hbnd _ (List.mem_cons_self _ _)
    have hxcur : x ∈ cur.elems := hsub _ (List.mem_cons_self _ _)
    rw [List.nodup_cons] at hnd
    obtain ⟨hxrest, hndrest⟩ := hnd
    rw [List.foldl_cons]
    by_cases hax : a.has (x % 65536) = true
    · have hstep : interStep a (n, cur) x = (n, cur) := by
        simp [interStep, hax]
      rw [hstep]
      obtain ⟨ih1, ih2, ih3⟩ := ih n cur hwf hndrest
        (fun z hz => hbnd z (List.mem_cons_of_mem _ hz))
        (fun z hz => hsub z (List.mem_cons_of_mem _ hz)) hn
      refine ⟨ih1, ?_, ih3⟩
      intro v
      rw [ih2 v]
      have hxa : x ∈ a.elems := by
        rw [hx16] at hax
        rw [bucket16.has16_eq_mem _ ha] at hax
        simpa using hax
      constructor
      · rintro ⟨hvc, hva⟩
        refine ⟨hvc, ?_⟩
        intro hvm
        rw [List.mem_cons] at hvm
        rcases hvm with rfl | hvm
        · exact hxa
        · exact hva hvm
      · rintro ⟨hvc, hva⟩
        exact ⟨hvc, fun hvm => hva (List.mem_cons_of_mem _ hvm)⟩
    · rw [Bool.not_eq_true] at hax
      have hstep : interStep a (n, cur) x = (n - 1, (cur.del (x % 65536)).2) := by
        simp [interStep, hax]
      rw [hstep, hx16]
      obtain ⟨hd1, hd2, hd3, hd4⟩ := bucket16.del16_spec cur x hxlt hwf
      have hdmem := bucket16.del_mem cur x hxlt hwf
      have hcurhas : cur.has x = true := by
        rw [bucket16.has16_eq_mem _ hwf]
        simpa using hxcur
      have hpos : 1 ≤ cur.elems.length := List.length_pos_of_mem hxcur
      have hlen2 : (cur.del x).2.elems.length = cur.elems.length - 1 := by
        rw [hd4, hcurhas]
        simp
      obtain ⟨ih1, ih2, ih3⟩ := ih (n - 1) (cur.del x).2 hd2 hndrest
        (fun z hz => hbnd z (List.mem_cons_of_mem _ hz))
        (fun z hz => (hdmem z).mpr
          ⟨fun hc => hxrest (hc ▸ hz), hsub z (List.mem_cons_of_mem _ hz)⟩)
        (by rw [hlen2, hn])
      refine ⟨ih1, ?_, ih3⟩
      intro v
      rw [ih2 v, hdmem v]
      have hxa : x ∉ a.elems := by
        rw [hx16] at hax
        rw [bucket16.has16_eq_mem _ ha] at hax
        simpa using hax
      constructor
      · rintro ⟨⟨hvne, hvc⟩, hva⟩
        refine ⟨hvc, ?_⟩
        intro hvm
        rw [List.mem_cons] at hvm
        rcases hvm with rfl | hvm
        · exact absurd rfl hvne
        · exact hva hvm
      · rintro ⟨hvc, hva⟩
        have hvne : v ≠ x := by
          intro hc
          subst hc
          exact hxa (hva (List.mem_cons_self _ _))
        exact ⟨⟨hvne, hvc⟩, fun hvm => hva (List.mem_cons_of_mem _ hvm)⟩

/-- `bucket16.intersect`: the returned leaf is well-formed and holds
exactly the common members; the returned count is its size. -/
theorem bucket16.intersect16_spec (b a : bucket16) (hb : b.wf = true)
    (ha : a.wf = true) :
    (b.intersect a).2.wf = true ∧
    (∀ v, v ∈ (b.intersect a).2.elems ↔ (v ∈ b.elems ∧ v ∈ a.elems)) ∧
    (b.intersect a).1 = (b.intersect a).2.elems.length := by
  have hslow :
      ((b.appendTo [] 0 0).1.foldl (interStep a)
        ((b.appendTo [] 0 0).1.length, (b.appendTo [] 0 0).2)).2.wf = true ∧
      (∀ v, v ∈ ((b.appendTo [] 0 0).1.foldl (interStep a)
          ((b.appendTo [] 0 0).1.length, (b.appendTo [] 0 0).2)).2.elems ↔
        (v ∈ b.elems ∧ v ∈ a.elems)) ∧
      ((b.appendTo [] 0 0).1.foldl (interStep a)
        ((b.appendTo [] 0 0).1.length, (b.appendTo [] 0 0).2)).1 =
      ((b.appendTo [] 0 0).1.foldl (interStep a)
        ((b.appendTo [] 0 0).1.length, (b.appendTo [] 0 0).2)).2.elems.length := by
    obtain ⟨L, hLeq, hLsort, hLmem, hLlen, hLbnd, hLwf, hLperm⟩ :=
      bucket16.appendTo16_spec b hb [] 0 0 (by omega)
    rw [List.nil_append] at hLeq
    have hLmem' : ∀ y, y ∈ L ↔ y ∈ b.elems := by
      intro y
      rw [hLmem y]
      constructor
      · rintro ⟨v, hv, rfl⟩
        simpa using hv
      · intro hv
        exact ⟨y, hv, by omega⟩
    have hLnd : L.Nodup := hLsort.imp (fun h => Nat.ne_of_lt h)
    have hLbnd' : ∀ x ∈ L, x < 65536 := by
      intro x hx
      have := hLbnd x hx
      omega
    have hsub : ∀ x ∈ L, x ∈ (b.appendTo [] 0 0).2.elems := by
      intro x hx
      rw [hLperm.mem_iff]
      exact (hLmem' x).mp hx
    rw [hLeq]
    obtain ⟨h1, h2, h3⟩ := interFold_spec a ha L L.length (b.appendTo [] 0 0).2
      hLwf hLnd hLbnd' hsub (by rw [hLlen, hLperm.length_eq])
    refine ⟨h1, ?_, h3⟩
    intro v
    rw [h2 v]
    constructor
    · rintro ⟨hv2, hva⟩
      have hvb : v ∈ b.elems := hLperm.mem_iff.mp hv2
      exact ⟨hvb, hva ((hLmem' v).mpr hvb)⟩
    · rintro ⟨hvb, hva⟩
      exact ⟨hLperm.mem_iff.mpr hvb, fun _ => hva⟩
  rcases hab : a.bits with _ | wa
  · rcases hbb : b.bits with _ | wb
    · have hinter : b.intersect a = (b.appendTo [] 0 0).1.foldl (interStep a)
          ((b.appendTo [] 0 0).1.length, (b.appendTo [] 0 0).2) := by
        rw [bucket16.intersect, hab, hbb]
        rfl
      rw [hinter]
      exact hslow
    · have hinter : b.intersect a = (b.appendTo [] 0 0).1.foldl (interStep a)
          ((b.appendTo [] 0 0).1.length, (b.appendTo [] 0 0).2) := by
        rw [bucket16.intersect, hab, hbb]
        rfl
      rw [hinter]
      exact hslow
  · rcases hbb : b.bits with _ | wb
    · have hinter : b.intersect a = (b.appendTo [] 0 0).1.foldl (interStep a)
          ((b.appendTo [] 0 0).1.length, (b.appendTo [] 0 0).2) := by
        rw [bucket16.intersect, hab, hbb]
        rfl
      rw [hinter]
      exact hslow
    · -- both bitmap: word-wise AND
      obtain ⟨hpoolb, hlenb, hndb, hbndb, hbitsb⟩ := (bucket16.wf16_iff b).mp hb
      obtain ⟨hwsb, hwbndb⟩ := hbitsb wb hbb
      obtain ⟨hpoola, hlena, hnda, hbnda, hbitsa⟩ := (bucket16.wf16_iff a).mp ha
      obtain ⟨hwsa, hwbnda⟩ := hbitsa wa hab
      have hinter : b.intersect a = ((interBitsAux wa wb).1,
          { b with bits := some (interBitsAux wa wb).2 }) := by
        rw [bucket16.intersect, hab, hbb]
      obtain ⟨hz, hsum⟩ := interBitsAux_spec wa wb
      have hr2len : (interBitsAux wa wb).2.length = 1024 := by
        rw [hz, List.length_zipWith, hwsa, hwsb]
        rfl
      have hr2get : ∀ k, k < 1024 →
          (interBitsAux wa wb).2.getD k 0 = (wb.getD k 0) &&& (wa.getD k 0) := by
        intro k hk
        have hk2 : k < (interBitsAux wa wb).2.length := by omega
        have hka : k < wa.length := by omega
        have hkb : k < wb.length := by omega
        rw [getD_eq_getElem _ _ _ hk2, getD_eq_getElem _ _ _ hkb,
          getD_eq_getElem _ _ _ hka]
        rw [List.getElem_of_eq hz hk2, List.getElem_zipWith]
      have hbmem : ∀ v, v ∈ b.elems ↔
          v < 65536 ∧ (wb.getD (v / 64) 0).testBit (v % 64) = true := by
        intro v
        show v ∈ (match b.bits with
          | none => b.smallPool.take b.smallPoolLen
          | some ws => bitsElems ws) ↔ _
        rw [hbb]
        exact mem_bitsElems0 hwsb v
      have hamem : ∀ v, v ∈ a.elems ↔
          v < 65536 ∧ (wa.getD (v / 64) 0).testBit (v % 64) = true := by
        intro v
        show v ∈ (match a.bits with
          | none => a.smallPool.take a.smallPoolLen
          | some ws => bitsElems ws) ↔ _
        rw [hab]
        exact mem_bitsElems0 hwsa v
      have hmemnew : ∀ v, v ∈ bitsElemsFrom (interBitsAux wa wb).2 0 ↔
          (v ∈ b.elems ∧ v ∈ a.elems) := by
        intro v
        rw [mem_bitsElems0 hr2len]
        constructor
        · rintro ⟨hvlt, htb⟩
          rw [hr2get (v / 64) (by omega), Nat.testBit_and, Bool.and_eq_true] at htb
          exact ⟨(hbmem v).mpr ⟨hvlt, htb.1⟩, (hamem v).mpr ⟨hvlt, htb.2⟩⟩
        · rintro ⟨hvb, hva⟩
          obtain ⟨hvlt, htb⟩ := (hbmem v).mp hvb
          obtain ⟨_, hta⟩ := (hamem v).mp hva
          refine ⟨hvlt, ?_⟩
          rw [hr2get (v / 64) (by omega), Nat.testBit_and, htb, hta]
          rfl
      rw [hinter]
      refine ⟨?_, ?_, ?_⟩
      · rw [bucket16.wf16_iff]
        refine ⟨hpoolb, hlenb, hndb, hbndb, ?_⟩
        intro ws hws
        have hws2 : ws = (interBitsAux wa wb).2 := by
          cases hws
          rfl
        subst hws2
        refine ⟨hr2len, ?_⟩
        intro w hw
        rw [hz] at hw
        obtain ⟨k, hk, rfl⟩ := List.getElem_of_mem hw
        rw [List.getElem_zipWith]
        have hkb : k < wb.length := by
          rw [List.length_zipWith] at hk
          omega
        calc wb[k] &&& wa[k] ≤ wb[k] := Nat.and_le_left
          _ < 2 ^ 64 := hwbndb _ (List.getElem_mem _)
      · intro v
        show v ∈ bitsElems (interBitsAux wa wb).2 ↔ _
        exact hmemnew v
      · show (interBitsAux wa wb).1 = (bitsElems (interBitsAux wa wb).2).length
        rw [bitsElems, length_bitsElemsFrom]
        exact hsum

theorem zeroLoop16_spec : ∀ (bb : List bucket16) (i n : Nat),
    (zeroLoop16 bb i n).length = bb.length ∧
    (∀ k, (k < i ∨ n ≤ k) →
      (zeroLoop16 bb i n).getD k emptyB16 = bb.getD k emptyB16) ∧
    (∀ k, i ≤ k → k < n → (zeroLoop16 bb i n).getD k emptyB16 = emptyB16) := by
  intro bb i n
  induction bb, i, n using zeroLoop16.induct with
  | case1 bb i n h ih =>
    obtain ⟨ih1, ih2, ih3⟩ := ih
    have hstep : zeroLoop16 bb i n = zeroLoop16 (bb.set i emptyB16) (i + 1) n := by
      rw [zeroLoop16, if_pos h]
    rw [hstep]
    refine ⟨by rw [ih1, List.length_set], ?_, ?_⟩
    · intro k hk
      rw [ih2 k (by omega)]
      exact getD_set_ne _ _ _ _ _ (by omega)
    · intro k hk1 hk2
      rcases eq_or_ne k i with rfl | hne
      · rw [ih2 k (by omega)]
        rcases Nat.lt_or_ge k bb.length with hlt | hge
        · exact getD_set_self _ _ _ _ hlt
        · rw [List.getD_eq_default _ _ (by rw [List.length_set]; omega)]
      · exact ih3 k (by omega) hk2
  | case2 bb i n h =>
    have hstep : zeroLoop16 bb i n = bb := by
      rw [zeroLoop16, if_neg h]
    rw [hstep]
    refine ⟨rfl, fun k _ => rfl, ?_⟩
    intro k hk1 hk2
    omega

theorem sorted_getD_lt (l : List Nat) (h : l.Pairwise (· < ·)) (p q : Nat)
    (hpq : p < q) (hq : q < l.length) : l.getD p 0 < l.getD q 0 := by
  rw [getD_eq_getElem _ _ _ (by omega), getD_eq_getElem _ _ _ hq]
  exact List.pairwise_iff_getElem.mp h p q (by omega) hq hpq

theorem sorted_getD_le (l : List Nat) (h : l.Pairwise (· < ·)) (p q : Nat)
    (hpq : p ≤ q) (hq : q < l.length) : l.getD p 0 ≤ l.getD q 0 := by
  rcases Nat.eq_or_lt_of_le hpq with rfl | hlt
  · exact le_refl _
  · exact le_of_lt (sorted_getD_lt l h p q hlt hq)

/-- Merge-join invariant of `interLoop32`: positions before `i` are
untouched; from `i` on, each leaf is well-formed and holds exactly the old
values whose key is matched (at or after `j`) in the operand with the value
present there; the returned count adds the sizes of the processed tail. -/
theorem interLoop32_spec :
    ∀ (bh ah : List Nat) (bb ab : List bucket16) (i j cnt : Nat),
      bh.length = bb.length → ah.length = ab.length →
      bh.Pairwise (· < ·) → ah.Pairwise (· < ·) →
      (∀ leaf ∈ bb, leaf.wf = true) → (∀ leaf ∈ ab, leaf.wf = true) →
      (interLoop32 bh ah bb ab i j cnt).2.length = bb.length ∧
      (∀ k, k < i → (interLoop32 bh ah bb ab i j cnt).2.getD k emptyB16 =
        bb.getD k emptyB16) ∧
      (∀ k, i ≤ k → k < bb.length →
        ((interLoop32 bh ah bb ab i j cnt).2.getD k emptyB16).wf = true ∧
        (∀ v, v ∈ ((interLoop32 bh ah bb ab i j cnt).2.getD k emptyB16).elems ↔
          (v ∈ (bb.getD k emptyB16).elems ∧
            ∃ l, j ≤ l ∧ l < ah.length ∧ ah.getD l 0 = bh.getD k 0 ∧
              v ∈ (ab.getD l emptyB16).elems))) ∧
      (interLoop32 bh ah bb ab i j cnt).1 =
        cnt + (((interLoop32 bh ah bb ab i j cnt).2.drop i).map
          (fun leaf => leaf.elems.length)).sum := by
  intro bh ah bb ab i j cnt
  induction bb, ab, i, j, cnt using interLoop32.induct bh ah with
  | case1 bb ab i j cnt h ih =>
    intro hblen halen hbsort hasort hbwf hawf
    have hstep : interLoop32 bh ah bb ab i j cnt =
        interLoop32 bh ah (bb.set i emptyB16) ab (i + 1) j cnt := by
      rw [interLoop32]
      rw [if_pos h]
    rw [Bool.and_eq_true, Bool.and_eq_true] at h
    obtain ⟨⟨hi, hj⟩, hlt⟩ := h
    rw [decide_eq_true_eq] at hi hj hlt
    obtain ⟨ih1, ih2, ih3, ih4⟩ := ih (by rw [List.length_set]; omega) halen
      hbsort hasort
      (fun leaf hl => by
        rcases List.mem_or_eq_of_mem_set hl with hl | rfl
        · exact hbwf _ hl
        · exact emptyB16_wf) hawf
    rw [hstep]
    have hibb : i < bb.length := by omega
    have hresi : (interLoop32 bh ah (bb.set i emptyB16) ab (i + 1) j cnt).2.getD i
        emptyB16 = emptyB16 := by
      rw [ih2 i (by omega)]
      exact getD_set_self _ _ _ _ hibb
    refine ⟨by rw [ih1, List.length_set], ?_, ?_, ?_⟩
    · intro k hk
      rw [ih2 k (by omega)]
      exact getD_set_ne _ _ _ _ _ (by omega)
    · intro k hk1 hk2
      rcases eq_or_ne k i with rfl | hne
      · rw [hresi]
        refine ⟨emptyB16_wf, ?_⟩
        intro v
        constructor
        · intro hv
          simp [emptyB16, bucket16.elems] at hv
        · rintro ⟨_, l, hl1, hl2, hl3, _⟩
          have : ah.getD j 0 ≤ ah.getD l 0 := sorted_getD_le ah hasort j l hl1 hl2
          omega
      · obtain ⟨hw, hm⟩ := ih3 k (by omega) (by rw [List.length_set]; omega)
        refine ⟨hw, ?_⟩
        intro v
        rw [hm v, getD_set_ne _ _ _ _ _ (by omega)]
    · rw [ih4]
      have hreslen :
          i < (interLoop32 bh ah (bb.set i emptyB16) ab (i + 1) j cnt).2.length := by
        rw [ih1, List.length_set]
        omega
      have hdrop : (interLoop32 bh ah (bb.set i emptyB16) ab (i + 1) j cnt).2.drop i =
          (interLoop32 bh ah (bb.set i emptyB16) ab (i + 1) j cnt).2[i] ::
          (interLoop32 bh ah (bb.set i emptyB16) ab (i + 1) j cnt).2.drop (i + 1) :=
        List.drop_eq_getElem_cons hreslen
      rw [hdrop, List.map_cons, List.sum_cons]
      have hgi : (interLoop32 bh ah (bb.set i emptyB16) ab (i + 1) j cnt).2[i] =
          emptyB16 := by
        rw [← getD_eq_getElem _ _ emptyB16 hreslen]
        exact hresi
      rw [hgi]
      have hzero : emptyB16.elems.length = 0 := rfl
      rw [hzero]
      omega
  | case2 bb ab i j cnt h1 h2 =>
    intro hblen halen hbsort hasort hbwf hawf
    have hstep : interLoop32 bh ah bb ab i j cnt = (cnt, bb) := by
      rw [interLoop32]
      rw [if_neg (by simpa using h1), if_pos h2]
    rw [hstep]
    refine ⟨rfl, fun k _ => rfl, ?_, ?_⟩
    · intro k hk1 hk2
      exact absurd hk2 (by omega)
    · show cnt = cnt + ((bb.drop i).map (fun leaf => leaf.elems.length)).sum
      rw [List.drop_eq_nil_of_le (by omega)]
      simp
  | case3 bb ab i j cnt h1 h2 h3 ih =>
    intro hblen halen hbsort hasort hbwf hawf
    have hstep : interLoop32 bh ah bb ab i j cnt =
        interLoop32 bh ah bb ab i (j + 1) cnt := by
      rw [interLoop32]
      rw [if_neg (by simpa using h1), if_neg h2, if_pos h3]
    rw [Bool.and_eq_true] at h3
    obtain ⟨hj, hlt⟩ := h3
    rw [decide_eq_true_eq] at hj hlt
    have hi : i < bh.length := by omega
    obtain ⟨ih1, ih2, ih3, ih4⟩ := ih hblen halen hbsort hasort hbwf hawf
    rw [hstep]
    refine ⟨ih1, ih2, ?_, ih4⟩
    intro k hk1 hk2
    obtain ⟨hw, hm⟩ := ih3 k hk1 hk2
    refine ⟨hw, ?_⟩
    intro v
    rw [hm v]
    have hkey : ah.getD j 0 < bh.getD k 0 :=
      lt_of_lt_of_le hlt (sorted_getD_le bh hbsort i k hk1 (by omega))
    constructor
    · rintro ⟨hv, l, hl1, hl2, hl3, hl4⟩
      exact ⟨hv, l, by omega, hl2, hl3, hl4⟩
    · rintro ⟨hv, l, hl1, hl2, hl3, hl4⟩
      rcases eq_or_ne l j with rfl | hne
      · omega
      · exact ⟨hv, l, by omega, hl2, hl3, hl4⟩
  | case4 bb ab i j cnt h1 h2 h3 h4 =>
    intro hblen halen hbsort hasort hbwf hawf
    have hi : i < bh.length := by omega
    have hstep : interLoop32 bh ah bb ab i j cnt =
        (cnt, zeroLoop16 bb i bh.length) := by
      rw [interLoop32]
      rw [if_neg (by simpa using h1), if_neg h2, if_neg (by simpa using h3),
        if_pos h4]
    obtain ⟨hz1, hz2, hz3⟩ := zeroLoop16_spec bb i bh.length
    rw [hstep]
    refine ⟨hz1, ?_, ?_, ?_⟩
    · intro k hk
      exact hz2 k (Or.inl hk)
    · intro k hk1 hk2
      rw [hz3 k hk1 (by omega)]
      refine ⟨emptyB16_wf, ?_⟩
      intro v
      constructor
      · intro hv
        simp [emptyB16, bucket16.elems] at hv
      · rintro ⟨_, l, hl1, hl2, _, _⟩
        omega
    · have hall : ∀ x ∈ ((zeroLoop16 bb i bh.length).drop i).map
          (fun leaf => leaf.elems.length), x = 0 := by
        intro x hx
        rw [List.mem_map] at hx
        obtain ⟨leaf, hleaf, rfl⟩ := hx
        obtain ⟨m, hm, hlm⟩ := List.getElem_of_mem hleaf
        have hm2 : i + m < (zeroLoop16 bb i bh.length).length := by
          rw [List.length_drop] at hm
          omega
        have hgm : (zeroLoop16 bb i bh.length)[i + m] = leaf := by
          rw [← List.getElem_drop _]
          exact hlm
        have hzg : (zeroLoop16 bb i bh.length).getD (i + m) emptyB16 = emptyB16 := by
          apply hz3 (i + m) (by omega)
          rw [hz1] at hm2
          omega
        rw [getD_eq_getElem _ _ _ hm2, hgm] at hzg
        rw [hzg]
        rfl
      show cnt = cnt + ((List.drop i (zeroLoop16 bb i bh.length)).map
        (fun leaf => leaf.elems.length)).sum
      rw [List.sum_eq_zero hall]
      rfl
  | case5 bb ab i j cnt h1 h2 h3 h4 h5 r ih =>
    intro hblen halen hbsort hasort hbwf hawf
    have hi : i < bh.length := by omega
    have hj : j < ah.length := by omega
    have hibb : i < bb.length := by omega
    have hjab : j < ab.length := by omega
    have hbw : (bb.getD i emptyB16).wf = true := by
      rw [getD_eq_getElem _ _ _ hibb]
      exact hbwf _ (List.getElem_mem _)
    have haw : (ab.getD j emptyB16).wf = true := by
      rw [getD_eq_getElem _ _ _ hjab]
      exact hawf _ (List.getElem_mem _)
    obtain ⟨hq1, hq2, hq3⟩ :=
      bucket16.intersect16_spec (bb.getD i emptyB16) (ab.getD j emptyB16) hbw haw
    have hq3r : r.1 = r.2.elems.length := hq3
    have hstep : interLoop32 bh ah bb ab i j cnt =
        interLoop32 bh ah
          (bb.set i ((bb.getD i emptyB16).intersect (ab.getD j emptyB16)).2) ab
          (i + 1) (j + 1)
          (cnt + ((bb.getD i emptyB16).intersect (ab.getD j emptyB16)).1) := by
      rw [interLoop32]
      rw [if_neg (by simpa using h1), if_neg h2, if_neg (by simpa using h3),
        if_neg h4, if_pos h5]
    rw [beq_iff_eq] at h5
    obtain ⟨ih1, ih2, ih3, ih4⟩ := ih (by rw [List.length_set]; omega) halen
      hbsort hasort
      (fun leaf hl => by
        rcases List.mem_or_eq_of_mem_set hl with hl | rfl
        · exact hbwf _ hl
        · exact hq1) hawf
    rw [hstep]
    have hresi : (interLoop32 bh ah (bb.set i r.2) ab (i + 1) (j + 1)
        (cnt + r.1)).2.getD i emptyB16 = r.2 := by
      rw [ih2 i (by omega)]
      exact getD_set_self _ _ _ _ hibb
    refine ⟨by rw [ih1, List.length_set], ?_, ?_, ?_⟩
    · intro k hk
      rw [ih2 k (by omega)]
      exact getD_set_ne _ _ _ _ _ (by omega)
    · intro k hk1 hk2
      rcases eq_or_ne k i with rfl | hne
      · rw [hresi]
        refine ⟨hq1, ?_⟩
        intro v
        rw [hq2 v]
        constructor
        · rintro ⟨hvb, hva⟩
          exact ⟨hvb, j, le_refl _, hj, h5.symm, hva⟩
        · rintro ⟨hvb, l, hl1, hl2, hl3, hl4⟩
          refine ⟨hvb, ?_⟩
          rcases eq_or_ne l j with rfl | hlne
          · exact hl4
          · have : ah.getD j 0 < ah.getD l 0 :=
              sorted_getD_lt ah hasort j l (by omega) hl2
            omega
      · obtain ⟨hw, hm⟩ := ih3 k (by omega) (by rw [List.length_set]; omega)
        refine ⟨hw, ?_⟩
        intro v
        rw [hm v, getD_set_ne _ _ _ _ _ (by omega)]
        have hkey : bh.getD i 0 < bh.getD k 0 :=
          sorted_getD_lt bh hbsort i k (by omega) (by omega)
        constructor
        · rintro ⟨hv, l, hl1, hl2, hl3, hl4⟩
          exact ⟨hv, l, by omega, hl2, hl3, hl4⟩
        · rintro ⟨hv, l, hl1, hl2, hl3, hl4⟩
          rcases eq_or_ne l j with rfl | hlne
          · omega
          · exact ⟨hv, l, by omega, hl2, hl3, hl4⟩
    · rw [ih4]
      have hreslen : i < (interLoop32 bh ah (bb.set i r.2) ab (i + 1) (j + 1)
          (cnt + r.1)).2.length := by
        rw [ih1, List.length_set]
        omega
      have hdrop : (interLoop32 bh ah (bb.set i r.2) ab (i + 1) (j + 1)
          (cnt + r.1)).2.drop i =
          (interLoop32 bh ah (bb.set i r.2) ab (i + 1) (j + 1)
            (cnt + r.1)).2[i] ::
          (interLoop32 bh ah (bb.set i r.2) ab (i + 1) (j + 1)
            (cnt + r.1)).2.drop (i + 1) :=
        List.drop_eq_getElem_cons hreslen
      rw [hdrop, List.map_cons, List.sum_cons]
      have hri : (interLoop32 bh ah (bb.set i r.2) ab (i + 1) (j + 1)
          (cnt + r.1)).2[i] = r.2 := by
        rw [← getD_eq_getElem _ _ emptyB16 hreslen]
        exact hresi
      rw [hri, ← hq3r]
      omega
  | case6 bb ab i j cnt h1 h2 h3 h4 h5 =>
    intro hblen halen hbsort hasort hbwf hawf
    exfalso
    have hi : i < bh.length := by omega
    have hj : j < ah.length := by omega
    have hc1 : ¬ (bh.getD i 0 < ah.getD j 0) := fun hc => h1 (by
      simp only [Bool.and_eq_true, decide_eq_true_eq]
      exact ⟨⟨hi, hj⟩, hc⟩)
    have hc3 : ¬ (ah.getD j 0 < bh.getD i 0) := fun hc => h3 (by
      simp only [Bool.and_eq_true, decide_eq_true_eq]
      exact ⟨hj, hc⟩)
    have hc5 : bh.getD i 0 ≠ ah.getD j 0 := by simpa using h5
    omega

/-- `bucket32.intersect`: the returned mid bucket is well-formed, keeps its
key, and holds exactly the common members; the returned count is its
size. -/
theorem bucket32.intersect32_spec (b a : bucket32) (hb : b.wf = true)
    (ha : a.wf = true) :
    (b.intersect a).2.wf = true ∧
    (b.intersect a).2.hi = b.hi ∧
    (∀ v, v ∈ (b.intersect a).2.elems ↔ (v ∈ b.elems ∧ v ∈ a.elems)) ∧
    (b.intersect a).1 = (b.intersect a).2.elems.length := by
  obtain ⟨hbhi, hblen, hbnd, hbkb, hbsort0, hbleaf⟩ := (bucket32.wf32_iff b).mp hb
  obtain ⟨hahi, halen, hand, hakb, hasort0, haleaf⟩ := (bucket32.wf32_iff a).mp ha
  obtain ⟨hbshi, _, _, hbsl1, hbsl2, hbsle, hbsperm, hbselems, hbsmem⟩ :=
    bucket32.sort32_spec b hblen
  obtain ⟨hashi, _, _, hasl1, hasl2, hasle, hasperm, haselems, hasmem⟩ :=
    bucket32.sort32_spec a halen
  have hcs : a.cloneShallow = a := rfl
  have hintr : b.intersect a =
      ((interLoop32 b.sort.b16his (a.cloneShallow.sort).b16his b.sort.buckets
          (a.cloneShallow.sort).buckets 0 0 0).1,
       bucket32.mk b.sort.hi b.sort.b16his
         (interLoop32 b.sort.b16his (a.cloneShallow.sort).b16his b.sort.buckets
           (a.cloneShallow.sort).buckets 0 0 0).2
         b.sort.hint) := by
    rw [bucket32.intersect]
  rw [hcs] at hintr
  have hbsnd : b.sort.b16his.Nodup := hbsperm.nodup_iff.mpr hbnd
  have hasnd : a.sort.b16his.Nodup := hasperm.nodup_iff.mpr hand
  have hbsstrict : b.sort.b16his.Pairwise (· < ·) :=
    (hbsle.and hbsnd).imp (fun h => lt_of_le_of_ne h.1 h.2)
  have hasstrict : a.sort.b16his.Pairwise (· < ·) :=
    (hasle.and hasnd).imp (fun h => lt_of_le_of_ne h.1 h.2)
  have hbswf : ∀ leaf ∈ b.sort.buckets, leaf.wf = true := fun leaf hl =>
    hbleaf _ (hbsmem leaf hl)
  have haswf : ∀ leaf ∈ a.sort.buckets, leaf.wf = true := fun leaf hl =>
    haleaf _ (hasmem leaf hl)
  have hbskb : ∀ h ∈ b.sort.b16his, h < 65536 := fun h hh =>
    hbkb h (hbsperm.mem_iff.mp hh)
  have haskb : ∀ h ∈ a.sort.b16his, h < 65536 := fun h hh =>
    hakb h (hasperm.mem_iff.mp hh)
  obtain ⟨hl1, hl2, hl3, hl4⟩ := interLoop32_spec b.sort.b16his a.sort.b16his
    b.sort.buckets a.sort.buckets 0 0 0 (by omega) (by omega)
    hbsstrict hasstrict hbswf haswf
  set r2 := (interLoop32 b.sort.b16his a.sort.b16his b.sort.buckets
    a.sort.buckets 0 0 0).2 with hr2
  have hr2len : r2.length = b.sort.b16his.length := by
    rw [hl1]
    omega
  have hmem : ∀ v, v ∈ pairElems b.sort.b16his r2 ↔
      (v ∈ b.elems ∧ v ∈ a.elems) := by
    intro v
    constructor
    · intro hv
      rw [mem_pairElems] at hv
      obtain ⟨k, hk1, hk2, w, hw, rfl⟩ := hv
      have hkbb : k < b.sort.buckets.length := by omega
      obtain ⟨hwfk, hmk⟩ := hl3 k (by omega) hkbb
      rw [getD_eq_getElem _ _ _ hk2] at hmk
      obtain ⟨hwb, l, _, hl, hkey, hwa⟩ := (hmk w).mp hw
      rw [getD_eq_getElem _ _ _ hkbb] at hwb
      have hlab : l < a.sort.buckets.length := by omega
      rw [getD_eq_getElem _ _ _ hlab] at hwa
      rw [getD_eq_getElem _ _ _ hl, getD_eq_getElem _ _ _ (by omega : k < b.sort.b16his.length)] at hkey
      constructor
      · rw [← hbselems.mem_iff, bucket32.elems, mem_pairElems]
        exact ⟨k, by omega, hkbb, w, hwb, rfl⟩
      · rw [← haselems.mem_iff, bucket32.elems, mem_pairElems]
        refine ⟨l, hl, hlab, w, hwa, ?_⟩
        rw [hkey]
    · rintro ⟨hvb, hva⟩
      rw [← hbselems.mem_iff, bucket32.elems, mem_pairElems] at hvb
      rw [← haselems.mem_iff, bucket32.elems, mem_pairElems] at hva
      obtain ⟨k, hk1, hk2, w, hw, hveq⟩ := hvb
      obtain ⟨l, hl1', hl2', w2, hw2, hveq2⟩ := hva
      have hwlt : w < 65536 :=
        bucket16.elems16_lt _ (hbswf _ (List.getElem_mem _)) w hw
      have hw2lt : w2 < 65536 :=
        bucket16.elems16_lt _ (haswf _ (List.getElem_mem _)) w2 hw2
      have hkb1 : b.sort.b16his[k] < 65536 := hbskb _ (List.getElem_mem _)
      have hkb2 : a.sort.b16his[l] < 65536 := haskb _ (List.getElem_mem _)
      have hkeyeq : b.sort.b16his[k] = a.sort.b16his[l] := by omega
      have hweq : w = w2 := by omega
      subst hveq
      rw [mem_pairElems]
      refine ⟨k, hk1, by omega, w, ?_, rfl⟩
      obtain ⟨hwfk, hmk⟩ := hl3 k (by omega) (by omega)
      rw [getD_eq_getElem _ _ _ (by omega : k < r2.length)] at hmk
      rw [hmk w]
      refine ⟨by rw [getD_eq_getElem _ _ _ (by omega : k < b.sort.buckets.length)]; exact hw, l, by omega, by omega, ?_, ?_⟩
      · rw [getD_eq_getElem _ _ _ (by omega : l < a.sort.b16his.length),
          getD_eq_getElem _ _ _ (by omega : k < b.sort.b16his.length)]
        rw [hkeyeq]
      · rw [getD_eq_getElem _ _ _ (by omega : l < a.sort.buckets.length)]
        rw [hweq]
        exact hw2
  rw [hintr]
  refine ⟨?_, ?_, ?_, ?_⟩
  · rw [bucket32.wf32_iff]
    refine ⟨by rw [hbshi]; exact hbhi, by rw [hr2len], hbsnd, hbskb, ?_, ?_⟩
    · intro _
      exact hbsstrict
    · intro leaf hl
      obtain ⟨k, hk, rfl⟩ := List.getElem_of_mem hl
      have hk' : k < r2.length := hk
      obtain ⟨hwfk, _⟩ := hl3 k (by omega) (by omega)
      rw [getD_eq_getElem _ _ _ hk'] at hwfk
      exact hwfk
  · rw [hbshi]
  · intro v
    exact hmem v
  · show (interLoop32 b.sort.b16his a.sort.b16his b.sort.buckets
        a.sort.buckets 0 0 0).1 = (pairElems b.sort.b16his r2).length
    rw [hl4, List.drop_zero, pairElems_length]
    have hzipmap : ((b.sort.b16his.zip r2).map (fun p => p.2.elems.length)) =
        (r2.map (fun leaf => leaf.elems.length)) := by
      have h1 : (fun p : Nat × bucket16 => p.2.elems.length) =
          ((fun leaf : bucket16 => leaf.elems.length) ∘ Prod.snd) := rfl
      rw [h1, ← List.map_map, List.map_snd_zip _ _ (by omega)]
    rw [hzipmap]
    omega

theorem emptyB32_wf : emptyB32.wf = true := by decide

theorem emptyB32_elems : emptyB32.elems = [] := rfl

theorem zeroLoop32_spec : ∀ (bb : List bucket32) (i n : Nat),
    (zeroLoop32 bb i n).length = bb.length ∧
    (∀ k, (k < i ∨ n ≤ k) →
      (zeroLoop32 bb i n).getD k emptyB32 = bb.getD k emptyB32) ∧
    (∀ k, i ≤ k → k < n → (zeroLoop32 bb i n).getD k emptyB32 = emptyB32) := by
  intro bb i n
  induction bb, i, n using zeroLoop32.induct with
  | case1 bb i n h ih =>
    obtain ⟨ih1, ih2, ih3⟩ := ih
    have hstep : zeroLoop32 bb i n = zeroLoop32 (bb.set i emptyB32) (i + 1) n := by
      rw [zeroLoop32, if_pos h]
    rw [hstep]
    refine ⟨by rw [ih1, List.length_set], ?_, ?_⟩
    · intro k hk
      rw [ih2 k (by omega)]
      exact getD_set_ne _ _ _ _ _ (by omega)
    · intro k hk1 hk2
      rcases eq_or_ne k i with rfl | hne
      · rw [ih2 k (by omega)]
        rcases Nat.lt_or_ge k bb.length with hlt | hge
        · exact getD_set_self _ _ _ _ hlt
        · rw [List.getD_eq_default _ _ (by rw [List.length_set]; omega)]
      · exact ih3 k (by omega) hk2
  | case2 bb i n h =>
    have hstep : zeroLoop32 bb i n = bb := by
      rw [zeroLoop32, if_neg h]
    rw [hstep]
    refine ⟨rfl, fun k _ => rfl, ?_⟩
    intro k hk1 hk2
    omega

/-- Merge-join invariant of the top-level `interLoopTop`: positions before
`i` are untouched; from `i` on, each entry is either the well-formed
intersection with the matching operand bucket (key preserved) or the zero
bucket when its key is unmatched at or after `j`; the returned count adds
the sizes of the processed tail. -/
theorem interLoopTop_spec :
    ∀ (sb ab : List bucket32) (i j cnt : Nat),
      (∀ p q, i ≤ p → p < q → q < sb.length →
        (sb.getD p emptyB32).hi < (sb.getD q emptyB32).hi) →
      (∀ p q, p < q → q < ab.length →
        (ab.getD p emptyB32).hi < (ab.getD q emptyB32).hi) →
      (∀ bk ∈ sb, bk.wf = true) → (∀ bk ∈ ab, bk.wf = true) →
      (interLoopTop sb ab i j cnt).2.length = sb.length ∧
      (∀ k, k < i → (interLoopTop sb ab i j cnt).2.getD k emptyB32 =
        sb.getD k emptyB32) ∧
      (∀ k, i ≤ k → k < sb.length →
        ((∃ l, j ≤ l ∧ l < ab.length ∧
            (ab.getD l emptyB32).hi = (sb.getD k emptyB32).hi ∧
            ((interLoopTop sb ab i j cnt).2.getD k emptyB32).wf = true ∧
            ((interLoopTop sb ab i j cnt).2.getD k emptyB32).hi =
              (sb.getD k emptyB32).hi ∧
            (∀ v, v ∈ ((interLoopTop sb ab i j cnt).2.getD k emptyB32).elems ↔
              (v ∈ (sb.getD k emptyB32).elems ∧
                v ∈ (ab.getD l emptyB32).elems))) ∨
          ((∀ l, j ≤ l → l < ab.length →
              (ab.getD l emptyB32).hi ≠ (sb.getD k emptyB32).hi) ∧
            (interLoopTop sb ab i j cnt).2.getD k emptyB32 = emptyB32))) ∧
      (interLoopTop sb ab i j cnt).1 =
        cnt + (((interLoopTop sb ab i j cnt).2.drop i).map
          (fun bk => bk.elems.length)).sum := by
  intro sb ab i j cnt
  induction sb, ab, i, j, cnt using interLoopTop.induct with
  | case1 sb ab i j cnt h ih =>
    intro hsb hab hswf hawf
    have hstep : interLoopTop sb ab i j cnt =
        interLoopTop (sb.set i emptyB32) ab (i + 1) j cnt := by
      rw [interLoopTop]
      rw [if_pos h]
    rw [Bool.and_eq_true, Bool.and_eq_true] at h
    obtain ⟨⟨hi, hj⟩, hlt⟩ := h
    rw [decide_eq_true_eq] at hi hj hlt
    obtain ⟨ih1, ih2, ih3, ih4⟩ := ih
      (fun p q hp hpq hq => by
        rw [getD_set_ne _ _ _ _ _ (by omega), getD_set_ne _ _ _ _ _ (by omega)]
        refine hsb p q (by omega) hpq ?_
        rw [List.length_set] at hq
        omega)
      hab
      (fun bk hl => by
        rcases List.mem_or_eq_of_mem_set hl with hl | rfl
        · exact hswf _ hl
        · exact emptyB32_wf) hawf
    rw [hstep]
    have hresi : (interLoopTop (sb.set i emptyB32) ab (i + 1) j cnt).2.getD i
        emptyB32 = emptyB32 := by
      rw [ih2 i (by omega)]
      exact getD_set_self _ _ _ _ hi
    refine ⟨by rw [ih1, List.length_set], ?_, ?_, ?_⟩
    · intro k hk
      rw [ih2 k (by omega)]
      exact getD_set_ne _ _ _ _ _ (by omega)
    · intro k hk1 hk2
      rcases eq_or_ne k i with rfl | hne
      · refine Or.inr ⟨?_, hresi⟩
        intro l hl1 hl2 hc
        have hle : (ab.getD j emptyB32).hi ≤ (ab.getD l emptyB32).hi := by
          rcases Nat.eq_or_lt_of_le hl1 with rfl | hlt2
          · exact le_refl _
          · exact le_of_lt (hab j l hlt2 hl2)
        omega
      · have heq : (sb.set i emptyB32).getD k emptyB32 = sb.getD k emptyB32 :=
          getD_set_ne _ _ _ _ _ (by omega)
        have hdisj := ih3 k (by omega) (by rw [List.length_set]; omega)
        rw [heq] at hdisj
        exact hdisj
    · rw [ih4]
      have hreslen :
          i < (interLoopTop (sb.set i emptyB32) ab (i + 1) j cnt).2.length := by
        rw [ih1, List.length_set]
        omega
      have hdrop : (interLoopTop (sb.set i emptyB32) ab (i + 1) j cnt).2.drop i =
          (interLoopTop (sb.set i emptyB32) ab (i + 1) j cnt).2[i] ::
          (interLoopTop (sb.set i emptyB32) ab (i + 1) j cnt).2.drop (i + 1) :=
        List.drop_eq_getElem_cons hreslen
      rw [hdrop, List.map_cons, List.sum_cons]
      have hgi : (interLoopTop (sb.set i emptyB32) ab (i + 1) j cnt).2[i] =
          emptyB32 := by
        rw [← getD_eq_getElem _ _ emptyB32 hreslen]
        exact hresi
      rw [hgi]
      have hzero : emptyB32.elems.length = 0 := rfl
      rw [hzero]
      omega
  | case2 sb ab i j cnt h1 h2 =>
    intro hsb hab hswf hawf
    have hstep : interLoopTop sb ab i j cnt = (cnt, sb) := by
      rw [interLoopTop]
      rw [if_neg (by simpa using h1), if_pos h2]
    rw [hstep]
    refine ⟨rfl, fun k _ => rfl, ?_, ?_⟩
    · intro k hk1 hk2
      exact absurd hk2 (by omega)
    · show cnt = cnt + ((sb.drop i).map (fun bk => bk.elems.length)).sum
      rw [List.drop_eq_nil_of_le (by omega)]
      simp
  | case3 sb ab i j cnt h1 h2 h3 ih =>
    intro hsb hab hswf hawf
    have hstep : interLoopTop sb ab i j cnt =
        interLoopTop sb ab i (j + 1) cnt := by
      rw [interLoopTop]
      rw [if_neg (by simpa using h1), if_neg h2, if_pos h3]
    rw [Bool.and_eq_true] at h3
    obtain ⟨hj, hlt⟩ := h3
    rw [decide_eq_true_eq] at hj hlt
    have hi : i < sb.length := by omega
    obtain ⟨ih1, ih2, ih3, ih4⟩ := ih hsb hab hswf hawf
    rw [hstep]
    refine ⟨ih1, ih2, ?_, ih4⟩
    intro k hk1 hk2
    have hkey : (ab.getD j emptyB32).hi < (sb.getD k emptyB32).hi := by
      rcases Nat.eq_or_lt_of_le hk1 with rfl | hlt2
      · exact hlt
      · exact lt_trans hlt (hsb i k (le_refl _) hlt2 hk2)
    rcases ih3 k hk1 hk2 with ⟨l, hl1, hl2, hl3, hrest⟩ | ⟨hnone, hzero⟩
    · exact Or.inl ⟨l, by omega, hl2, hl3, hrest⟩
    · refine Or.inr ⟨?_, hzero⟩
      intro l hl1 hl2 hc
      rcases eq_or_ne l j with rfl | hne
      · omega
      · exact hnone l (by omega) hl2 hc
  | case4 sb ab i j cnt h1 h2 h3 h4 =>
    intro hsb hab hswf hawf
    have hi : i < sb.length := by omega
    have hstep : interLoopTop sb ab i j cnt =
        (cnt, zeroLoop32 sb i sb.length) := by
      rw [interLoopTop]
      rw [if_neg (by simpa using h1), if_neg h2, if_neg (by simpa using h3),
        if_pos h4]
    obtain ⟨hz1, hz2, hz3⟩ := zeroLoop32_spec sb i sb.length
    rw [hstep]
    refine ⟨hz1, ?_, ?_, ?_⟩
    · intro k hk
      exact hz2 k (Or.inl hk)
    · intro k hk1 hk2
      refine Or.inr ⟨?_, hz3 k hk1 (by omega)⟩
      intro l hl1 hl2 _
      omega
    · have hall : ∀ x ∈ ((zeroLoop32 sb i sb.length).drop i).map
          (fun bk => bk.elems.length), x = 0 := by
        intro x hx
        rw [List.mem_map] at hx
        obtain ⟨bk, hbk, rfl⟩ := hx
        obtain ⟨m, hm, hlm⟩ := List.getElem_of_mem hbk
        have hm2 : i + m < (zeroLoop32 sb i sb.length).length := by
          rw [List.length_drop] at hm
          omega
        have hgm : (zeroLoop32 sb i sb.length)[i + m] = bk := by
          rw [← List.getElem_drop _]
          exact hlm
        have hzg : (zeroLoop32 sb i sb.length).getD (i + m) emptyB32 = emptyB32 := by
          apply hz3 (i + m) (by omega)
          rw [hz1] at hm2
          omega
        rw [getD_eq_getElem _ _ _ hm2, hgm] at hzg
        rw [hzg]
        rfl
      show cnt = cnt + ((List.drop i (zeroLoop32 sb i sb.length)).map
        (fun bk => bk.elems.length)).sum
      rw [List.sum_eq_zero hall]
      rfl
  | case5 sb ab i j cnt h1 h2 h3 h4 h5 r ih =>
    intro hsb hab hswf hawf
    have hi : i < sb.length := by omega
    have hj : j < ab.length := by omega
    have hstep : interLoopTop sb ab i j cnt =
        interLoopTop
          (sb.set i ((sb.getD i emptyB32).intersect (ab.getD j emptyB32)).2) ab
          (i + 1) (j + 1)
          (cnt + ((sb.getD i emptyB32).intersect (ab.getD j emptyB32)).1) := by
      rw [interLoopTop]
      rw [if_neg (by simpa using h1), if_neg h2, if_neg (by simpa using h3),
        if_neg h4, if_pos h5]
    rw [beq_iff_eq] at h5
    have hbw : (sb.getD i emptyB32).wf = true := by
      rw [getD_eq_getElem _ _ _ hi]
      exact hswf _ (List.getElem_mem _)
    have haw : (ab.getD j emptyB32).wf = true := by
      rw [getD_eq_getElem _ _ _ hj]
      exact hawf _ (List.getElem_mem _)
    obtain ⟨hq1, hq2, hq3, hq4⟩ :=
      bucket32.intersect32_spec (sb.getD i emptyB32) (ab.getD j emptyB32) hbw haw
    have hq4r : r.1 = r.2.elems.length := hq4
    have hq2r : r.2.hi = (sb.getD i emptyB32).hi := hq2
    obtain ⟨ih1, ih2, ih3, ih4⟩ := ih
      (fun p q hp hpq hq => by
        rw [getD_set_ne _ _ _ _ _ (by omega), getD_set_ne _ _ _ _ _ (by omega)]
        refine hsb p q (by omega) hpq ?_
        rw [List.length_set] at hq
        omega)
      hab
      (fun bk hl => by
        rcases List.mem_or_eq_of_mem_set hl with hl | rfl
        · exact hswf _ hl
        · exact hq1) hawf
    rw [hstep]
    have hresi : (interLoopTop (sb.set i r.2) ab (i + 1) (j + 1)
        (cnt + r.1)).2.getD i emptyB32 = r.2 := by
      rw [ih2 i (by omega)]
      exact getD_set_self _ _ _ _ hi
    refine ⟨by rw [ih1, List.length_set], ?_, ?_, ?_⟩
    · intro k hk
      rw [ih2 k (by omega)]
      exact getD_set_ne _ _ _ _ _ (by omega)
    · intro k hk1 hk2
      rcases eq_or_ne k i with rfl | hne
      · rw [hresi]
        exact Or.inl ⟨j, le_refl _, hj, h5.symm, hq1, hq2r, fun v => hq3 v⟩
      · have heq : (sb.set i r.2).getD k emptyB32 = sb.getD k emptyB32 :=
          getD_set_ne _ _ _ _ _ (by omega)
        have hdisj := ih3 k (by omega) (by rw [List.length_set]; omega)
        rw [heq] at hdisj
        have hkey : (ab.getD j emptyB32).hi < (sb.getD k emptyB32).hi := by
          rw [h5.symm] at *
          exact lt_of_eq_of_lt h5.symm (hsb i k (le_refl _) (by omega) hk2)
        rcases hdisj with ⟨l, hl1, hl2, hl3, hrest⟩ | ⟨hnone, hzero⟩
        · exact Or.inl ⟨l, by omega, hl2, hl3, hrest⟩
        · refine Or.inr ⟨?_, hzero⟩
          intro l hl1 hl2 hc
          rcases eq_or_ne l j with rfl | hlne
          · omega
          · exact hnone l (by omega) hl2 hc
    · rw [ih4]
      have hreslen : i < (interLoopTop (sb.set i r.2) ab (i + 1) (j + 1)
          (cnt + r.1)).2.length := by
        rw [ih1, List.length_set]
        omega
      have hdrop : (interLoopTop (sb.set i r.2) ab (i + 1) (j + 1)
          (cnt + r.1)).2.drop i =
          (interLoopTop (sb.set i r.2) ab (i + 1) (j + 1) (cnt + r.1)).2[i] ::
          (interLoopTop (sb.set i r.2) ab (i + 1) (j + 1)
            (cnt + r.1)).2.drop (i + 1) :=
        List.drop_eq_getElem_cons hreslen
      rw [hdrop, List.map_cons, List.sum_cons]
      have hri : (interLoopTop (sb.set i r.2) ab (i + 1) (j + 1)
          (cnt + r.1)).2[i] = r.2 := by
        rw [← getD_eq_getElem _ _ emptyB32 hreslen]
        exact hresi
      rw [hri, ← hq4r]
      omega
  | case6 sb ab i j cnt h1 h2 h3 h4 h5 =>
    intro hsb hab hswf hawf
    exfalso
    have hi : i < sb.length := by omega
    have hj : j < ab.length := by omega
    have hc1 : ¬ ((sb.getD i emptyB32).hi < (ab.getD j emptyB32).hi) := fun hc =>
      h1 (by
        simp only [Bool.and_eq_true, decide_eq_true_eq]
        exact ⟨⟨hi, hj⟩, hc⟩)
    have hc3 : ¬ ((ab.getD j emptyB32).hi < (sb.getD i emptyB32).hi) := fun hc =>
      h3 (by
        simp only [Bool.and_eq_true, decide_eq_true_eq]
        exact ⟨hj, hc⟩)
    have hc5 : (sb.getD i emptyB32).hi ≠ (ab.getD j emptyB32).hi := by
      simpa using h5
    omega

theorem nodup_length_le {l1 l2 : List Nat} (h1 : l1.Nodup)
    (hsub : ∀ x ∈ l1, x ∈ l2) : l1.length ≤ l2.length := by
  have h2 : l1.toFinset.card = l1.length := List.toFinset_card_of_nodup h1
  have h3 : l1.toFinset ⊆ l2.toFinset := by
    intro x hx
    rw [List.mem_toFinset] at hx ⊢
    exact hsub x hx
  calc l1.length = l1.toFinset.card := h2.symm
    _ ≤ l2.toFinset.card := Finset.card_le_card h3
    _ ≤ l2.length := l2.toFinset_card_le

theorem bucket32.elems32_nodup (b : bucket32) (hwf : b.wf = true) :
    b.elems.Nodup := by
  obtain ⟨hhi, hlen, hnd, hkb, hsort, hleaf⟩ := (bucket32.wf32_iff b).mp hwf
  exact pairElems_nodup b.b16his b.buckets hnd hkb hleaf

theorem Set.memberList_nodup (s : Set) (hwf : s.wf = true) :
    s.memberList.Nodup := by
  obtain ⟨hnd, hbwf, hcnt⟩ := (Set.wf_iff s).mp hwf
  rw [Set.memberList, topElems, List.nodup_flatten]
  constructor
  · intro bl hbl
    rw [List.mem_map] at hbl
    obtain ⟨b, hb, rfl⟩ := hbl
    exact (bucket32.elems32_nodup b (hbwf _ hb)).map (fun u v huv => by omega)
  · rw [List.pairwise_iff_getElem]
    intro p q hp hq hpq
    simp only [List.length_map] at hp hq
    simp only [List.getElem_map]
    intro y hyp hyq
    rw [List.mem_map] at hyp hyq
    obtain ⟨v, hv, rfl⟩ := hyp
    obtain ⟨w, hw, heq⟩ := hyq
    have hvlt : v < 4294967296 :=
      bucket32.elems32_lt _ (hbwf _ (List.getElem_mem _)) v hv
    have hwlt : w < 4294967296 :=
      bucket32.elems32_lt _ (hbwf _ (List.getElem_mem _)) w hw
    have hhine : (s.buckets[p]).hi ≠ (s.buckets[q]).hi := by
      intro hc
      have hpm : p < (s.buckets.map bucket32.hi).length := by simp [hp]
      have hqm : q < (s.buckets.map bucket32.hi).length := by simp [hq]
      have := nodup_getElem_unique hnd hpm hqm (by
        simp only [List.getElem_map]
        exact hc)
      omega
    apply hhine
    omega

/-- Sorting a well-formed set yields a well-formed set. -/
theorem Set.sort_wf (s : Set) (hwf : s.wf = true) : s.sort.wf = true := by
  obtain ⟨hnd, hbwf, hcnt⟩ := (Set.wf_iff s).mp hwf
  obtain ⟨hscnt, hsperm, hssorted, hsmemperm⟩ := Set.sort_spec s
  rw [Set.wf_iff]
  refine ⟨((hsperm.map _).nodup_iff).mpr hnd, ?_, ?_⟩
  · intro b hb
    exact hbwf _ (hsperm.mem_iff.mp hb)
  · rw [hscnt, hsmemperm.length_eq]
    exact hcnt

/-- Strictly increasing mid-bucket keys of a sorted well-formed set, in
`getD` form. -/
theorem Set.sort_strict (s : Set) (hwf : s.wf = true) :
    ∀ p q, p < q → q < s.sort.buckets.length →
      (s.sort.buckets.getD p emptyB32).hi < (s.sort.buckets.getD q emptyB32).hi := by
  obtain ⟨hnd, hbwf, hcnt⟩ := (Set.wf_iff s).mp hwf
  obtain ⟨hscnt, hsperm, hssorted, hsmemperm⟩ := Set.sort_spec s
  have hsnd : (s.sort.buckets.map bucket32.hi).Nodup :=
    ((hsperm.map _).nodup_iff).mpr hnd
  have hstrict : (s.sort.buckets.map bucket32.hi).Pairwise (· < ·) :=
    (hssorted.and hsnd).imp (fun h => lt_of_le_of_ne h.1 h.2)
  intro p q hpq hq
  rw [getD_eq_getElem _ _ _ (by omega), getD_eq_getElem _ _ _ hq]
  have := List.pairwise_iff_getElem.mp hstrict p q (by simp; omega) (by simp [hq])
    hpq
  simpa using this

theorem emptySet_Has (x : Nat) : emptySet.Has x = false := rfl

theorem emptyB32_has (v : Nat) : emptyB32.has v = false := rfl

/-- `Set.Intersect`: membership becomes the conjunction of the two
original memberships, and the stored count is the size of the
intersection (expressed as a filter of the receiver's member list). -/
theorem Set.Intersect_spec (s a : Set) (hs : s.wf = true) (ha : a.wf = true) :
    (∀ x, x < 18446744073709551616 →
      (s.Intersect a).Has x = (s.Has x && a.Has x)) ∧
    (s.Intersect a).Len = (s.memberList.filter (fun x => a.Has x)).length := by
  by_cases hzero : (s.Len == 0 || a.Len == 0) = true
  · have hI : s.Intersect a = emptySet := by
      rw [Set.Intersect, if_pos hzero]
    rw [Bool.or_eq_true, beq_iff_eq, beq_iff_eq] at hzero
    constructor
    · intro x hx
      rw [hI, emptySet_Has]
      rcases hzero with h0 | h0
      · rw [Len_zero_Has s hs h0 x hx]
        rfl
      · rw [Len_zero_Has a ha h0 x hx, Bool.and_false]
    · rw [hI]
      show 0 = (s.memberList.filter (fun x => a.Has x)).length
      rcases hzero with h0 | h0
      · have hnil : s.memberList = [] := by
          have h2 := ((Set.wf_iff s).mp hs).2.2
          have h1 : s.Len = s.itemsCount := rfl
          exact List.length_eq_zero.mp (by omega)
        rw [hnil]
        rfl
      · have hfil : s.memberList.filter (fun x => a.Has x) = [] := by
          rw [List.filter_eq_nil_iff]
          intro x hxm
          rw [Len_zero_Has a ha h0 x (Set.memberList_lt s hs x hxm)]
          simp
        rw [hfil]
        rfl
  · have hcs : a.cloneShallow = a := rfl
    have hI : s.Intersect a = Set.mk
        (interLoopTop s.sort.buckets (a.cloneShallow.sort).buckets 0 0 0).1
        (interLoopTop s.sort.buckets (a.cloneShallow.sort).buckets 0 0 0).2 := by
      rw [Set.Intersect, if_neg hzero]
    rw [hcs] at hI
    have hswf1 : s.sort.wf = true := Set.sort_wf s hs
    have hawf1 : a.sort.wf = true := Set.sort_wf a ha
    obtain ⟨hsnd1, hsbwf1, hscnt1⟩ := (Set.wf_iff s.sort).mp hswf1
    obtain ⟨hand1, habwf1, hacnt1⟩ := (Set.wf_iff a.sort).mp hawf1
    have hsstrict := Set.sort_strict s hs
    have hastrict := Set.sort_strict a ha
    obtain ⟨hsmemcnt, hsmemperm2, _, hsmemperm⟩ := Set.sort_spec s
    obtain ⟨hamemcnt, hamemperm2, _, hamemperm⟩ := Set.sort_spec a
    obtain ⟨hT1, hT2, hT3, hT4⟩ := interLoopTop_spec s.sort.buckets a.sort.buckets
      0 0 0 (fun p q _ hpq hq => hsstrict p q hpq hq) hastrict hsbwf1 habwf1
    have hT3' := fun k hk => hT3 k (Nat.zero_le k) hk
    have hinj : ∀ k k', k < s.sort.buckets.length → k' < s.sort.buckets.length →
        (s.sort.buckets.getD k emptyB32).hi =
          (s.sort.buckets.getD k' emptyB32).hi → k = k' := by
      intro k k' hk hk' heq
      rcases Nat.lt_trichotomy k k' with h | h | h
      · exact absurd heq (Nat.ne_of_lt (hsstrict k k' h hk'))
      · exact h
      · exact absurd heq.symm (Nat.ne_of_lt (hsstrict k' k h hk))
    have hainj : ∀ l l', l < a.sort.buckets.length → l' < a.sort.buckets.length →
        (a.sort.buckets.getD l emptyB32).hi =
          (a.sort.buckets.getD l' emptyB32).hi → l = l' := by
      intro l l' hl hl' heq
      rcases Nat.lt_trichotomy l l' with h | h | h
      · exact absurd heq (Nat.ne_of_lt (hastrict l l' h hl'))
      · exact h
      · exact absurd heq.symm (Nat.ne_of_lt (hastrict l' l h hl))
    have hsHasmem : ∀ x, x < 18446744073709551616 →
        s.Has x = decide (x ∈ s.sort.memberList) := by
      intro x hx
      rw [Set.Has_eq_mem s hs x hx]
      simp only [hsmemperm.mem_iff]
    have haHasmem : ∀ x, x < 18446744073709551616 →
        a.Has x = decide (x ∈ a.sort.memberList) := by
      intro x hx
      rw [Set.Has_eq_mem a ha x hx]
      simp only [hamemperm.mem_iff]
    have hsroute : ∀ x, x < 18446744073709551616 →
        ∀ k, (hk : k < s.sort.buckets.length) →
        (s.sort.buckets.getD k emptyB32).hi = (x >>> 32) % 4294967296 →
        s.Has x = (s.sort.buckets.getD k emptyB32).has (x % 4294967296) := by
      intro x hx k hk hkey
      rw [hsHasmem x hx]
      rw [getD_eq_getElem _ _ _ hk] at hkey
      exact top_route s.sort hswf1 x hx k hk hkey
    have haroute : ∀ x, x < 18446744073709551616 →
        ∀ l, (hl : l < a.sort.buckets.length) →
        (a.sort.buckets.getD l emptyB32).hi = (x >>> 32) % 4294967296 →
        a.Has x = (a.sort.buckets.getD l emptyB32).has (x % 4294967296) := by
      intro x hx l hl hkey
      rw [haHasmem x hx]
      rw [getD_eq_getElem _ _ _ hl] at hkey
      exact top_route a.sort hawf1 x hx l hl hkey
    have hsnone : ∀ x, x < 18446744073709551616 →
        (∀ k, k < s.sort.buckets.length →
          (s.sort.buckets.getD k emptyB32).hi ≠ (x >>> 32) % 4294967296) →
        s.Has x = false := by
      intro x hx hno
      rw [hsHasmem x hx]
      apply top_route_none s.sort hswf1 x hx
      intro b hb hc
      obtain ⟨k, hk, rfl⟩ := List.getElem_of_mem hb
      exact hno k hk (by rw [getD_eq_getElem _ _ _ hk]; exact hc)
    have hanone : ∀ x, x < 18446744073709551616 →
        (∀ l, l < a.sort.buckets.length →
          (a.sort.buckets.getD l emptyB32).hi ≠ (x >>> 32) % 4294967296) →
        a.Has x = false := by
      intro x hx hno
      rw [haHasmem x hx]
      apply top_route_none a.sort hawf1 x hx
      intro b hb hc
      obtain ⟨l, hl, rfl⟩ := List.getElem_of_mem hb
      exact hno l hl (by rw [getD_eq_getElem _ _ _ hl]; exact hc)
    constructor
    · -- membership equation
      intro x hx
      obtain ⟨hdiv, hmod, hdecomp⟩ := split64 x hx
      have hHasEq : (s.Intersect a).Has x =
          (match (interLoopTop s.sort.buckets a.sort.buckets 0 0 0).2.findIdx?
              (fun b => b.hi == (x >>> 32) % 4294967296) with
            | some i => ((interLoopTop s.sort.buckets a.sort.buckets
                0 0 0).2.getD i emptyB32).has (x % 4294967296)
            | none => false) := by
        rw [hI, Set.Has]
      rcases hfind : (interLoopTop s.sort.buckets a.sort.buckets
          0 0 0).2.findIdx? (fun b => b.hi == (x >>> 32) % 4294967296) with _ | m
      · -- not found: no surviving bucket carries x's high word
        have hL : (s.Intersect a).Has x = false := by
          rw [hHasEq, hfind]
        rw [hL]
        have hnotfound := List.findIdx?_eq_none_iff.mp hfind
        by_cases hex : ∃ k, k < s.sort.buckets.length ∧
            (s.sort.buckets.getD k emptyB32).hi = (x >>> 32) % 4294967296
        · obtain ⟨k, hk, hkey⟩ := hex
          rcases hT3' k hk with ⟨l, _, hl2, hlhi, hwk, hhik, _⟩ | ⟨hno, hzk⟩
          · exfalso
            have hkR : k < (interLoopTop s.sort.buckets a.sort.buckets
                0 0 0).2.length := by omega
            have := hnotfound _ (List.getElem_mem hkR)
            rw [← getD_eq_getElem _ _ emptyB32 hkR] at this
            rw [hhik, hkey] at this
            simp at this
          · have haz : a.Has x = false := by
              apply hanone x hx
              intro l hl hc
              exact hno l (Nat.zero_le l) hl (by rw [hc, hkey])
            rw [haz, Bool.and_false]
        · push_neg at hex
          have hsz : s.Has x = false := hsnone x hx (fun k hk => hex k hk)
          rw [hsz, Bool.false_and]
      · -- found index m
        have hL : (s.Intersect a).Has x =
            ((interLoopTop s.sort.buckets a.sort.buckets 0 0 0).2.getD m
              emptyB32).has (x % 4294967296) := by
          rw [hHasEq, hfind]
        obtain ⟨hm, hpm, hbefore⟩ := findIdx?_some_spec hfind
        rw [beq_iff_eq] at hpm
        have hmn : m < s.sort.buckets.length := by omega
        rw [← getD_eq_getElem _ _ emptyB32 hm] at hpm
        by_cases hex : ∃ k, k < s.sort.buckets.length ∧
            (s.sort.buckets.getD k emptyB32).hi = (x >>> 32) % 4294967296
        · obtain ⟨k, hk, hkey⟩ := hex
          rcases hT3' k hk with ⟨l, _, hl2, hlhi, hwk, hhik, hmemk⟩ |
            ⟨hno, hzk⟩
          · -- k survived (matched at l); the found index must be k
            have hkm : k = m := by
              have hkR : k < (interLoopTop s.sort.buckets a.sort.buckets
                  0 0 0).2.length := by omega
              by_cases hc : k = m
              · exact hc
              · rcases Nat.lt_or_ge k m with hlt | hge
                · exfalso
                  have := hbefore k (by omega) hlt
                  rw [← getD_eq_getElem _ _ emptyB32 hkR, hhik, hkey] at this
                  simp at this
                · have hgt : m < k := by omega
                  rcases hT3' m hmn with ⟨l', _, _, _, _, hhim, _⟩ | ⟨_, hzm⟩
                  · exfalso
                    apply hc
                    symm
                    apply hinj m k hmn hk
                    rw [← hhim, hpm, ← hkey]
                  · exfalso
                    rw [hzm] at hpm
                    have h0 : (x >>> 32) % 4294967296 = 0 := by
                      rw [← hpm]
                      rfl
                    rw [h0] at hkey
                    have := hsstrict m k hgt hk
                    omega
            subst hkm
            rw [hL]
            have hsx : s.Has x = (s.sort.buckets.getD k emptyB32).has
                (x % 4294967296) := hsroute x hx k hk hkey
            have hax : a.Has x = (a.sort.buckets.getD l emptyB32).has
                (x % 4294967296) := haroute x hx l hl2 (by rw [hlhi, hkey])
            have hwfk' : (s.sort.buckets.getD k emptyB32).wf = true := by
              rw [getD_eq_getElem _ _ _ hk]
              exact hsbwf1 _ (List.getElem_mem _)
            have hwfl' : (a.sort.buckets.getD l emptyB32).wf = true := by
              rw [getD_eq_getElem _ _ _ hl2]
              exact habwf1 _ (List.getElem_mem _)
            rw [hsx, hax]
            rw [bucket32.has32_eq_mem _ hwk _ hmod,
              bucket32.has32_eq_mem _ hwfk' _ hmod,
              bucket32.has32_eq_mem _ hwfl' _ hmod]
            simp only [hmemk (x % 4294967296)]
            rw [Bool.decide_and]
          · -- k's key unmatched in a: tombstone; both sides false
            have haz : a.Has x = false := by
              apply hanone x hx
              intro l hl hc
              exact hno l (Nat.zero_le l) hl (by rw [hc, hkey])
            rw [haz, Bool.and_false, hL]
            rcases hT3' m hmn with ⟨l', _, _, _, _, hhim, _⟩ | ⟨_, hzm⟩
            · have hkm : m = k := by
                apply hinj m k hmn hk
                rw [← hhim, hpm, ← hkey]
              subst hkm
              rw [hzk]
              exact emptyB32_has _
            · rw [hzm]
              exact emptyB32_has _
        · push_neg at hex
          have hsz : s.Has x = false := hsnone x hx (fun k hk => hex k hk)
          rw [hsz, Bool.false_and, hL]
          rcases hT3' m hmn with ⟨l', _, _, _, _, hhim, _⟩ | ⟨_, hzm⟩
          · exfalso
            exact hex m hmn (by rw [← hhim, hpm])
          · rw [hzm]
            exact emptyB32_has _
    · -- count equation
      have hLen : (s.Intersect a).Len =
          ((interLoopTop s.sort.buckets a.sort.buckets 0 0 0).2.map
            (fun bk => bk.elems.length)).sum := by
        rw [hI]
        show (interLoopTop s.sort.buckets a.sort.buckets 0 0 0).1 = _
        rw [hT4, List.drop_zero]
        omega
      rw [hLen]
      have hfperm : (s.memberList.filter (fun x => a.Has x)).length =
          ((Set.memberList s.sort).filter (fun x => a.Has x)).length :=
        (hsmemperm.filter _).length_eq.symm
      rw [hfperm]
      rw [Set.memberList, topElems, List.filter_flatten, List.length_flatten,
        List.map_map, List.map_map]
      have hptw : ∀ k, (hk : k < s.sort.buckets.length) →
          ((interLoopTop s.sort.buckets a.sort.buckets 0 0 0).2.getD k
            emptyB32).elems.length =
          (((s.sort.buckets[k]).elems.map
              (fun v => (s.sort.buckets[k]).hi * 4294967296 + v)).filter
            (fun x => a.Has x)).length := by
        intro k hk
        have hkwf : (s.sort.buckets[k]).wf = true := hsbwf1 _ (List.getElem_mem _)
        have hkhi : (s.sort.buckets[k]).hi < 4294967296 :=
          ((bucket32.wf32_iff _).mp hkwf).1
        have hroutepoint : ∀ v, v ∈ (s.sort.buckets[k]).elems →
            ((s.sort.buckets[k]).hi * 4294967296 + v) <
              18446744073709551616 ∧
            (((s.sort.buckets[k]).hi * 4294967296 + v) >>> 32) % 4294967296 =
              (s.sort.buckets[k]).hi ∧
            ((s.sort.buckets[k]).hi * 4294967296 + v) % 4294967296 = v := by
          intro v hv
          have hvlt : v < 4294967296 := bucket32.elems32_lt _ hkwf v hv
          have h1 : ((s.sort.buckets[k]).hi * 4294967296 + v) <
              18446744073709551616 := by omega
          obtain ⟨hdiv, _, _⟩ := split64 _ h1
          refine ⟨h1, ?_, by omega⟩
          rw [hdiv]
          omega
        rw [List.filter_map, List.length_map]
        rcases hT3' k hk with ⟨l, _, hl2, hlhi, hwk, hhik, hmemk⟩ | ⟨hno, hzk⟩
        · have hwfl' : (a.sort.buckets.getD l emptyB32).wf = true := by
            rw [getD_eq_getElem _ _ _ hl2]
            exact habwf1 _ (List.getElem_mem _)
          have hfc : (s.sort.buckets[k]).elems.filter
              ((fun x => a.Has x) ∘
                (fun v => (s.sort.buckets[k]).hi * 4294967296 + v)) =
              (s.sort.buckets[k]).elems.filter
                (fun v => (a.sort.buckets.getD l emptyB32).has v) := by
            apply List.filter_congr
            intro v hv
            obtain ⟨h1, h2, h3⟩ := hroutepoint v hv
            show a.Has ((s.sort.buckets[k]).hi * 4294967296 + v) = _
            rw [haroute _ h1 l hl2 (by
              rw [h2, hlhi, getD_eq_getElem _ _ _ hk])]
            rw [h3]
          rw [hfc]
          apply Eq.symm
          apply length_eq_of_same_mem
          · exact ((bucket32.elems32_nodup _ hkwf).filter _)
          · exact bucket32.elems32_nodup _ hwk
          · intro w
            rw [List.mem_filter, hmemk w]
            have := getD_eq_getElem s.sort.buckets k emptyB32 hk
            rw [this]
            constructor
            · rintro ⟨h1, h2⟩
              refine ⟨h1, ?_⟩
              have hwlt : w < 4294967296 := bucket32.elems32_lt _ hkwf w h1
              have := bucket32.has32_eq_mem _ hwfl' w hwlt
              rw [this] at h2
              simpa using h2
            · rintro ⟨h1, h2⟩
              refine ⟨h1, ?_⟩
              have hwlt : w < 4294967296 := bucket32.elems32_lt _ hkwf w h1
              rw [bucket32.has32_eq_mem _ hwfl' w hwlt]
              simpa using h2
        · rw [hzk]
          have hfnil : (s.sort.buckets[k]).elems.filter
              ((fun x => a.Has x) ∘
                (fun v => (s.sort.buckets[k]).hi * 4294967296 + v)) = [] := by
            rw [List.filter_eq_nil_iff]
            intro v hv
            obtain ⟨h1, h2, h3⟩ := hroutepoint v hv
            show ¬ (a.Has ((s.sort.buckets[k]).hi * 4294967296 + v) = true)
            rw [hanone _ h1 (fun l hl hc => by
              rw [h2] at hc
              exact hno l (Nat.zero_le l) hl (by
                rw [hc, getD_eq_getElem _ _ _ hk]))]
            simp
          rw [hfnil]
          rfl
      have hlists : (interLoopTop s.sort.buckets a.sort.buckets 0 0 0).2.map
          (fun bk => bk.elems.length) =
          s.sort.buckets.map (fun b =>
            ((b.elems.map (fun v => b.hi * 4294967296 + v)).filter
              (fun x => a.Has x)).length) := by
        apply List.ext_getElem
        · rw [List.length_map, List.length_map, hT1]
        · intro k h1 h2
          rw [List.length_map] at h1 h2
          simp only [List.getElem_map]
          rw [← getD_eq_getElem _ _ emptyB32 h1]
          have hk : k < s.sort.buckets.length := h2
          exact hptw k hk
      rw [hlists]
      congr 1

/-- C4: after `Intersect`, membership is the conjunction of the two
original memberships; the stored count is the intersection's cardinality,
hence at most each original count. -/
theorem claim_C4 (s a : Set) (hs : s.wf = true) (ha : a.wf = true) :
    (∀ x, x < 18446744073709551616 →
      (s.Intersect a).Has x = (s.Has x && a.Has x)) ∧
    (s.Intersect a).Len = (s.memberList.filter (fun x => a.Has x)).length ∧
    (s.Intersect a).Len ≤ s.Len ∧
    (s.Intersect a).Len ≤ a.Len := by
  obtain ⟨h1, h2⟩ := Set.Intersect_spec s a hs ha
  refine ⟨h1, h2, ?_, ?_⟩
  · rw [h2]
    have hle := List.length_filter_le (fun x => a.Has x) s.memberList
    have hcnt := ((Set.wf_iff s).mp hs).2.2
    have hrfl : s.Len = s.itemsCount := rfl
    omega
  · rw [h2]
    have hsub : ∀ x ∈ s.memberList.filter (fun x => a.Has x), x ∈ a.memberList := by
      intro x hx
      rw [List.mem_filter] at hx
      obtain ⟨hxm, hxa⟩ := hx
      have hxlt := Set.memberList_lt s hs x hxm
      rw [Set.Has_eq_mem a ha x hxlt] at hxa
      simpa using hxa
    have hlen := nodup_length_le ((Set.memberList_nodup s hs).filter _) hsub
    have hcnt := ((Set.wf_iff a).mp ha).2.2
    have hrfl : a.Len = a.itemsCount := rfl
    omega

/-- Witness for C4 at `s = {5, 2^40}` and `a = {5, 7}`. -/
theorem claim_C4_witness :
    (∀ x, x < 18446744073709551616 →
      (((emptySet.Add 5).Add 1099511627776).Intersect
          ((emptySet.Add 5).Add 7)).Has x =
        (((emptySet.Add 5).Add 1099511627776).Has x &&
          ((emptySet.Add 5).Add 7).Has x)) ∧
    (((emptySet.Add 5).Add 1099511627776).Intersect
        ((emptySet.Add 5).Add 7)).Len =
      (((emptySet.Add 5).Add 1099511627776).memberList.filter
        (fun x => ((emptySet.Add 5).Add 7).Has x)).length ∧
    (((emptySet.Add 5).Add 1099511627776).Intersect
        ((emptySet.Add 5).Add 7)).Len ≤
      ((emptySet.Add 5).Add 1099511627776).Len ∧
    (((emptySet.Add 5).Add 1099511627776).Intersect
        ((emptySet.Add 5).Add 7)).Len ≤ ((emptySet.Add 5).Add 7).Len :=
  claim_C4 ((emptySet.Add 5).Add 1099511627776) ((emptySet.Add 5).Add 7)
    (by decide) (by decide)

end U64Set
